import Mathlib

/-
Verification of `docs/generate_from_yml.py` (libsemigroups documentation
generator) against its natural-language specification.

The Python source is shallowly embedded: file-system state and module-level
counters become explicit record state, strings become Lean `String`/`List Char`
with Python-faithful helper functions (`str.find`, `str.rfind`, slicing with
negative indices, `str.strip`, the `re.sub` patterns actually used), and
exceptions become `Option`/`Except` results.  Each claim of the specification
is stated and settled as a theorem below the definitions.
-/

set_option maxRecDepth 10000

namespace GenFromYml

/-! ## Python string primitives -/

/-- ASCII whitespace as matched by Python's `\s` and `str.strip`
(space, tab, newline, carriage return, vertical tab, form feed). -/
def pyWs (c : Char) : Bool :=
  c = ' ' || c = '\t' || c = '\n' || c = '\r' || c = '\x0b' || c = '\x0c'

/-- `str.strip()` on a character list. -/
def pyStripL (l : List Char) : List Char :=
  ((l.dropWhile pyWs).reverse.dropWhile pyWs).reverse

/-- `str.strip()`. -/
def pyStrip (s : String) : String :=
  String.mk (pyStripL s.data)

/-- Auxiliary scanner for `str.find`: first index `≥ i` at which `sub`
occurs in `l`, Python-style. -/
def pyFindAux (sub : List Char) : List Char → Nat → Option Nat
  | [], i => if sub.isPrefixOf [] then some i else none
  | c :: t, i => if sub.isPrefixOf (c :: t) then some i else pyFindAux sub t (i + 1)

/-- `s.find(sub)` returning `none` for Python's `-1`. -/
def pyFind (s sub : String) : Option Nat :=
  pyFindAux sub.data s.data 0

/-- `s.rfind(sub)` returning `none` for Python's `-1`: the largest index at
which `sub` occurs. -/
def pyRFind (s sub : String) : Option Nat :=
  (((List.range (s.data.length + 1)).filter
    (fun i => sub.data.isPrefixOf (s.data.drop i)))).getLast?

/-- Python's `in` operator on strings: substring test. -/
def pyContains (s sub : String) : Bool :=
  (pyFind s sub).isSome

/-- Clamp a Python slice bound to `[0, n]`: negative indices count from the
end of the string. -/
def pySliceBound (n : Nat) (i : Int) : Nat :=
  if i < 0 then (n + i).toNat else min i.toNat n

/-- Python slicing `l[a:b]` with full negative-index semantics. -/
def pySliceL (l : List Char) (a b : Int) : List Char :=
  (l.take (pySliceBound l.length b)).drop (pySliceBound l.length a)

/-- Python slicing `s[a:b]`. -/
def pySlice (s : String) (a b : Int) : String :=
  String.mk (pySliceL s.data a b)

/-- Python slicing `s[a:]`. -/
def pySliceFrom (s : String) (a : Int) : String :=
  pySlice s a (s.data.length : Int)

/-- Python `s.startswith(p)`. -/
def pyStartsWith (s p : String) : Bool :=
  p.data.isPrefixOf s.data

/-- Python `s.endswith(p)`. -/
def pyEndsWith (s p : String) : Bool :=
  p.data.reverse.isPrefixOf s.data.reverse

/-- Python `sep.join(parts)`. -/
def pyJoin (sep : String) (parts : List String) : String :=
  match parts with
  | [] => ""
  | p :: ps => ps.foldl (fun acc q => acc ++ sep ++ q) p

/-- Scanner for Python `str.split(sep)` with non-empty `sep`: `acc` holds the
current chunk reversed. -/
def pySplitGo (sep : List Char) : List Char → List Char → List (List Char)
  | acc, [] => [acc.reverse]
  | acc, c :: rest =>
    if sep ≠ [] ∧ sep.isPrefixOf (c :: rest) then
      acc.reverse :: pySplitGo sep [] (rest.drop (sep.length - 1))
    else
      pySplitGo sep (c :: acc) rest
  termination_by _ l => l.length
  decreasing_by
    · simp only [List.length_cons]
      have := List.length_drop (sep.length - 1) rest
      omega
    · simp

/-- Python `s.split(sep)` (non-empty separator). -/
def pySplit (s sep : String) : List String :=
  (pySplitGo sep.data [] s.data).map String.mk

/-- Python `s.replace(old, new)` / `re.sub` with a literal pattern:
replace every non-overlapping occurrence, scanning left to right. -/
def pyReplaceL (old new : List Char) : List Char → List Char
  | [] => []
  | c :: rest =>
    if old ≠ [] ∧ old.isPrefixOf (c :: rest) then
      new ++ pyReplaceL old new (rest.drop (old.length - 1))
    else
      c :: pyReplaceL old new rest
  termination_by l => l.length
  decreasing_by
    · simp only [List.length_cons]
      have := List.length_drop (old.length - 1) rest
      omega
    · simp

/-- Python `s.replace(old, new)` for a non-empty literal `old`. -/
def pyReplace (s old new : String) : String :=
  String.mk (pyReplaceL old.data new.data s.data)

/-- Python `str.lower()` (ASCII). -/
def pyLower (s : String) : String :=
  String.mk (s.data.map Char.toLower)

/-! ## File-writing state (`__write_file_if_changed`, `__clean_up`)

The disk is modelled as a flat association list from filename to contents
(the output directory `source/_generated` holds plain files only).  The
module-level counters `__REWRITES_ATTEMPTED`, `__REWRITES_ACTUAL` and the
dictionary `__RST_FILES_WRITTEN` (only key membership is ever used) become
record fields. -/

/-- Look up a file's contents (`os.path.exists` + `open(...).read()`). -/
def lookupFile : List (String × String) → String → Option String
  | [], _ => none
  | (m, d) :: t, n => if m = n then some d else lookupFile t n

/-- Overwrite or create a file (`open(fname, "w").write(contents)`). -/
def setFile : List (String × String) → String → String → List (String × String)
  | [], n, c => [(n, c)]
  | (m, d) :: t, n, c => if m = n then (n, c) :: t else (m, d) :: setFile t n c

/-- Mutable module state of the generator script. -/
structure GenState where
  fs : List (String × String)
  rewrites_attempted : Nat
  rewrites_actual : Nat
  rst_files_written : List String
  deriving Repr, DecidableEq

/-- `__write_file_if_changed(fname, contents)`: record the filename, then
write only when the file is absent or its contents differ byte-for-byte. -/
def write_file_if_changed (st : GenState) (fname contents : String) : GenState :=
  let st1 : GenState :=
    { st with
      rewrites_attempted := st.rewrites_attempted + 1
      rst_files_written := fname :: st.rst_files_written }
  match lookupFile st1.fs fname with
  | some existing =>
    if existing = contents then st1
    else
      { st1 with
        fs := setFile st1.fs fname contents
        rewrites_actual := st1.rewrites_actual + 1 }
  | none =>
    { st1 with
      fs := setFile st1.fs fname contents
      rewrites_actual := st1.rewrites_actual + 1 }

/-- The output directory prefix produced by
`os.path.join("source/_generated", fname)`. -/
def genDirPrefix : String := "source/_generated/"

/-- `__clean_up()`: delete every file in `source/_generated` whose (joined)
name was not recorded in `__RST_FILES_WRITTEN`. -/
def clean_up (st : GenState) : GenState :=
  { st with
    fs := st.fs.filter
      (fun p => !(pyStartsWith p.1 genDirPrefix) || p.1 ∈ st.rst_files_written) }

/-- A full run's write calls, in order. -/
def runWrites (st : GenState) : List (String × String) → GenState
  | [] => st
  | (f, c) :: rest => runWrites (write_file_if_changed st f c) rest

/-! ## Claims C1 and C2 -/

theorem lookupFile_setFile_self (fs : List (String × String)) (n c : String) :
    lookupFile (setFile fs n c) n = some c := by
  induction fs with
  | nil => simp [setFile, lookupFile]
  | cons p t ih =>
    obtain ⟨m, d⟩ := p
    by_cases h : m = n <;> simp [setFile, lookupFile, h, ih]

theorem write_written_eq (st : GenState) (g c : String) :
    (write_file_if_changed st g c).rst_files_written =
      g :: st.rst_files_written := by
  simp only [write_file_if_changed]
  split <;> first | rfl | (split <;> rfl)

theorem runWrites_written_mem (calls : List (String × String)) (st : GenState)
    (f : String) :
    f ∈ (runWrites st calls).rst_files_written ↔
      f ∈ calls.map Prod.fst ∨ f ∈ st.rst_files_written := by
  induction calls generalizing st with
  | nil => simp [runWrites]
  | cons q rest ih =>
    obtain ⟨g, c⟩ := q
    simp only [runWrites, ih, List.map_cons, List.mem_cons, write_written_eq]
    tauto

/-- C1: a call to `__write_file_if_changed` with contents byte-identical to
the existing file's contents leaves the file system unchanged and does not
increment `__REWRITES_ACTUAL`; a call with different contents (or when the
file does not exist) writes exactly the given contents and increments the
rewritten count by one. -/
theorem C1_write_file_if_changed (st : GenState) (fname contents : String) :
    (lookupFile st.fs fname = some contents →
      (write_file_if_changed st fname contents).fs = st.fs ∧
      (write_file_if_changed st fname contents).rewrites_actual =
        st.rewrites_actual) ∧
    (lookupFile st.fs fname ≠ some contents →
      lookupFile (write_file_if_changed st fname contents).fs fname =
        some contents ∧
      (write_file_if_changed st fname contents).rewrites_actual =
        st.rewrites_actual + 1) := by
  constructor
  · intro h
    simp only [write_file_if_changed, h]
    simp
  · intro h
    simp only [write_file_if_changed]
    cases hl : lookupFile st.fs fname with
    | none => simp [lookupFile_setFile_self]
    | some e =>
      have he : e ≠ contents := by
        intro hc
        exact h (hc ▸ hl)
      simp [he, lookupFile_setFile_self]

theorem C1_write_file_if_changed_witness :
    ((write_file_if_changed ⟨[("a", "x")], 0, 0, []⟩ "a" "x").fs =
        [("a", "x")] ∧
      (write_file_if_changed ⟨[("a", "x")], 0, 0, []⟩ "a" "x").rewrites_actual
        = 0) ∧
    (lookupFile (write_file_if_changed ⟨[("a", "x")], 0, 0, []⟩ "a" "y").fs "a"
        = some "y" ∧
      (write_file_if_changed ⟨[("a", "x")], 0, 0, []⟩ "a" "y").rewrites_actual
        = 0 + 1) :=
  ⟨(C1_write_file_if_changed ⟨[("a", "x")], 0, 0, []⟩ "a" "x").1 (by decide),
   (C1_write_file_if_changed ⟨[("a", "x")], 0, 0, []⟩ "a" "y").2 (by decide)⟩

/-- C2: after a full run (a sequence of `__write_file_if_changed` calls
starting with an empty `__RST_FILES_WRITTEN`, on an arbitrary initial disk)
followed by `__clean_up`, every file remaining in `source/_generated` was
recorded by some call this run — no orphan from a previous run survives. -/
theorem C2_clean_up_no_orphans (fs0 : List (String × String))
    (calls : List (String × String)) (p : String × String)
    (hmem : p ∈ (clean_up (runWrites ⟨fs0, 0, 0, []⟩ calls)).fs)
    (hdir : pyStartsWith p.1 genDirPrefix = true) :
    p.1 ∈ calls.map Prod.fst := by
  simp only [clean_up, List.mem_filter, hdir, Bool.not_true,
    Bool.false_or, decide_eq_true_eq] at hmem
  have hw := hmem.2
  have := (runWrites_written_mem calls ⟨fs0, 0, 0, []⟩ p.1).mp hw
  simpa using this

theorem C2_clean_up_no_orphans_witness :
    "source/_generated/a.rst" ∈
      ([("source/_generated/a.rst", "y")].map
        (Prod.fst : String × String → String)) :=
  C2_clean_up_no_orphans [("source/_generated/old.rst", "o")]
    [("source/_generated/a.rst", "y")] ("source/_generated/a.rst", "y")
    (by decide) (by decide)

/-! ## `doxy_normalize_yml_params`

Each `re.sub` of the source becomes one scanner over the character list,
faithful to left-to-right, non-overlapping regex substitution. -/

/-- State machine for `re.sub(r"\s{2,}", " ", params)`: when `inRun` is set,
a run of at least two whitespace characters has already been replaced by a
single space and its remaining characters are being dropped. -/
def collapseWsGo : Bool → List Char → List Char
  | _, [] => []
  | true, c :: rest =>
    if pyWs c then collapseWsGo true rest
    else c :: collapseWsGo false rest
  | false, c :: rest =>
    if pyWs c && (match rest with | d :: _ => pyWs d | [] => false) then
      ' ' :: collapseWsGo true rest
    else
      c :: collapseWsGo false rest

/-- `re.sub(r"\s{2,}", " ", params)`: replace every run of two or more
whitespace characters by a single space. -/
def collapseWs (l : List Char) : List Char :=
  collapseWsGo false l

/-- `re.sub(r"(?<=[<])(?=[^\s])", " ", params)`: insert a space between `<`
and a following non-whitespace character. -/
def spaceAfterLt : List Char → List Char
  | a :: b :: rest =>
    if a = '<' ∧ ¬ pyWs b then a :: ' ' :: spaceAfterLt (b :: rest)
    else a :: spaceAfterLt (b :: rest)
  | l => l

/-- `re.sub(r"(?<=[^\s])(?=[>])", " ", params)`: insert a space between a
non-whitespace character and a following `>`. -/
def spaceBeforeGt : List Char → List Char
  | a :: b :: rest =>
    if ¬ pyWs a ∧ b = '>' then a :: ' ' :: spaceBeforeGt (b :: rest)
    else a :: spaceBeforeGt (b :: rest)
  | l => l

/-- `re.sub(r"(?<=[^\s\&])(?=[\&])", " ", params)`: insert a space before `&`
when the previous character is neither whitespace nor `&`. -/
def spaceBeforeAmp : List Char → List Char
  | a :: b :: rest =>
    if (¬ pyWs a ∧ a ≠ '&') ∧ b = '&' then a :: ' ' :: spaceBeforeAmp (b :: rest)
    else a :: spaceBeforeAmp (b :: rest)
  | l => l

/-- `re.sub(r"(?<=[\&])(?=[^\s\&])", " ", params)`: insert a space after `&`
when the next character is neither whitespace nor `&`. -/
def spaceAfterAmp : List Char → List Char
  | a :: b :: rest =>
    if a = '&' ∧ (¬ pyWs b ∧ b ≠ '&') then a :: ' ' :: spaceAfterAmp (b :: rest)
    else a :: spaceAfterAmp (b :: rest)
  | l => l

/-- Buffered scanner for `re.sub(r"\s*,\s*", ",", params)`.  `skip` is set
directly after an emitted comma while its trailing whitespace is dropped;
`pend` buffers (reversed) a whitespace run whose fate depends on whether a
comma follows it. -/
def commaSquashGo : Bool → List Char → List Char → List Char
  | _, pend, [] => pend.reverse
  | true, pend, c :: rest =>
    if pyWs c then commaSquashGo true pend rest
    else if c = ',' then ',' :: commaSquashGo true [] rest
    else c :: commaSquashGo false [] rest
  | false, pend, c :: rest =>
    if pyWs c then commaSquashGo false (c :: pend) rest
    else if c = ',' then ',' :: commaSquashGo true [] rest
    else pend.reverse ++ c :: commaSquashGo false [] rest

/-- `re.sub(r"\s*,\s*", ",", params)`: remove all whitespace around commas.
A match starts either at a comma or at a whitespace run directly followed by
a comma; the trailing `\s*` is greedy. -/
def commaSquash (l : List Char) : List Char :=
  commaSquashGo false [] l

/-- The trailing patch `re.sub(r"\& \) >$", "&)>", params)` applied when
`params.endswith("& ) >")`. -/
def tightenAmpSuffix (l : List Char) : List Char :=
  if ("& ) >".data.reverse).isPrefixOf l.reverse then
    l.take (l.length - 5) ++ "&)>".data
  else l

/-- `doxy_normalize_yml_params(params)`. -/
def doxy_normalize_yml_params (params : String) : String :=
  let l := pyStripL params.data
  let l := collapseWs l
  let l := spaceAfterLt l
  let l := spaceBeforeGt l
  let l := spaceBeforeAmp l
  let l := spaceAfterAmp l
  let l := commaSquash l
  let l := tightenAmpSuffix l
  String.mk l

/-! ## `extract_yml_func_signature` -/

/-- `extract_yml_func_signature(yml_entry)`: split a yml signature into a
bare name and a normalized parameter string (`none` when there is no
parenthesis). -/
def extract_yml_func_signature (yml_entry : String) : String × Option String :=
  let y := pyStrip yml_entry
  match pyFind y "(" with
  | none => (y, none)
  | some lpos =>
    let rposI : Int := match pyRFind y ")" with
      | none => -1
      | some r => (r : Int)
    let params :=
      "(" ++ doxy_normalize_yml_params (pySlice y ((lpos : Int) + 1) rposI)
        ++ pySliceFrom y rposI
    if pyStartsWith y "template" then
      let wpos : Int := match pyRFind (pySlice y 0 (lpos : Int)) " " with
        | none => -1
        | some w => (w : Int)
      (pySlice y (wpos + 1) (lpos : Int), some params)
    else
      (pySlice y 0 (lpos : Int), some params)

/-- C6: the documented examples of `extract_yml_func_signature`. -/
theorem C6_extract_yml_func_signature_examples :
    extract_yml_func_signature "foo(int, double)" = ("foo", some "(int,double)")
      ∧ extract_yml_func_signature "bar" = ("bar", none)
      ∧ (extract_yml_func_signature "template <typename T> foo(T x)").1 = "foo"
      ∧ (extract_yml_func_signature "template <typename T> foo(T x)").2 ≠ none
    := by decide

/-! ## `filename_from_cppname` -/

theorem length_dropWhile_le (p : Char → Bool) (l : List Char) :
    (l.dropWhile p).length ≤ l.length :=
  (List.dropWhile_sublist p).length_le

/-- Matcher for `re.sub(r"operator\s*\*", ...)`: if `l` begins with
`operator`, then any whitespace, then `*`, return the remainder. -/
def matchOperatorStar (l : List Char) : Option (List Char) :=
  if "operator".data.isPrefixOf l then
    match (l.drop 8).dropWhile pyWs with
    | '*' :: rest => some rest
    | _ => none
  else none

theorem matchOperatorStar_length {l rem : List Char}
    (h : matchOperatorStar l = some rem) : rem.length < l.length := by
  unfold matchOperatorStar at h
  split at h
  · rename_i hp
    have h8 : 8 ≤ l.length := by
      have := (List.isPrefixOf_iff_prefix.mp hp).length_le
      simpa using this
    split at h
    · rename_i rest heq
      cases h
      have h1 : (('*' :: rem) : List Char).length ≤ (l.drop 8).length := by
        rw [← heq]
        exact length_dropWhile_le pyWs (l.drop 8)
      simp only [List.length_cons, List.length_drop] at h1
      omega
    · exact absurd h (by simp)
  · exact absurd h (by simp)

theorem matchOperatorStar_star {l rem : List Char}
    (h : matchOperatorStar l = some rem) : '*' ∈ l := by
  unfold matchOperatorStar at h
  split at h
  · split at h
    · rename_i rest heq
      have h1 : '*' ∈ (l.drop 8).dropWhile pyWs := by
        rw [heq]; exact List.mem_cons_self _ _
      exact (List.drop_sublist 8 l).subset
        ((List.dropWhile_sublist pyWs).subset h1)
    · exact absurd h (by simp)
  · exact absurd h (by simp)

/-- `re.sub(r"operator\s*\*", "operator_star", name)`. -/
def subOperatorStar : List Char → List Char
  | [] => []
  | c :: rest =>
    match h : matchOperatorStar (c :: rest) with
    | some rem => "operator_star".data ++ subOperatorStar rem
    | none => c :: subOperatorStar rest
  termination_by l => l.length
  decreasing_by
    · exact matchOperatorStar_length h
    · simp

/-- `re.sub(r"operator<$", "operator_less", name)`: the pattern is anchored
at the end of the string. -/
def subOperatorLessEnd (l : List Char) : List Char :=
  if ("operator<".data.reverse).isPrefixOf l.reverse then
    l.take (l.length - 9) ++ "operator_less".data
  else l

/-- Python's ASCII `\w`: letters, digits and underscore (code point 95).
(The generator only ever sees ASCII identifiers; `re` classes are modelled
on ASCII.) -/
def pyWordChar (c : Char) : Bool :=
  (97 ≤ c.toNat && c.toNat ≤ 122) || (65 ≤ c.toNat && c.toNat ≤ 90) ||
    (48 ≤ c.toNat && c.toNat ≤ 57) || c.toNat = 95

/-- `str.lower()` on one ASCII character. -/
def pyLowerChar (c : Char) : Char :=
  if 65 ≤ c.toNat ∧ c.toNat ≤ 90 then Char.ofNat (c.toNat + 32) else c

/-- `filename_from_cppname(name)`: the chain of `re.sub` calls followed by
`str.lower()`, in source order. -/
def filename_from_cppname (name : String) : String :=
  let n := subOperatorStar name.data
  let n := pyReplaceL "operator!=".data "operator_not_eq".data n
  let n := pyReplaceL "operator()".data "call_operator".data n
  let n := subOperatorLessEnd n
  let n := pyReplaceL "operator<<".data "insertion_operator".data n
  let n := pyReplaceL "operator==".data "operator_equal_to".data n
  let n := pyReplaceL "operator>".data "operator_greater".data n
  let n := n.map (fun c => if pyWordChar c then c else '_')
  String.mk (n.map pyLowerChar)

/-! ## Claim C9: idempotence of `filename_from_cppname` -/

/-- Characters that can appear in the output of `filename_from_cppname`:
lower-case ASCII word characters. -/
def lowerWordChar (c : Char) : Bool :=
  pyWordChar c && !(65 ≤ c.toNat && c.toNat ≤ 90)

theorem toNat_ofNat_lt {n : Nat} (h : n < 55296) : (Char.ofNat n).toNat = n := by
  unfold Char.ofNat
  rw [dif_pos]
  · rfl
  · exact Or.inl h

theorem lowerWordChar_iff (c : Char) :
    lowerWordChar c = true ↔
      (97 ≤ c.toNat ∧ c.toNat ≤ 122) ∨ (48 ≤ c.toNat ∧ c.toNat ≤ 57) ∨
        c.toNat = 95 := by
  simp only [lowerWordChar, pyWordChar, Bool.and_eq_true, Bool.or_eq_true,
    decide_eq_true_eq, Bool.not_eq_true', Bool.and_eq_false_iff,
    decide_eq_false_iff_not]
  omega

theorem pyWordChar_iff (c : Char) :
    pyWordChar c = true ↔
      (97 ≤ c.toNat ∧ c.toNat ≤ 122) ∨ (65 ≤ c.toNat ∧ c.toNat ≤ 90) ∨
        (48 ≤ c.toNat ∧ c.toNat ≤ 57) ∨ c.toNat = 95 := by
  simp only [pyWordChar, Bool.and_eq_true, Bool.or_eq_true, decide_eq_true_eq]
  omega

theorem lowerWordChar_final (c : Char) :
    lowerWordChar (pyLowerChar (if pyWordChar c then c else '_')) = true := by
  by_cases hw : pyWordChar c
  · rw [if_pos hw]
    by_cases hu : 65 ≤ c.toNat ∧ c.toNat ≤ 90
    · have hv : c.toNat + 32 < 55296 := by omega
      have h1 : pyLowerChar c = Char.ofNat (c.toNat + 32) := by
        unfold pyLowerChar
        rw [if_pos hu]
      rw [h1, lowerWordChar_iff, toNat_ofNat_lt hv]
      omega
    · have h1 : pyLowerChar c = c := by
        unfold pyLowerChar
        rw [if_neg hu]
      rw [h1, lowerWordChar_iff]
      rw [pyWordChar_iff] at hw
      omega
  · rw [if_neg hw]
    decide

theorem filename_chars (s : String) (c : Char)
    (hc : c ∈ (filename_from_cppname s).data) : lowerWordChar c = true := by
  simp only [filename_from_cppname, List.mem_map] at hc
  obtain ⟨d, ⟨e, he, hed⟩, hdc⟩ := hc
  subst hdc
  subst hed
  exact lowerWordChar_final e

theorem pyReplaceL_id (old new l : List Char) (P : Char → Bool)
    (hl : ∀ c ∈ l, P c = true) (hold : ∃ c ∈ old, P c = false) :
    pyReplaceL old new l = l := by
  induction l with
  | nil => simp [pyReplaceL]
  | cons c rest ih =>
    have hpre : ¬(old ≠ [] ∧ old.isPrefixOf (c :: rest)) := by
      rintro ⟨hne, hp⟩
      obtain ⟨d, hd, hPd⟩ := hold
      have hdl : d ∈ c :: rest := (List.isPrefixOf_iff_prefix.mp hp).subset hd
      rw [hl d hdl] at hPd
      exact absurd hPd (by simp)
    rw [pyReplaceL, if_neg hpre]
    rw [ih (fun d hd => hl d (List.mem_cons_of_mem c hd))]

theorem subOperatorStar_id (l : List Char) (h : '*' ∉ l) :
    subOperatorStar l = l := by
  induction l with
  | nil => simp [subOperatorStar]
  | cons c rest ih =>
    rw [subOperatorStar]
    cases hm : matchOperatorStar (c :: rest) with
    | some rem => exact absurd (matchOperatorStar_star hm) h
    | none =>
      rw [ih (fun hmem => h (List.mem_cons_of_mem c hmem))]

theorem subOperatorLessEnd_id (l : List Char) (h : '<' ∉ l) :
    subOperatorLessEnd l = l := by
  unfold subOperatorLessEnd
  rw [if_neg]
  intro hp
  have : '<' ∈ l.reverse := (List.isPrefixOf_iff_prefix.mp hp).subset (by decide)
  exact h (List.mem_reverse.mp this)

theorem map_id_of_pointwise (l : List Char) (f : Char → Char)
    (h : ∀ c ∈ l, f c = c) : l.map f = l := by
  induction l with
  | nil => rfl
  | cons c rest ih =>
    simp only [List.map_cons, h c (List.mem_cons_self c rest),
      ih (fun d hd => h d (List.mem_cons_of_mem c hd))]

theorem filename_id (u : String)
    (hu : ∀ c ∈ u.data, lowerWordChar c = true) :
    filename_from_cppname u = u := by
  have hword : ∀ c ∈ u.data, pyWordChar c = true := by
    intro c hc
    have h1 := (lowerWordChar_iff c).mp (hu c hc)
    rw [pyWordChar_iff]
    omega
  have hnoupper : ∀ c ∈ u.data, ¬(65 ≤ c.toNat ∧ c.toNat ≤ 90) := by
    intro c hc
    have h1 := (lowerWordChar_iff c).mp (hu c hc)
    omega
  have hnostar : '*' ∉ u.data := fun hc => by
    have := hword '*' hc
    exact absurd this (by decide)
  have hnolt : '<' ∉ u.data := fun hc => by
    have := hword '<' hc
    exact absurd this (by decide)
  simp only [filename_from_cppname]
  rw [subOperatorStar_id u.data hnostar]
  rw [pyReplaceL_id _ _ _ pyWordChar hword ⟨'!', by decide, by decide⟩]
  rw [pyReplaceL_id _ _ _ pyWordChar hword ⟨'(', by decide, by decide⟩]
  rw [subOperatorLessEnd_id u.data hnolt]
  rw [pyReplaceL_id _ _ _ pyWordChar hword ⟨'<', by decide, by decide⟩]
  rw [pyReplaceL_id _ _ _ pyWordChar hword ⟨'=', by decide, by decide⟩]
  rw [pyReplaceL_id _ _ _ pyWordChar hword ⟨'>', by decide, by decide⟩]
  rw [map_id_of_pointwise u.data (fun c => if pyWordChar c then c else '_')
    (fun c hc => by
      show (if pyWordChar c = true then c else '_') = c
      rw [if_pos (hword c hc)])]
  rw [map_id_of_pointwise u.data pyLowerChar (fun c hc => by
    unfold pyLowerChar
    rw [if_neg (hnoupper c hc)])]

/-- C9: `filename_from_cppname` is idempotent, and (being a pure function of
its argument) deterministic: identical inputs give identical outputs. -/
theorem C9_filename_from_cppname_idempotent (x y : String) :
    filename_from_cppname (filename_from_cppname x) = filename_from_cppname x
      ∧ (x = y → filename_from_cppname x = filename_from_cppname y) :=
  ⟨filename_id _ (filename_chars x), fun h => by rw [h]⟩

theorem C9_filename_from_cppname_idempotent_witness :
    filename_from_cppname (filename_from_cppname "operator*")
        = filename_from_cppname "operator*"
      ∧ filename_from_cppname "Foo::Bar" = filename_from_cppname "Foo::Bar" :=
  ⟨(C9_filename_from_cppname_idempotent "operator*" "operator*").1,
   (C9_filename_from_cppname_idempotent "Foo::Bar" "Foo::Bar").2 rfl⟩

/-! ## XML model for `convert_to_rst` (claims C3, C4, C10)

A BeautifulSoup node is either a `NavigableString` or a tag with a name,
attributes and ordered children.  The render context is a stack represented
most-recent-first (`list.append`/`pop` become `cons`/`tail`, `context[-1]`
becomes `head?`); `indent` only counts occurrences so the orientation is
immaterial there.

`convert_to_rst(xml, context=[])` has a mutable default argument: every call
that omits `context` receives the one shared list created at definition
time.  The embedding therefore threads two stacks: `loc` (a caller-supplied
list object) and `dflt` (the shared default list); `useDflt` records which
of the two the current call's `context` is bound to.  Calls written
`convert_to_rst(x, context)` keep `useDflt`, calls written
`convert_to_rst(x)` (the `programlisting`/`codeline`/`highlight`
recursions) set it.  A raised Python exception is modelled as `none`,
discarding the in-place stack mutations made before the raise (no claim
below observes state after an exception). -/

inductive XmlNode where
  | text (s : String)
  | tag (name : String) (attrs : List (String × String)) (children : List XmlNode)

/-- `x.name` (bs4 gives `NavigableString`s no name). -/
def nodeName : XmlNode → Option String
  | .text _ => none
  | .tag n _ _ => some n

/-- Attribute lookup `x.attrs[key]` as an `Option`. -/
def attrsLookup (attrs : List (String × String)) (key : String) : Option String :=
  (attrs.find? (fun p => p.1 == key)).map (fun p => p.2)

/-- The direct children iterated by `for x in xml`. -/
def nodeChildren : XmlNode → List XmlNode
  | .text _ => []
  | .tag _ _ cs => cs

mutual

/-- `x.text`: the concatenation of all descendant strings. -/
def xmlText : XmlNode → String
  | .text s => s
  | .tag _ _ cs => xmlTextList cs

def xmlTextList : List XmlNode → String
  | [] => ""
  | c :: cs => xmlText c ++ xmlTextList cs

end

mutual

/-- All descendants named `nm`, in document (pre-)order, as returned by
`x.find_all(nm)` (the searched node itself is excluded). -/
def findAllList (nm : String) : List XmlNode → List XmlNode
  | [] => []
  | c :: cs => findAllIn nm c ++ findAllList nm cs

def findAllIn (nm : String) : XmlNode → List XmlNode
  | .text _ => []
  | .tag n a cs =>
    (if n = nm then [XmlNode.tag n a cs] else []) ++ findAllList nm cs

end

/-- `x.find_all(nm)`. -/
def xmlFindAll (x : XmlNode) (nm : String) : List XmlNode :=
  findAllList nm (nodeChildren x)

/-- `x.find(nm)`: first descendant named `nm` in document order. -/
def xmlFind (x : XmlNode) (nm : String) : Option XmlNode :=
  (xmlFindAll x nm).head?

/-- Modelled from the spec: the kind-to-directive table `PREFIXES` used for
`compounddef`/`memberdef` elements is referenced by the script but not
defined in `src/`; the spec says "compound/member definitions emit a markup
directive keyed by a kind→prefix table".  Only keyed lookup (and failure on
a missing kind) matters for the claims below. -/
def PREFIXES (kind : String) : Option String :=
  if kind = "class" then some ".. cpp:class:: "
  else if kind = "struct" then some ".. cpp:struct:: "
  else if kind = "function" then some ".. cpp:function:: "
  else if kind = "friend" then some ".. cpp:function:: "
  else if kind = "typedef" then some ".. cpp:type:: "
  else if kind = "enum" then some ".. cpp:enum:: "
  else if kind = "variable" then some ".. cpp:var:: "
  else none

/-- The `indent(context)` helper of `convert_to_rst`. -/
def indent (context : List String) : String :=
  String.mk (List.replicate
    (3 * (context.count "memberdef" + context.count "compounddef"
      + context.count "parameterdescription" + context.count "programlisting"))
    ' ')

/-- The `context` list the current call's parameter is bound to. -/
def curStack (useDflt : Bool) (loc dflt : List String) : List String :=
  if useDflt then dflt else loc

/-- Write back the mutated `context` into the right stack. -/
def putStack (useDflt : Bool) (loc dflt cur : List String) :
    List String × List String :=
  if useDflt then (loc, cur) else (cur, dflt)

/-- Python `str.isupper()` on the first character (ASCII). -/
def pyIsUpper (c : Char) : Bool := 65 ≤ c.toNat && c.toNat ≤ 90

/-- `x[0].isupper()` guarded by `x != ""`. -/
def firstIsUpper (s : String) : Bool :=
  match s.data with
  | [] => false
  | c :: _ => pyIsUpper c

/-- The loop `for z in y: return_type.append(z); if z.endswith(...): break`. -/
def takeThrough (p : String → Bool) : List String → List String
  | [] => []
  | a :: rest => if p a then [a] else a :: takeThrough p rest

/-- The three specially handled `parameterlist` kinds. -/
inductive PlKind where
  | tparam
  | param
  | exc

/-- The `definition` branch of the dispatch: pure string surgery on
`x.text`; `none` models the `ValueError`/`IndexError` paths. -/
def definitionBranch (t : String) : Option String :=
  if pyStartsWith t "using" then
    match pySplit t "=" with
    | [lhs0, rhs0] =>
      let i : Int :=
        (match pyRFind lhs0 "::" with | none => -1 | some j => (j : Int)) + 2
      let lhs := pyStrip (pySliceFrom lhs0 i)
      if pyFind rhs0 "detail::" = none then
        let rhs := pyStrip (pyReplace rhs0 "typename" "")
        let rhs := pyStrip (pyReplace rhs "typedef" "")
        some (lhs ++ " = " ++ rhs)
      else
        some (pyStrip (pyReplace lhs "using" ""))
    | _ => none
  else
    let y := pySplit t "::"
    let lastPart := y.getLastD ""
    if lastPart = "operator=" then
      let y0 := y.headD ""
      let cutoff : Int :=
        (match pyFind y0 "&" with | none => -1 | some j => (j : Int)) + 1
      some (pySlice y0 0 cutoff ++ lastPart)
    else if h2 : 2 ≤ y.length then
      let y2 := y.get ⟨y.length - 2, by omega⟩
      if ¬ pyStartsWith y2 lastPart then
        let rt := pyJoin "::" (takeThrough (fun z => pyEndsWith z "libsemigroups") y)
        let j : Int :=
          (match pyRFind rt " " with | none => -1 | some j => (j : Int)) + 1
        some (pySlice rt 0 j ++ lastPart)
      else
        some lastPart
    else none

/-- The `templateparamlist` branch of the dispatch: collect
`y.type.text` (plus declname) for each `param` descendant. -/
def templateparamlistBranch (x : XmlNode) : Option String :=
  match (xmlFindAll x "param").mapM (fun yy => do
      let ty ← xmlFind yy "type"
      let z := xmlText ty
      let z := match xmlFind yy "declname" with
        | some dn => z ++ " " ++ xmlText dn
        | none => z
      pure z) with
  | none => none
  | some zs => some ("template <" ++ pyJoin ", " zs ++ ">")

/-- The `compoundname` branch: `x.text[x.text.rfind("::") + 2 :]`. -/
def compoundnameBranch (t : String) : String :=
  pySliceFrom t
    ((match pyRFind t "::" with | none => -1 | some j => (j : Int)) + 2)

mutual

/-- `convert_to_rst(xml, context)`: fuel-indexed embedding.  Returns the
rendered string together with the final contents of the caller's list and
of the shared default list; `none` models a raised exception (or exhausted
fuel).  Called on a string, the `@__accepts` decorator's assertion fails. -/
def convert_to_rst : Nat → XmlNode → Bool → List String → List String →
    Option (String × List String × List String)
  | 0, _, _, _, _ => none
  | _ + 1, .text _, _, _, _ => none
  | fuel + 1, .tag nm attrs cs, u, loc, dflt =>
    let cur0 := curStack u loc dflt
    let cur1 := nm :: cur0
    let cur2 :=
      if attrsLookup attrs "kind" == some "enum" then "enum" :: cur1 else cur1
    let stacks1 := putStack u loc dflt cur2
    let pre : Option (String × List XmlNode × Bool) :=
      if nm = "compounddef" then
        match attrsLookup attrs "kind" with
        | none => none
        | some kind =>
          match PREFIXES kind with
          | none => none
          | some pfx =>
            match cs.find? (fun c => nodeName c == some "templateparamlist") with
            | some t =>
              some (pfx,
                t :: cs.filter (fun c => !(nodeName c == some "templateparamlist")),
                true)
            | none => some (pfx, cs, false)
      else if nm = "memberdef" then
        match attrsLookup attrs "kind" with
        | none => none
        | some kind =>
          match PREFIXES kind with
          | none => none
          | some pfx => some (pfx, cs, false)
      else some ("", cs, false)
    match pre with
    | none => none
    | some (pfx, cs1, rebound) =>
      let reordered : Option (List XmlNode) :=
        if !rebound && (attrsLookup attrs "kind" == some "enum") then
          match cs1.find? (fun c => nodeName c == some "name") with
          | none => none
          | some nn =>
            let bd := (cs1.find? (fun c => nodeName c == some "briefdescription")).getD
              (XmlNode.text "")
            some (nn :: bd :: cs1.filter (fun c =>
              !(nodeName c == some "briefdescription") && !(nodeName c == some "name")))
        else some cs1
      match reordered with
      | none => none
      | some cs2 =>
        match convertChildren fuel cs2 u stacks1.1 stacks1.2 with
        | none => none
        | some (body, loc2, dflt2) =>
          let cur3 := curStack u loc2 dflt2
          let cur4 := if cur3.head? == some "enum" then cur3.tail else cur3
          match cur4 with
          | [] => none
          | top :: rest =>
            let extra := if top = "itemizedlist" then "\n\n" ++ indent rest else ""
            let stacks2 := putStack u loc2 dflt2 rest
            some (pfx ++ body ++ extra, stacks2.1, stacks2.2)

/-- The `for x in xml` loop body of `convert_to_rst`, child by child. -/
def convertChildren : Nat → List XmlNode → Bool → List String → List String →
    Option (String × List String × List String)
  | 0, _, _, _, _ => none
  | _ + 1, [], _, loc, dflt => some ("", loc, dflt)
  | fuel + 1, x :: rest, u, loc, dflt =>
    match processChild fuel x u loc dflt with
    | none => none
    | some (s1, loc1, dflt1) =>
      match convertChildren fuel rest u loc1 dflt1 with
      | none => none
      | some (s2, loc2, dflt2) => some (s1 ++ s2, loc2, dflt2)

/-- One iteration of the dispatch chain on a child `x` (first eight
`elif` branches; the chain continues in `processChildB`/`processChildC`,
split only to keep terms small). -/
def processChild : Nat → XmlNode → Bool → List String → List String →
    Option (String × List String × List String)
  | 0, _, _, _, _ => none
  | _ + 1, .text s0, _, loc, dflt =>
    some ((if pyStrip s0 ≠ "." ∧ pyStrip s0 ≠ "" ∧ firstIsUpper (pyStrip s0) = false
        then " " else "") ++ pyStrip s0, loc, dflt)
  | fuel + 1, .tag n a k, u, loc, dflt =>
    if n = "name" then
      if "enum" ∈ curStack u loc dflt then
        some (pyStrip (xmlText (XmlNode.tag n a k)), loc, dflt)
      else some ("", loc, dflt)
    else if n = "enumvalue" then
      if "enum" ∈ curStack u loc dflt then
        match convert_to_rst fuel (XmlNode.tag n a k) u loc dflt with
        | none => none
        | some (s, l1, d1) =>
          some ("\n\n" ++ indent (curStack u loc dflt)
            ++ ".. cpp:enumerator:: " ++ s, l1, d1)
      else some ("", loc, dflt)
    else if n = "definition" then
      match definitionBranch (xmlText (XmlNode.tag n a k)) with
      | none => none
      | some s => some (s, loc, dflt)
    else if n = "argsstring" then some (xmlText (XmlNode.tag n a k), loc, dflt)
    else if n = "briefdescription" then
      match convert_to_rst fuel (XmlNode.tag n a k) u loc dflt with
      | none => none
      | some (s, l1, d1) =>
        some ("\n\n" ++ indent (curStack u loc dflt) ++ s, l1, d1)
    else if n = "detaileddescription" then
      match convert_to_rst fuel (XmlNode.tag n a k) u loc dflt with
      | none => none
      | some (s, l1, d1) =>
        some ("\n" ++ indent (curStack u loc dflt) ++ s, l1, d1)
    else if n = "templateparamlist" then
      match templateparamlistBranch (XmlNode.tag n a k) with
      | none => none
      | some s => some (s, loc, dflt)
    else if n = "computeroutput" then
      some ((if xmlText (XmlNode.tag n a k) ≠ ""
        then " ``" ++ xmlText (XmlNode.tag n a k) ++ "``" else ""), loc, dflt)
    else processChildB fuel (XmlNode.tag n a k) u loc dflt

/-- `elif` branches nine to sixteen of the dispatch chain. -/
def processChildB : Nat → XmlNode → Bool → List String → List String →
    Option (String × List String × List String)
  | 0, _, _, _, _ => none
  | _ + 1, .text _, _, loc, dflt => some ("", loc, dflt)
  | fuel + 1, .tag n a k, u, loc, dflt =>
    if n = "formula" then
      some (" :math:`" ++ pyReplace (xmlText (XmlNode.tag n a k)) "$" "" ++ "`",
        loc, dflt)
    else if n = "title" then
      some ("\n\n" ++ indent (curStack u loc dflt) ++ ":"
        ++ String.mk ((xmlText (XmlNode.tag n a k)).data.map pyLowerChar) ++ ": ",
        loc, dflt)
    else if n = "para" then
      match convert_to_rst fuel (XmlNode.tag n a k) u loc dflt with
      | none => none
      | some (s, l1, d1) =>
        some (s ++
          (if (curStack u l1 d1).head? == some "detaileddescription"
              || (curStack u l1 d1).head? == some "briefdescription" then
            "\n\n" ++ indent (curStack u l1 d1)
          else ""), l1, d1)
    else if n = "simplesect" then
      match attrsLookup a "kind" with
      | none => none
      | some kind =>
        if kind = "return" then
          match convert_to_rst fuel (XmlNode.tag n a k) u loc dflt with
          | none => none
          | some (s, l1, d1) =>
            some ("\n\n" ++ indent (curStack u loc dflt) ++ ":returns: " ++ s,
              l1, d1)
        else if kind = "par" then
          convert_to_rst fuel (XmlNode.tag n a k) u loc dflt
        else if kind = "see" then
          match convert_to_rst fuel (XmlNode.tag n a k) u loc dflt with
          | none => none
          | some (s, l1, d1) =>
            some ("\n\n" ++ indent (curStack u loc dflt) ++ ".. seealso:: " ++ s,
              l1, d1)
        else some ("", loc, dflt)
    else if n = "parameterlist" then
      match attrsLookup a "kind" with
      | none => none
      | some kind =>
        if kind = "templateparam" then
          paramItems fuel PlKind.tparam (XmlNode.tag n a k)
            (xmlFindAll (XmlNode.tag n a k) "parameteritem") u loc dflt
        else if kind = "param" then
          paramItems fuel PlKind.param (XmlNode.tag n a k)
            (xmlFindAll (XmlNode.tag n a k) "parameteritem") u loc dflt
        else if kind = "exception" then
          paramItems fuel PlKind.exc (XmlNode.tag n a k)
            (xmlFindAll (XmlNode.tag n a k) "parameteritem") u loc dflt
        else some ("", loc, dflt)
    else if n = "ref" then
      some (" :cpp:"
        ++ (if attrsLookup a "kindref" == some "member" then "member" else "any")
        ++ ":`" ++ xmlText (XmlNode.tag n a k) ++ "` ", loc, dflt)
    else if n = "emphasis" then
      some (" *" ++ xmlText (XmlNode.tag n a k) ++ "*", loc, dflt)
    else if n = "bold" then
      some ("\n\n" ++ indent (curStack u loc dflt) ++ "**"
        ++ xmlText (XmlNode.tag n a k) ++ "**", loc, dflt)
    else processChildC fuel (XmlNode.tag n a k) u loc dflt

/-- The remaining `elif` branches of the dispatch chain; a tag matching no
branch falls through the whole chain and contributes nothing. -/
def processChildC : Nat → XmlNode → Bool → List String → List String →
    Option (String × List String × List String)
  | 0, _, _, _, _ => none
  | _ + 1, .text _, _, loc, dflt => some ("", loc, dflt)
  | fuel + 1, .tag n a k, u, loc, dflt =>
    if n = "compoundname" then
      some (compoundnameBranch (xmlText (XmlNode.tag n a k)), loc, dflt)
    else if n = "ulink" then
      match attrsLookup a "url" with
      | none => none
      | some url =>
        some (" `" ++ xmlText (XmlNode.tag n a k) ++ " <" ++ url ++ ">`_",
          loc, dflt)
    else if n = "itemizedlist" then
      match convert_to_rst fuel (XmlNode.tag n a k) u loc dflt with
      | none => none
      | some (s, l1, d1) => some ("\n" ++ s, l1, d1)
    else if n = "listitem" then
      match convert_to_rst fuel (XmlNode.tag n a k) u loc dflt with
      | none => none
      | some (s, l1, d1) =>
        some ("\n" ++ indent (curStack u loc dflt) ++ "* " ++ s, l1, d1)
    else if n = "programlisting" then
      match convert_to_rst fuel (XmlNode.tag n a k) true loc dflt with
      | none => none
      | some (s, l1, d1) =>
        some ("\n\n" ++ indent (curStack u loc dflt) ++ ".. code-block::\n" ++ s,
          l1, d1)
    else if n = "codeline" then
      match convert_to_rst fuel (XmlNode.tag n a k) true loc dflt with
      | none => none
      | some (s, l1, d1) =>
        some ("\n" ++ indent (curStack u loc dflt) ++ s, l1, d1)
    else if n = "highlight" then
      convert_to_rst fuel (XmlNode.tag n a k) true loc dflt
    else if n = "sp" then some (" ", loc, dflt)
    else some ("", loc, dflt)

/-- The `for y in x.find_all("parameteritem")` loops of the three
`parameterlist` branches; `pl` is the enclosing `parameterlist` element
(the `param` branch looks its description up on `pl`, not on the item). -/
def paramItems : Nat → PlKind → XmlNode → List XmlNode → Bool → List String →
    List String → Option (String × List String × List String)
  | 0, _, _, _, _, _, _ => none
  | _ + 1, _, _, [], _, loc, dflt => some ("", loc, dflt)
  | fuel + 1, mode, pl, y :: rest, u, loc, dflt =>
    match mode with
    | .tparam =>
      match xmlFind y "parametername" with
      | none => none
      | some nn =>
        match xmlFind y "parameterdescription" with
        | none => none
        | some pd =>
          match convert_to_rst fuel pd u loc dflt with
          | none => none
          | some (ds, l1, d1) =>
            match paramItems fuel mode pl rest u l1 d1 with
            | none => none
            | some (srest, l2, d2) =>
              some ("\n\n" ++ indent (curStack u loc dflt) ++ ":tparam "
                ++ xmlText nn ++ ": " ++ ds ++ srest, l2, d2)
    | .param =>
      match xmlFind y "parametername" with
      | none => none
      | some nn =>
        match xmlFind pl "parameterdescription" with
        | none => none
        | some pd =>
          match convert_to_rst fuel pd u loc dflt with
          | none => none
          | some (ds, l1, d1) =>
            match paramItems fuel mode pl rest u l1 d1 with
            | none => none
            | some (srest, l2, d2) =>
              some ("\n\n" ++ indent (curStack u loc dflt) ++ ":param "
                ++ xmlText nn ++ ": " ++ ds ++ srest, l2, d2)
    | .exc =>
      match xmlFind y "parametername" with
      | none => none
      | some nn =>
        match xmlFind y "parameterdescription" with
        | none => none
        | some pd =>
          match convert_to_rst fuel nn u loc dflt with
          | none => none
          | some (s1, l1, d1) =>
            match convert_to_rst fuel pd u l1 d1 with
            | none => none
            | some (s2, l2, d2) =>
              match paramItems fuel mode pl rest u l2 d2 with
              | none => none
              | some (srest, l3, d3) =>
                some ("\n\n" ++ indent (curStack u loc dflt) ++ ":throws:\n"
                  ++ indent (curStack u loc dflt) ++ "   " ++ s1 ++ s2 ++ srest,
                  l3, d3)

end

/-! ## Context-stack balance (claim C4) -/

theorem curStack_putStack (u : Bool) (loc dflt c : List String) :
    curStack u (putStack u loc dflt c).1 (putStack u loc dflt c).2 = c := by
  cases u <;> simp [curStack, putStack]

theorem putStack_putStack (u : Bool) (loc dflt c c2 : List String) :
    putStack u (putStack u loc dflt c).1 (putStack u loc dflt c).2 c2
      = putStack u loc dflt c2 := by
  cases u <;> simp [putStack]

theorem putStack_curStack (u : Bool) (loc dflt : List String) :
    putStack u loc dflt (curStack u loc dflt) = (loc, dflt) := by
  cases u <;> simp [curStack, putStack]

/-- Nodes on which the closing pops of `convert_to_rst` are balanced: any
node not literally tagged `enum`, plus `enum`-tagged nodes whose `kind`
attribute is `"enum"` (for these the extra `"enum"` context entry absorbs
the first pop). -/
def balancedTop : XmlNode → Prop
  | .text _ => True
  | .tag n a _ => n = "enum" → attrsLookup a "kind" = some "enum"

theorem findAll_name_aux (nm : String) (z : XmlNode) :
    ∀ x : XmlNode, z ∈ findAllIn nm x → nodeName z = some nm := by
  intro x
  induction x using XmlNode.rec
    (motive_2 := fun l => z ∈ findAllList nm l → nodeName z = some nm) with
  | text s => intro h; simp [findAllIn] at h
  | tag n a cs ihl =>
    intro h
    rw [findAllIn] at h
    rcases List.mem_append.mp h with h2 | h2
    · by_cases hn : n = nm
      · rw [if_pos hn] at h2
        rcases List.mem_singleton.mp h2 with rfl
        simp [nodeName, hn]
      · rw [if_neg hn] at h2
        simp at h2
    · exact ihl h2
  | nil => rename_i h; simp [findAllList] at h
  | cons d ds ih1 ih2 =>
    rename_i h
    rw [findAllList] at h
    rcases List.mem_append.mp h with h3 | h3
    · exact ih1 h3
    · exact ih2 h3

theorem findAllList_name (nm : String) (z : XmlNode) :
    ∀ cs : List XmlNode, z ∈ findAllList nm cs → nodeName z = some nm := by
  intro cs
  induction cs with
  | nil => intro h; simp [findAllList] at h
  | cons c rest ih =>
    intro h
    rw [findAllList] at h
    rcases List.mem_append.mp h with h1 | h1
    · exact findAll_name_aux nm z c h1
    · exact ih h1

theorem xmlFind_name {x : XmlNode} {nm : String} {z : XmlNode}
    (h : xmlFind x nm = some z) : nodeName z = some nm := by
  unfold xmlFind at h
  exact findAllList_name nm z (nodeChildren x) (List.mem_of_mem_head? h)

theorem xmlFind_balancedTop {x : XmlNode} {nm : String} {z : XmlNode}
    (h : xmlFind x nm = some z) (hnm : nm ≠ "enum") : balancedTop z := by
  have := xmlFind_name h
  cases z with
  | text s => trivial
  | tag n a cs =>
    intro he
    simp only [nodeName, Option.some.injEq] at this
    exact absurd (he ▸ this) (Ne.symm hnm)

theorem balancedTop_of_name {n : String} {a : List (String × String)}
    {k : List XmlNode} (hb : n ≠ "enum") : balancedTop (XmlNode.tag n a k) :=
  fun he => absurd he hb

set_option maxHeartbeats 4000000

/-- Balance of the context stacks: completed calls restore both the
caller-supplied list and the shared default list, for every node except a
tag literally named `enum` without `kind="enum"` (see `balancedTop`). -/
theorem balanceAll (fuel : Nat) :
    (∀ x u loc dflt s l2 d2,
        convert_to_rst fuel x u loc dflt = some (s, l2, d2) → balancedTop x →
        l2 = loc ∧ d2 = dflt)
    ∧ (∀ cs u loc dflt s l2 d2,
        convertChildren fuel cs u loc dflt = some (s, l2, d2) →
        l2 = loc ∧ d2 = dflt)
    ∧ (∀ x u loc dflt s l2 d2,
        processChild fuel x u loc dflt = some (s, l2, d2) →
        l2 = loc ∧ d2 = dflt)
    ∧ (∀ x u loc dflt s l2 d2,
        processChildB fuel x u loc dflt = some (s, l2, d2) →
        l2 = loc ∧ d2 = dflt)
    ∧ (∀ x u loc dflt s l2 d2,
        processChildC fuel x u loc dflt = some (s, l2, d2) →
        l2 = loc ∧ d2 = dflt)
    ∧ (∀ mode pl ys u loc dflt s l2 d2,
        paramItems fuel mode pl ys u loc dflt = some (s, l2, d2) →
        l2 = loc ∧ d2 = dflt) := by
  induction fuel with
  | zero =>
    exact ⟨fun x u loc dflt s l2 d2 h => Option.noConfusion h,
           fun cs u loc dflt s l2 d2 h => Option.noConfusion h,
           fun x u loc dflt s l2 d2 h => Option.noConfusion h,
           fun x u loc dflt s l2 d2 h => Option.noConfusion h,
           fun x u loc dflt s l2 d2 h => Option.noConfusion h,
           fun mode pl ys u loc dflt s l2 d2 h => Option.noConfusion h⟩
  | succ fuel ih =>
    obtain ⟨ihc, ihch, ihp, ihpb, ihpc, ihi⟩ := ih
    refine ⟨?_, ?_, ?_, ?_, ?_, ?_⟩
    · -- convert_to_rst
      intro x u loc dflt s l2 d2 h hx
      cases x with
      | text _ => exact Option.noConfusion h
      | tag nm attrs cs =>
        have hx2 : nm = "enum" → attrsLookup attrs "kind" = some "enum" := hx
        simp only [convert_to_rst] at h
        split at h
        · exact Option.noConfusion h
        · rename_i pfx cs1 rebound hpre
          split at h
          · exact Option.noConfusion h
          · rename_i cs2 hre
            split at h
            · exact Option.noConfusion h
            · rename_i body loc2 dflt2 hch
              obtain ⟨e1, e2⟩ := ihch cs2 u _ _ body loc2 dflt2 hch
              subst e1
              subst e2
              rw [curStack_putStack] at h
              by_cases hk : (attrsLookup attrs "kind" == some "enum") = true
              · rw [if_pos hk] at h
                simp only [List.head?_cons, beq_self_eq_true, if_true,
                  List.tail_cons] at h
                rw [putStack_putStack, putStack_curStack] at h
                cases h
                exact ⟨rfl, rfl⟩
              · rw [if_neg hk] at h
                have hnm : nm ≠ "enum" := by
                  intro he
                  exact hk (by rw [hx2 he]; rfl)
                have hbeq : (some nm == some "enum") = false := by
                  simp [hnm]
                simp only [List.head?_cons, hbeq, Bool.false_eq_true,
                  if_false] at h
                rw [putStack_putStack, putStack_curStack] at h
                cases h
                exact ⟨rfl, rfl⟩
    · -- convertChildren
      intro cs u loc dflt s l2 d2 h
      cases cs with
      | nil =>
        simp only [convertChildren] at h
        cases h
        exact ⟨rfl, rfl⟩
      | cons x rest =>
        simp only [convertChildren] at h
        split at h
        · exact Option.noConfusion h
        · rename_i s1 loc1 dflt1 h1
          split at h
          · exact Option.noConfusion h
          · rename_i s2 loc2 dflt2 h2
            have e1 := ihp x u loc dflt s1 loc1 dflt1 h1
            have e2 := ihch rest u loc1 dflt1 s2 loc2 dflt2 h2
            cases h
            exact ⟨e2.1.trans e1.1, e2.2.trans e1.2⟩
    · -- processChild
      intro x u loc dflt s l2 d2 h
      cases x with
      | text s0 =>
        simp only [processChild] at h
        cases h
        exact ⟨rfl, rfl⟩
      | tag n a k =>
        simp only [processChild] at h
        by_cases hb1 : n = "name"
        · rw [if_pos hb1] at h
          by_cases hb1 : "enum" ∈ curStack u loc dflt
          · rw [if_pos hb1] at h
            cases h
            exact ⟨rfl, rfl⟩
          · rw [if_neg hb1] at h
            cases h
            exact ⟨rfl, rfl⟩
        · rw [if_neg hb1] at h
          by_cases hb2 : n = "enumvalue"
          · rw [if_pos hb2] at h
            by_cases hb1 : "enum" ∈ curStack u loc dflt
            · rw [if_pos hb1] at h
              cases hcv : convert_to_rst fuel (XmlNode.tag n a k) u loc dflt with
              | none => rw [hcv] at h; exact Option.noConfusion h
              | some r =>
                obtain ⟨sx, lx, dx⟩ := r
                rw [hcv] at h
                cases h
                exact ihc _ _ _ _ _ _ _ hcv (balancedTop_of_name (by rw [hb2]; decide))
            · rw [if_neg hb1] at h
              cases h
              exact ⟨rfl, rfl⟩
          · rw [if_neg hb2] at h
            by_cases hb3 : n = "definition"
            · rw [if_pos hb3] at h
              split at h
              · exact Option.noConfusion h
              · rename_i v hov
                cases h
                exact ⟨rfl, rfl⟩
            · rw [if_neg hb3] at h
              by_cases hb4 : n = "argsstring"
              · rw [if_pos hb4] at h
                cases h
                exact ⟨rfl, rfl⟩
              · rw [if_neg hb4] at h
                by_cases hb5 : n = "briefdescription"
                · rw [if_pos hb5] at h
                  cases hcv : convert_to_rst fuel (XmlNode.tag n a k) u loc dflt with
                  | none => rw [hcv] at h; exact Option.noConfusion h
                  | some r =>
                    obtain ⟨sx, lx, dx⟩ := r
                    rw [hcv] at h
                    cases h
                    exact ihc _ _ _ _ _ _ _ hcv (balancedTop_of_name (by rw [hb5]; decide))
                · rw [if_neg hb5] at h
                  by_cases hb6 : n = "detaileddescription"
                  · rw [if_pos hb6] at h
                    cases hcv : convert_to_rst fuel (XmlNode.tag n a k) u loc dflt with
                    | none => rw [hcv] at h; exact Option.noConfusion h
                    | some r =>
                      obtain ⟨sx, lx, dx⟩ := r
                      rw [hcv] at h
                      cases h
                      exact ihc _ _ _ _ _ _ _ hcv (balancedTop_of_name (by rw [hb6]; decide))
                  · rw [if_neg hb6] at h
                    by_cases hb7 : n = "templateparamlist"
                    · rw [if_pos hb7] at h
                      split at h
                      · exact Option.noConfusion h
                      · rename_i v hov
                        cases h
                        exact ⟨rfl, rfl⟩
                    · rw [if_neg hb7] at h
                      by_cases hb8 : n = "computeroutput"
                      · rw [if_pos hb8] at h
                        cases h
                        exact ⟨rfl, rfl⟩
                      · rw [if_neg hb8] at h
                        exact ihpb _ _ _ _ _ _ _ h
    · -- processChildB
      intro x u loc dflt s l2 d2 h
      cases x with
      | text s0 =>
        simp only [processChildB] at h
        cases h
        exact ⟨rfl, rfl⟩
      | tag n a k =>
        simp only [processChildB] at h
        by_cases hb1 : n = "formula"
        · rw [if_pos hb1] at h
          cases h
          exact ⟨rfl, rfl⟩
        · rw [if_neg hb1] at h
          by_cases hb2 : n = "title"
          · rw [if_pos hb2] at h
            cases h
            exact ⟨rfl, rfl⟩
          · rw [if_neg hb2] at h
            by_cases hb3 : n = "para"
            · rw [if_pos hb3] at h
              cases hcv : convert_to_rst fuel (XmlNode.tag n a k) u loc dflt with
              | none => rw [hcv] at h; exact Option.noConfusion h
              | some r =>
                obtain ⟨sx, lx, dx⟩ := r
                rw [hcv] at h
                cases h
                exact ihc _ _ _ _ _ _ _ hcv (balancedTop_of_name (by rw [hb3]; decide))
            · rw [if_neg hb3] at h
              by_cases hb4 : n = "simplesect"
              · rw [if_pos hb4] at h
                split at h
                · exact Option.noConfusion h
                · rename_i v hov
                  by_cases hb1 : v = "return"
                  · rw [if_pos hb1] at h
                    cases hcv : convert_to_rst fuel (XmlNode.tag n a k) u loc dflt with
                    | none => rw [hcv] at h; exact Option.noConfusion h
                    | some r =>
                      obtain ⟨sx, lx, dx⟩ := r
                      rw [hcv] at h
                      cases h
                      exact ihc _ _ _ _ _ _ _ hcv (balancedTop_of_name (by rw [hb4]; decide))
                  · rw [if_neg hb1] at h
                    by_cases hb2 : v = "par"
                    · rw [if_pos hb2] at h
                      exact ihc _ _ _ _ _ _ _ h (balancedTop_of_name (by rw [hb4]; decide))
                    · rw [if_neg hb2] at h
                      by_cases hb3 : v = "see"
                      · rw [if_pos hb3] at h
                        cases hcv : convert_to_rst fuel (XmlNode.tag n a k) u loc dflt with
                        | none => rw [hcv] at h; exact Option.noConfusion h
                        | some r =>
                          obtain ⟨sx, lx, dx⟩ := r
                          rw [hcv] at h
                          cases h
                          exact ihc _ _ _ _ _ _ _ hcv (balancedTop_of_name (by rw [hb4]; decide))
                      · rw [if_neg hb3] at h
                        cases h
                        exact ⟨rfl, rfl⟩
              · rw [if_neg hb4] at h
                by_cases hb5 : n = "parameterlist"
                · rw [if_pos hb5] at h
                  split at h
                  · exact Option.noConfusion h
                  · rename_i v hov
                    by_cases hb1 : v = "templateparam"
                    · rw [if_pos hb1] at h
                      exact ihi _ _ _ _ _ _ _ _ _ h
                    · rw [if_neg hb1] at h
                      by_cases hb2 : v = "param"
                      · rw [if_pos hb2] at h
                        exact ihi _ _ _ _ _ _ _ _ _ h
                      · rw [if_neg hb2] at h
                        by_cases hb3 : v = "exception"
                        · rw [if_pos hb3] at h
                          exact ihi _ _ _ _ _ _ _ _ _ h
                        · rw [if_neg hb3] at h
                          cases h
                          exact ⟨rfl, rfl⟩
                · rw [if_neg hb5] at h
                  by_cases hb6 : n = "ref"
                  · rw [if_pos hb6] at h
                    cases h
                    exact ⟨rfl, rfl⟩
                  · rw [if_neg hb6] at h
                    by_cases hb7 : n = "emphasis"
                    · rw [if_pos hb7] at h
                      cases h
                      exact ⟨rfl, rfl⟩
                    · rw [if_neg hb7] at h
                      by_cases hb8 : n = "bold"
                      · rw [if_pos hb8] at h
                        cases h
                        exact ⟨rfl, rfl⟩
                      · rw [if_neg hb8] at h
                        exact ihpc _ _ _ _ _ _ _ h
    · -- processChildC
      intro x u loc dflt s l2 d2 h
      cases x with
      | text s0 =>
        simp only [processChildC] at h
        cases h
        exact ⟨rfl, rfl⟩
      | tag n a k =>
        simp only [processChildC] at h
        by_cases hb1 : n = "compoundname"
        · rw [if_pos hb1] at h
          cases h
          exact ⟨rfl, rfl⟩
        · rw [if_neg hb1] at h
          by_cases hb2 : n = "ulink"
          · rw [if_pos hb2] at h
            split at h
            · exact Option.noConfusion h
            · rename_i v hov
              cases h
              exact ⟨rfl, rfl⟩
          · rw [if_neg hb2] at h
            by_cases hb3 : n = "itemizedlist"
            · rw [if_pos hb3] at h
              cases hcv : convert_to_rst fuel (XmlNode.tag n a k) u loc dflt with
              | none => rw [hcv] at h; exact Option.noConfusion h
              | some r =>
                obtain ⟨sx, lx, dx⟩ := r
                rw [hcv] at h
                cases h
                exact ihc _ _ _ _ _ _ _ hcv (balancedTop_of_name (by rw [hb3]; decide))
            · rw [if_neg hb3] at h
              by_cases hb4 : n = "listitem"
              · rw [if_pos hb4] at h
                cases hcv : convert_to_rst fuel (XmlNode.tag n a k) u loc dflt with
                | none => rw [hcv] at h; exact Option.noConfusion h
                | some r =>
                  obtain ⟨sx, lx, dx⟩ := r
                  rw [hcv] at h
                  cases h
                  exact ihc _ _ _ _ _ _ _ hcv (balancedTop_of_name (by rw [hb4]; decide))
              · rw [if_neg hb4] at h
                by_cases hb5 : n = "programlisting"
                · rw [if_pos hb5] at h
                  cases hcv : convert_to_rst fuel (XmlNode.tag n a k) true loc dflt with
                  | none => rw [hcv] at h; exact Option.noConfusion h
                  | some r =>
                    obtain ⟨sx, lx, dx⟩ := r
                    rw [hcv] at h
                    cases h
                    exact ihc _ _ _ _ _ _ _ hcv (balancedTop_of_name (by rw [hb5]; decide))
                · rw [if_neg hb5] at h
                  by_cases hb6 : n = "codeline"
                  · rw [if_pos hb6] at h
                    cases hcv : convert_to_rst fuel (XmlNode.tag n a k) true loc dflt with
                    | none => rw [hcv] at h; exact Option.noConfusion h
                    | some r =>
                      obtain ⟨sx, lx, dx⟩ := r
                      rw [hcv] at h
                      cases h
                      exact ihc _ _ _ _ _ _ _ hcv (balancedTop_of_name (by rw [hb6]; decide))
                  · rw [if_neg hb6] at h
                    by_cases hb7 : n = "highlight"
                    · rw [if_pos hb7] at h
                      exact ihc _ _ _ _ _ _ _ h (balancedTop_of_name (by rw [hb7]; decide))
                    · rw [if_neg hb7] at h
                      by_cases hb8 : n = "sp"
                      · rw [if_pos hb8] at h
                        cases h
                        exact ⟨rfl, rfl⟩
                      · rw [if_neg hb8] at h
                        cases h
                        exact ⟨rfl, rfl⟩
    · -- paramItems
      intro mode pl ys u loc dflt s l2 d2 h
      cases ys with
      | nil =>
        simp only [paramItems] at h
        cases h
        exact ⟨rfl, rfl⟩
      | cons y rest =>
        cases mode with
        | tparam =>
          simp only [paramItems] at h
          repeat' split at h
          all_goals first
            | exact Option.noConfusion h
            | (have e2 := ihi _ _ _ _ _ _ _ _ _ (by assumption)
               have e1 := ihc _ _ _ _ _ _ _ (by assumption)
                 (xmlFind_balancedTop (by assumption) (by decide))
               first
               | exact ⟨e2.1.trans e1.1, e2.2.trans e1.2⟩
               | (cases h; exact ⟨e2.1.trans e1.1, e2.2.trans e1.2⟩))
        | param =>
          simp only [paramItems] at h
          repeat' split at h
          all_goals first
            | exact Option.noConfusion h
            | (have e2 := ihi _ _ _ _ _ _ _ _ _ (by assumption)
               have e1 := ihc _ _ _ _ _ _ _ (by assumption)
                 (xmlFind_balancedTop (by assumption) (by decide))
               first
               | exact ⟨e2.1.trans e1.1, e2.2.trans e1.2⟩
               | (cases h; exact ⟨e2.1.trans e1.1, e2.2.trans e1.2⟩))
        | exc =>
          simp only [paramItems] at h
          split at h
          · exact Option.noConfusion h
          rename_i nn hnn
          split at h
          · exact Option.noConfusion h
          rename_i pd hpd
          split at h
          · exact Option.noConfusion h
          rename_i s1 l1 d1 hcv1
          split at h
          · exact Option.noConfusion h
          rename_i s2v l2v d2v hcv2
          split at h
          · exact Option.noConfusion h
          rename_i srest l3 d3 hrec
          have e1 := ihc nn u loc dflt s1 l1 d1 hcv1
            (xmlFind_balancedTop hnn (by decide))
          have e2 := ihc pd u l1 d1 s2v l2v d2v hcv2
            (xmlFind_balancedTop hpd (by decide))
          have e3 := ihi PlKind.exc pl rest u l2v d2v srest l3 d3 hrec
          cases h
          exact ⟨(e3.1.trans e2.1).trans e1.1, (e3.2.trans e2.2).trans e1.2⟩

/-- C3 counterexample: an element with an unrecognized tag (`mystery`)
appearing as a child is skipped entirely — the rendered output of its parent
is empty and the descendant text `Hello` does not appear in it. -/
theorem C3_unknown_tag_text_dropped :
    convert_to_rst 12
        (XmlNode.tag "para" [] [XmlNode.tag "mystery" [] [XmlNode.text "Hello"]])
        false [] [] = some ("", [], [])
      ∧ pyContains "" "Hello" = false := by decide

/-- The tag names with a dedicated branch in the dispatch chain of
`convert_to_rst`'s child loop. -/
def handledChildNames : List String :=
  ["name", "enumvalue", "definition", "argsstring", "briefdescription",
   "detaileddescription", "templateparamlist", "computeroutput", "formula",
   "title", "para", "simplesect", "parameterlist", "ref", "emphasis", "bold",
   "compoundname", "ulink", "itemizedlist", "listitem", "programlisting",
   "codeline", "highlight", "sp"]

/-- C3 (amended): a child element whose tag matches none of the handled
branches falls through the whole `elif` chain: it contributes the empty
string, is not recursed into, and leaves both context stacks untouched
(no error is raised).  Its descendants' text is therefore dropped, not
flattened. -/
theorem C3_unknown_child_skipped (fuel : Nat) (n : String)
    (a : List (String × String)) (k : List XmlNode) (u : Bool)
    (loc dflt : List String) (hn : n ∉ handledChildNames) :
    processChild (fuel + 3) (XmlNode.tag n a k) u loc dflt
      = some ("", loc, dflt) := by
  simp only [handledChildNames, List.mem_cons, List.not_mem_nil, not_or,
    or_false] at hn
  obtain ⟨h1, h2, h3, h4, h5, h6, h7, h8, h9, h10, h11, h12, h13, h14, h15,
    h16, h17, h18, h19, h20, h21, h22, h23, h24⟩ := hn
  simp only [processChild, processChildB, processChildC,
    if_neg h1, if_neg h2, if_neg h3, if_neg h4, if_neg h5, if_neg h6,
    if_neg h7, if_neg h8, if_neg h9, if_neg h10, if_neg h11, if_neg h12,
    if_neg h13, if_neg h14, if_neg h15, if_neg h16, if_neg h17, if_neg h18,
    if_neg h19, if_neg h20, if_neg h21, if_neg h22, if_neg h23, if_neg h24]

theorem C3_unknown_child_skipped_witness :
    processChild 15 (XmlNode.tag "mystery" [] [XmlNode.text "Hello"]) false
        ["a"] ["b"] = some ("", ["a"], ["b"]) :=
  C3_unknown_child_skipped 12 "mystery" [] [XmlNode.text "Hello"] false
    ["a"] ["b"] (by decide)

/-- C4 counterexample: converting an element literally tagged `enum` (whose
`kind` attribute is not `"enum"`) returns normally but pops one entry too
many: the caller's context `["para"]` comes back as `[]`. -/
theorem C4_enum_tag_unbalances_context :
    convert_to_rst 6 (XmlNode.tag "enum" [] []) false ["para"] []
        = some ("", [], [])
      ∧ (["para"] : List String) ≠ ([] : List String) := by decide

/-- C4 (amended): for every node except a tag literally named `enum`
without `kind="enum"`, whenever `convert_to_rst` returns normally both the
caller-supplied context list and the shared default list are restored to
exactly their pre-call contents (every push is popped exactly once). -/
theorem C4_context_stack_balanced (fuel : Nat) (x : XmlNode) (u : Bool)
    (loc dflt : List String) (s : String) (l2 d2 : List String)
    (hx : balancedTop x)
    (h : convert_to_rst fuel x u loc dflt = some (s, l2, d2)) :
    l2 = loc ∧ d2 = dflt :=
  (balanceAll fuel).1 x u loc dflt s l2 d2 h hx

theorem C4_context_stack_balanced_witness :
    (["a"] : List String) = ["a"] ∧ (["b"] : List String) = ["b"] :=
  C4_context_stack_balanced 12 (XmlNode.tag "para" [] [XmlNode.text "hi"])
    false ["a"] ["b"] " hi" ["a"] ["b"] (fun he => absurd he (by decide))
    (by decide)

/-! ## Context congruence for rendering (claim C10) -/

theorem curStack_true (l d : List String) : curStack true l d = d := rfl

theorem putStack_true (l d c : List String) : putStack true l d c = (l, c) := rfl

/-- Everything the rendering of a subtree can observe of the surrounding
context stack: the four indentation counts and whether `"enum"` occurs. -/
def ctxMeasure (c : List String) : Nat × Nat × Nat × Nat × Bool :=
  (c.count "memberdef", c.count "compounddef", c.count "parameterdescription",
   c.count "programlisting", decide ("enum" ∈ c))

theorem ctxMeasure_cons {c1 c2 : List String} (t : String)
    (h : ctxMeasure c1 = ctxMeasure c2) :
    ctxMeasure (t :: c1) = ctxMeasure (t :: c2) := by
  simp only [ctxMeasure, Prod.mk.injEq, List.count_cons, List.mem_cons,
    decide_eq_decide] at h ⊢
  obtain ⟨a, b, c, d, e⟩ := h
  refine ⟨by rw [a], by rw [b], by rw [c], by rw [d], by rw [e]⟩

theorem indent_congr {c1 c2 : List String} (h : ctxMeasure c1 = ctxMeasure c2) :
    indent c1 = indent c2 := by
  simp only [ctxMeasure, Prod.mk.injEq] at h
  obtain ⟨a, b, c, d, -⟩ := h
  simp [indent, a, b, c, d]

theorem enumMem_congr {c1 c2 : List String}
    (h : ctxMeasure c1 = ctxMeasure c2) : ("enum" ∈ c1) ↔ ("enum" ∈ c2) := by
  simp only [ctxMeasure, Prod.mk.injEq, decide_eq_decide] at h
  exact h.2.2.2.2

theorem map_fst_eq_some {r : Option (String × List String × List String)}
    {sx : String} (h : r.map Prod.fst = some sx) :
    ∃ p q, r = some (sx, p, q) := by
  cases r with
  | none => simp at h
  | some v =>
    obtain ⟨a, b, c⟩ := v
    simp only [Option.map_some', Option.some.injEq] at h
    exact ⟨b, c, by rw [h]⟩
/-- Congruence of rendering in the context stack: with the shared default
list in use (every recursive call in the source omits `context`), the
rendered text depends on the stack only through `ctxMeasure` (and, for
children sequences, the top entry). -/
theorem congrAll (fuel : Nat) :
    (∀ x l1 l2 c1 c2, nodeName x ≠ some "enum" →
        ctxMeasure c1 = ctxMeasure c2 →
        (convert_to_rst fuel x true l1 c1).map Prod.fst
          = (convert_to_rst fuel x true l2 c2).map Prod.fst)
    ∧ (∀ cs l1 l2 c1 c2, ctxMeasure c1 = ctxMeasure c2 →
        c1.head? = c2.head? →
        (convertChildren fuel cs true l1 c1).map Prod.fst
          = (convertChildren fuel cs true l2 c2).map Prod.fst)
    ∧ (∀ x l1 l2 c1 c2, ctxMeasure c1 = ctxMeasure c2 → c1.head? = c2.head? →
        (processChild fuel x true l1 c1).map Prod.fst
          = (processChild fuel x true l2 c2).map Prod.fst)
    ∧ (∀ x l1 l2 c1 c2, ctxMeasure c1 = ctxMeasure c2 → c1.head? = c2.head? →
        (processChildB fuel x true l1 c1).map Prod.fst
          = (processChildB fuel x true l2 c2).map Prod.fst)
    ∧ (∀ x l1 l2 c1 c2, ctxMeasure c1 = ctxMeasure c2 → c1.head? = c2.head? →
        (processChildC fuel x true l1 c1).map Prod.fst
          = (processChildC fuel x true l2 c2).map Prod.fst)
    ∧ (∀ mode pl ys l1 l2 c1 c2, ctxMeasure c1 = ctxMeasure c2 →
        (paramItems fuel mode pl ys true l1 c1).map Prod.fst
          = (paramItems fuel mode pl ys true l2 c2).map Prod.fst) := by
  induction fuel with
  | zero =>
    exact ⟨fun x l1 l2 c1 c2 hx hm => rfl,
           fun cs l1 l2 c1 c2 hm hh => rfl,
           fun x l1 l2 c1 c2 hm hh => rfl,
           fun x l1 l2 c1 c2 hm hh => rfl,
           fun x l1 l2 c1 c2 hm hh => rfl,
           fun mode pl ys l1 l2 c1 c2 hm => rfl⟩
  | succ fuel ih =>
    obtain ⟨ihc, ihch, ihp, ihpb, ihpc, ihi⟩ := ih
    refine ⟨?_, ?_, ?_, ?_, ?_, ?_⟩
    · -- convert_to_rst
      intro x l1 l2 c1 c2 hx hm
      cases x with
      | text s => rfl
      | tag nm attrs cs =>
        have hnm : nm ≠ "enum" := fun he => hx (by rw [he]; rfl)
        simp only [convert_to_rst, curStack_true, putStack_true]
        by_cases hk : (attrsLookup attrs "kind" == some "enum") = true
        · simp only [if_pos hk]
          by_cases hcd : nm = "compounddef"
          · simp only [if_pos hcd]
            cases hak : attrsLookup attrs "kind" with
            | none => rfl
            | some kind =>
              rw [hak] at hk
              try simp only []
              cases hpf : PREFIXES kind with
              | none => rfl
              | some pfx =>
                try simp only []
                cases hft : cs.find? (fun c => nodeName c == some "templateparamlist") with
                | some t =>
                  simp only [Bool.not_true, Bool.false_and, Bool.false_eq_true, if_false]
                  have hEq := ihch (t :: cs.filter (fun c => !(nodeName c == some "templateparamlist"))) l1 l2 ("enum" :: nm :: c1) ("enum" :: nm :: c2) (ctxMeasure_cons "enum" (ctxMeasure_cons nm hm)) rfl
                  cases hcv1 : convertChildren fuel (t :: cs.filter (fun c => !(nodeName c == some "templateparamlist"))) true l1 ("enum" :: nm :: c1) with
                  | none =>
                    rw [hcv1] at hEq
                    have hnsx : (convertChildren fuel (t :: cs.filter (fun c => !(nodeName c == some "templateparamlist"))) true l2 ("enum" :: nm :: c2)).map Prod.fst = none := by simpa using hEq.symm
                    rw [Option.map_eq_none'.mp hnsx]
                  | some rsx =>
                    obtain ⟨sx, st1l, st1d⟩ := rsx
                    rw [hcv1] at hEq
                    have hfssx : (convertChildren fuel (t :: cs.filter (fun c => !(nodeName c == some "templateparamlist"))) true l2 ("enum" :: nm :: c2)).map Prod.fst = some sx := by simpa using hEq.symm
                    obtain ⟨p2, q2, hcv2⟩ := map_fst_eq_some hfssx
                    rw [hcv2]
                    obtain ⟨hb1l, hb1d⟩ := (balanceAll fuel).2.1 (t :: cs.filter (fun c => !(nodeName c == some "templateparamlist"))) true l1 ("enum" :: nm :: c1) sx st1l st1d hcv1
                    obtain ⟨hb2l, hb2d⟩ := (balanceAll fuel).2.1 (t :: cs.filter (fun c => !(nodeName c == some "templateparamlist"))) true l2 ("enum" :: nm :: c2) sx p2 q2 hcv2
                    subst st1l st1d p2 q2
                    by_cases hit : nm = "itemizedlist"
                    · subst hit
                      simp [putStack_true, indent_congr hm]
                    · simp [putStack_true, hnm, hit, indent_congr hm]
                | none =>
                  simp only [Bool.not_false, Bool.true_and]
                  simp only [if_pos hk]
                  cases hfn : cs.find? (fun c => nodeName c == some "name") with
                  | none => rfl
                  | some nn =>
                    try simp only []
                    have hEq := ihch (nn :: ((cs.find? (fun c => nodeName c == some "briefdescription")).getD (XmlNode.text "")) :: cs.filter (fun c => !(nodeName c == some "briefdescription") && !(nodeName c == some "name"))) l1 l2 ("enum" :: nm :: c1) ("enum" :: nm :: c2) (ctxMeasure_cons "enum" (ctxMeasure_cons nm hm)) rfl
                    cases hcv1 : convertChildren fuel (nn :: ((cs.find? (fun c => nodeName c == some "briefdescription")).getD (XmlNode.text "")) :: cs.filter (fun c => !(nodeName c == some "briefdescription") && !(nodeName c == some "name"))) true l1 ("enum" :: nm :: c1) with
                    | none =>
                      rw [hcv1] at hEq
                      have hnsx : (convertChildren fuel (nn :: ((cs.find? (fun c => nodeName c == some "briefdescription")).getD (XmlNode.text "")) :: cs.filter (fun c => !(nodeName c == some "briefdescription") && !(nodeName c == some "name"))) true l2 ("enum" :: nm :: c2)).map Prod.fst = none := by simpa using hEq.symm
                      rw [Option.map_eq_none'.mp hnsx]
                    | some rsx =>
                      obtain ⟨sx, st1l, st1d⟩ := rsx
                      rw [hcv1] at hEq
                      have hfssx : (convertChildren fuel (nn :: ((cs.find? (fun c => nodeName c == some "briefdescription")).getD (XmlNode.text "")) :: cs.filter (fun c => !(nodeName c == some "briefdescription") && !(nodeName c == some "name"))) true l2 ("enum" :: nm :: c2)).map Prod.fst = some sx := by simpa using hEq.symm
                      obtain ⟨p2, q2, hcv2⟩ := map_fst_eq_some hfssx
                      rw [hcv2]
                      obtain ⟨hb1l, hb1d⟩ := (balanceAll fuel).2.1 (nn :: ((cs.find? (fun c => nodeName c == some "briefdescription")).getD (XmlNode.text "")) :: cs.filter (fun c => !(nodeName c == some "briefdescription") && !(nodeName c == some "name"))) true l1 ("enum" :: nm :: c1) sx st1l st1d hcv1
                      obtain ⟨hb2l, hb2d⟩ := (balanceAll fuel).2.1 (nn :: ((cs.find? (fun c => nodeName c == some "briefdescription")).getD (XmlNode.text "")) :: cs.filter (fun c => !(nodeName c == some "briefdescription") && !(nodeName c == some "name"))) true l2 ("enum" :: nm :: c2) sx p2 q2 hcv2
                      subst st1l st1d p2 q2
                      by_cases hit : nm = "itemizedlist"
                      · subst hit
                        simp [putStack_true, indent_congr hm]
                      · simp [putStack_true, hnm, hit, indent_congr hm]
          · simp only [if_neg hcd]
            by_cases hmd : nm = "memberdef"
            · simp only [if_pos hmd]
              cases hak : attrsLookup attrs "kind" with
              | none => rfl
              | some kind =>
                rw [hak] at hk
                try simp only []
                cases hpf : PREFIXES kind with
                | none => rfl
                | some pfx =>
                  try simp only []
                  simp only [Bool.not_false, Bool.true_and]
                  simp only [if_pos hk]
                  cases hfn : cs.find? (fun c => nodeName c == some "name") with
                  | none => rfl
                  | some nn =>
                    try simp only []
                    have hEq := ihch (nn :: ((cs.find? (fun c => nodeName c == some "briefdescription")).getD (XmlNode.text "")) :: cs.filter (fun c => !(nodeName c == some "briefdescription") && !(nodeName c == some "name"))) l1 l2 ("enum" :: nm :: c1) ("enum" :: nm :: c2) (ctxMeasure_cons "enum" (ctxMeasure_cons nm hm)) rfl
                    cases hcv1 : convertChildren fuel (nn :: ((cs.find? (fun c => nodeName c == some "briefdescription")).getD (XmlNode.text "")) :: cs.filter (fun c => !(nodeName c == some "briefdescription") && !(nodeName c == some "name"))) true l1 ("enum" :: nm :: c1) with
                    | none =>
                      rw [hcv1] at hEq
                      have hnsx : (convertChildren fuel (nn :: ((cs.find? (fun c => nodeName c == some "briefdescription")).getD (XmlNode.text "")) :: cs.filter (fun c => !(nodeName c == some "briefdescription") && !(nodeName c == some "name"))) true l2 ("enum" :: nm :: c2)).map Prod.fst = none := by simpa using hEq.symm
                      rw [Option.map_eq_none'.mp hnsx]
                    | some rsx =>
                      obtain ⟨sx, st1l, st1d⟩ := rsx
                      rw [hcv1] at hEq
                      have hfssx : (convertChildren fuel (nn :: ((cs.find? (fun c => nodeName c == some "briefdescription")).getD (XmlNode.text "")) :: cs.filter (fun c => !(nodeName c == some "briefdescription") && !(nodeName c == some "name"))) true l2 ("enum" :: nm :: c2)).map Prod.fst = some sx := by simpa using hEq.symm
                      obtain ⟨p2, q2, hcv2⟩ := map_fst_eq_some hfssx
                      rw [hcv2]
                      obtain ⟨hb1l, hb1d⟩ := (balanceAll fuel).2.1 (nn :: ((cs.find? (fun c => nodeName c == some "briefdescription")).getD (XmlNode.text "")) :: cs.filter (fun c => !(nodeName c == some "briefdescription") && !(nodeName c == some "name"))) true l1 ("enum" :: nm :: c1) sx st1l st1d hcv1
                      obtain ⟨hb2l, hb2d⟩ := (balanceAll fuel).2.1 (nn :: ((cs.find? (fun c => nodeName c == some "briefdescription")).getD (XmlNode.text "")) :: cs.filter (fun c => !(nodeName c == some "briefdescription") && !(nodeName c == some "name"))) true l2 ("enum" :: nm :: c2) sx p2 q2 hcv2
                      subst st1l st1d p2 q2
                      by_cases hit : nm = "itemizedlist"
                      · subst hit
                        simp [putStack_true, indent_congr hm]
                      · simp [putStack_true, hnm, hit, indent_congr hm]
            · simp only [if_neg hmd]
              try simp only []
              simp only [Bool.not_false, Bool.true_and]
              simp only [if_pos hk]
              cases hfn : cs.find? (fun c => nodeName c == some "name") with
              | none => rfl
              | some nn =>
                try simp only []
                have hEq := ihch (nn :: ((cs.find? (fun c => nodeName c == some "briefdescription")).getD (XmlNode.text "")) :: cs.filter (fun c => !(nodeName c == some "briefdescription") && !(nodeName c == some "name"))) l1 l2 ("enum" :: nm :: c1) ("enum" :: nm :: c2) (ctxMeasure_cons "enum" (ctxMeasure_cons nm hm)) rfl
                cases hcv1 : convertChildren fuel (nn :: ((cs.find? (fun c => nodeName c == some "briefdescription")).getD (XmlNode.text "")) :: cs.filter (fun c => !(nodeName c == some "briefdescription") && !(nodeName c == some "name"))) true l1 ("enum" :: nm :: c1) with
                | none =>
                  rw [hcv1] at hEq
                  have hnsx : (convertChildren fuel (nn :: ((cs.find? (fun c => nodeName c == some "briefdescription")).getD (XmlNode.text "")) :: cs.filter (fun c => !(nodeName c == some "briefdescription") && !(nodeName c == some "name"))) true l2 ("enum" :: nm :: c2)).map Prod.fst = none := by simpa using hEq.symm
                  rw [Option.map_eq_none'.mp hnsx]
                | some rsx =>
                  obtain ⟨sx, st1l, st1d⟩ := rsx
                  rw [hcv1] at hEq
                  have hfssx : (convertChildren fuel (nn :: ((cs.find? (fun c => nodeName c == some "briefdescription")).getD (XmlNode.text "")) :: cs.filter (fun c => !(nodeName c == some "briefdescription") && !(nodeName c == some "name"))) true l2 ("enum" :: nm :: c2)).map Prod.fst = some sx := by simpa using hEq.symm
                  obtain ⟨p2, q2, hcv2⟩ := map_fst_eq_some hfssx
                  rw [hcv2]
                  obtain ⟨hb1l, hb1d⟩ := (balanceAll fuel).2.1 (nn :: ((cs.find? (fun c => nodeName c == some "briefdescription")).getD (XmlNode.text "")) :: cs.filter (fun c => !(nodeName c == some "briefdescription") && !(nodeName c == some "name"))) true l1 ("enum" :: nm :: c1) sx st1l st1d hcv1
                  obtain ⟨hb2l, hb2d⟩ := (balanceAll fuel).2.1 (nn :: ((cs.find? (fun c => nodeName c == some "briefdescription")).getD (XmlNode.text "")) :: cs.filter (fun c => !(nodeName c == some "briefdescription") && !(nodeName c == some "name"))) true l2 ("enum" :: nm :: c2) sx p2 q2 hcv2
                  subst st1l st1d p2 q2
                  by_cases hit : nm = "itemizedlist"
                  · subst hit
                    simp [putStack_true, indent_congr hm]
                  · simp [putStack_true, hnm, hit, indent_congr hm]
        · simp only [if_neg hk]
          by_cases hcd : nm = "compounddef"
          · simp only [if_pos hcd]
            cases hak : attrsLookup attrs "kind" with
            | none => rfl
            | some kind =>
              rw [hak] at hk
              try simp only []
              cases hpf : PREFIXES kind with
              | none => rfl
              | some pfx =>
                try simp only []
                cases hft : cs.find? (fun c => nodeName c == some "templateparamlist") with
                | some t =>
                  simp only [Bool.not_true, Bool.false_and, Bool.false_eq_true, if_false]
                  have hEq := ihch (t :: cs.filter (fun c => !(nodeName c == some "templateparamlist"))) l1 l2 (nm :: c1) (nm :: c2) (ctxMeasure_cons nm hm) rfl
                  cases hcv1 : convertChildren fuel (t :: cs.filter (fun c => !(nodeName c == some "templateparamlist"))) true l1 (nm :: c1) with
                  | none =>
                    rw [hcv1] at hEq
                    have hnsx : (convertChildren fuel (t :: cs.filter (fun c => !(nodeName c == some "templateparamlist"))) true l2 (nm :: c2)).map Prod.fst = none := by simpa using hEq.symm
                    rw [Option.map_eq_none'.mp hnsx]
                  | some rsx =>
                    obtain ⟨sx, st1l, st1d⟩ := rsx
                    rw [hcv1] at hEq
                    have hfssx : (convertChildren fuel (t :: cs.filter (fun c => !(nodeName c == some "templateparamlist"))) true l2 (nm :: c2)).map Prod.fst = some sx := by simpa using hEq.symm
                    obtain ⟨p2, q2, hcv2⟩ := map_fst_eq_some hfssx
                    rw [hcv2]
                    obtain ⟨hb1l, hb1d⟩ := (balanceAll fuel).2.1 (t :: cs.filter (fun c => !(nodeName c == some "templateparamlist"))) true l1 (nm :: c1) sx st1l st1d hcv1
                    obtain ⟨hb2l, hb2d⟩ := (balanceAll fuel).2.1 (t :: cs.filter (fun c => !(nodeName c == some "templateparamlist"))) true l2 (nm :: c2) sx p2 q2 hcv2
                    subst st1l st1d p2 q2
                    by_cases hit : nm = "itemizedlist"
                    · subst hit
                      simp [putStack_true, indent_congr hm]
                    · simp [putStack_true, hnm, hit, indent_congr hm]
                | none =>
                  simp only [Bool.not_false, Bool.true_and]
                  simp only [if_neg hk]
                  have hEq := ihch cs l1 l2 (nm :: c1) (nm :: c2) (ctxMeasure_cons nm hm) rfl
                  cases hcv1 : convertChildren fuel cs true l1 (nm :: c1) with
                  | none =>
                    rw [hcv1] at hEq
                    have hnsx : (convertChildren fuel cs true l2 (nm :: c2)).map Prod.fst = none := by simpa using hEq.symm
                    rw [Option.map_eq_none'.mp hnsx]
                  | some rsx =>
                    obtain ⟨sx, st1l, st1d⟩ := rsx
                    rw [hcv1] at hEq
                    have hfssx : (convertChildren fuel cs true l2 (nm :: c2)).map Prod.fst = some sx := by simpa using hEq.symm
                    obtain ⟨p2, q2, hcv2⟩ := map_fst_eq_some hfssx
                    rw [hcv2]
                    obtain ⟨hb1l, hb1d⟩ := (balanceAll fuel).2.1 cs true l1 (nm :: c1) sx st1l st1d hcv1
                    obtain ⟨hb2l, hb2d⟩ := (balanceAll fuel).2.1 cs true l2 (nm :: c2) sx p2 q2 hcv2
                    subst st1l st1d p2 q2
                    by_cases hit : nm = "itemizedlist"
                    · subst hit
                      simp [putStack_true, indent_congr hm]
                    · simp [putStack_true, hnm, hit, indent_congr hm]
          · simp only [if_neg hcd]
            by_cases hmd : nm = "memberdef"
            · simp only [if_pos hmd]
              cases hak : attrsLookup attrs "kind" with
              | none => rfl
              | some kind =>
                rw [hak] at hk
                try simp only []
                cases hpf : PREFIXES kind with
                | none => rfl
                | some pfx =>
                  try simp only []
                  simp only [Bool.not_false, Bool.true_and]
                  simp only [if_neg hk]
                  have hEq := ihch cs l1 l2 (nm :: c1) (nm :: c2) (ctxMeasure_cons nm hm) rfl
                  cases hcv1 : convertChildren fuel cs true l1 (nm :: c1) with
                  | none =>
                    rw [hcv1] at hEq
                    have hnsx : (convertChildren fuel cs true l2 (nm :: c2)).map Prod.fst = none := by simpa using hEq.symm
                    rw [Option.map_eq_none'.mp hnsx]
                  | some rsx =>
                    obtain ⟨sx, st1l, st1d⟩ := rsx
                    rw [hcv1] at hEq
                    have hfssx : (convertChildren fuel cs true l2 (nm :: c2)).map Prod.fst = some sx := by simpa using hEq.symm
                    obtain ⟨p2, q2, hcv2⟩ := map_fst_eq_some hfssx
                    rw [hcv2]
                    obtain ⟨hb1l, hb1d⟩ := (balanceAll fuel).2.1 cs true l1 (nm :: c1) sx st1l st1d hcv1
                    obtain ⟨hb2l, hb2d⟩ := (balanceAll fuel).2.1 cs true l2 (nm :: c2) sx p2 q2 hcv2
                    subst st1l st1d p2 q2
                    by_cases hit : nm = "itemizedlist"
                    · subst hit
                      simp [putStack_true, indent_congr hm]
                    · simp [putStack_true, hnm, hit, indent_congr hm]
            · simp only [if_neg hmd]
              try simp only []
              simp only [Bool.not_false, Bool.true_and]
              simp only [if_neg hk]
              have hEq := ihch cs l1 l2 (nm :: c1) (nm :: c2) (ctxMeasure_cons nm hm) rfl
              cases hcv1 : convertChildren fuel cs true l1 (nm :: c1) with
              | none =>
                rw [hcv1] at hEq
                have hnsx : (convertChildren fuel cs true l2 (nm :: c2)).map Prod.fst = none := by simpa using hEq.symm
                rw [Option.map_eq_none'.mp hnsx]
              | some rsx =>
                obtain ⟨sx, st1l, st1d⟩ := rsx
                rw [hcv1] at hEq
                have hfssx : (convertChildren fuel cs true l2 (nm :: c2)).map Prod.fst = some sx := by simpa using hEq.symm
                obtain ⟨p2, q2, hcv2⟩ := map_fst_eq_some hfssx
                rw [hcv2]
                obtain ⟨hb1l, hb1d⟩ := (balanceAll fuel).2.1 cs true l1 (nm :: c1) sx st1l st1d hcv1
                obtain ⟨hb2l, hb2d⟩ := (balanceAll fuel).2.1 cs true l2 (nm :: c2) sx p2 q2 hcv2
                subst st1l st1d p2 q2
                by_cases hit : nm = "itemizedlist"
                · subst hit
                  simp [putStack_true, indent_congr hm]
                · simp [putStack_true, hnm, hit, indent_congr hm]
    · -- convertChildren
      intro cs l1 l2 c1 c2 hm hh
      cases cs with
      | nil => rfl
      | cons x rest =>
        simp only [convertChildren]
        have hEq := ihp x l1 l2 c1 c2 hm hh
        cases hcv1 : processChild fuel x true l1 c1 with
        | none =>
          rw [hcv1] at hEq
          have hnsx : (processChild fuel x true l2 c2).map Prod.fst = none := by simpa using hEq.symm
          rw [Option.map_eq_none'.mp hnsx]
        | some rsx =>
          obtain ⟨sx, st1l, st1d⟩ := rsx
          rw [hcv1] at hEq
          have hfssx : (processChild fuel x true l2 c2).map Prod.fst = some sx := by simpa using hEq.symm
          obtain ⟨p2, q2, hcv2⟩ := map_fst_eq_some hfssx
          rw [hcv2]
          obtain ⟨hb1l, hb1d⟩ := (balanceAll fuel).2.2.1 x true l1 c1 sx st1l st1d hcv1
          obtain ⟨hb2l, hb2d⟩ := (balanceAll fuel).2.2.1 x true l2 c2 sx p2 q2 hcv2
          subst st1l st1d p2 q2
          try simp only []
          have hEq2 := ihch rest l1 l2 c1 c2 hm hh
          cases hcr1 : convertChildren fuel rest true l1 c1 with
          | none =>
            rw [hcr1] at hEq2
            have hnsy : (convertChildren fuel rest true l2 c2).map Prod.fst = none := by simpa using hEq2.symm
            rw [Option.map_eq_none'.mp hnsy]
          | some rsy =>
            obtain ⟨sy, r2l, r2d⟩ := rsy
            rw [hcr1] at hEq2
            have hfssy : (convertChildren fuel rest true l2 c2).map Prod.fst = some sy := by simpa using hEq2.symm
            obtain ⟨p3, q3, hcr2⟩ := map_fst_eq_some hfssy
            rw [hcr2]
            rfl
    · -- processChild
      intro x l1 l2 c1 c2 hm hh
      cases x with
      | text s => rfl
      | tag n a k =>
        simp only [processChild, curStack_true]
        by_cases h1 : n = "name"
        · simp only [if_pos h1]
          by_cases hq : "enum" ∈ c1
          · have hq2 := (enumMem_congr hm).mp hq
            simp only [if_pos hq, if_pos hq2]
            rfl
          · have hq2 : ¬ "enum" ∈ c2 := fun hz => hq ((enumMem_congr hm).mpr hz)
            simp only [if_neg hq, if_neg hq2]
            rfl
        · simp only [if_neg h1]
          by_cases h2 : n = "enumvalue"
          · simp only [if_pos h2]
            by_cases hq : "enum" ∈ c1
            · have hq2 := (enumMem_congr hm).mp hq
              simp only [if_pos hq, if_pos hq2]
              have hEq := ihc (XmlNode.tag n a k) l1 l2 c1 c2 (by rw [h2]; simp [nodeName]) hm
              cases hcv1 : convert_to_rst fuel (XmlNode.tag n a k) true l1 c1 with
              | none =>
                rw [hcv1] at hEq
                have hnsx : (convert_to_rst fuel (XmlNode.tag n a k) true l2 c2).map Prod.fst = none := by simpa using hEq.symm
                rw [Option.map_eq_none'.mp hnsx]
              | some rsx =>
                obtain ⟨sx, st1l, st1d⟩ := rsx
                rw [hcv1] at hEq
                have hfssx : (convert_to_rst fuel (XmlNode.tag n a k) true l2 c2).map Prod.fst = some sx := by simpa using hEq.symm
                obtain ⟨p2, q2, hcv2⟩ := map_fst_eq_some hfssx
                rw [hcv2]
                simp [indent_congr hm]
            · have hq2 : ¬ "enum" ∈ c2 := fun hz => hq ((enumMem_congr hm).mpr hz)
              simp only [if_neg hq, if_neg hq2]
              rfl
          · simp only [if_neg h2]
            by_cases h3 : n = "definition"
            · simp only [if_pos h3]
              cases hd : definitionBranch (xmlText (XmlNode.tag n a k)) <;> rfl
            · simp only [if_neg h3]
              by_cases h4 : n = "argsstring"
              · simp only [if_pos h4]
                rfl
              · simp only [if_neg h4]
                by_cases h5 : n = "briefdescription"
                · simp only [if_pos h5]
                  have hEq := ihc (XmlNode.tag n a k) l1 l2 c1 c2 (by rw [h5]; simp [nodeName]) hm
                  cases hcv1 : convert_to_rst fuel (XmlNode.tag n a k) true l1 c1 with
                  | none =>
                    rw [hcv1] at hEq
                    have hnsx : (convert_to_rst fuel (XmlNode.tag n a k) true l2 c2).map Prod.fst = none := by simpa using hEq.symm
                    rw [Option.map_eq_none'.mp hnsx]
                  | some rsx =>
                    obtain ⟨sx, st1l, st1d⟩ := rsx
                    rw [hcv1] at hEq
                    have hfssx : (convert_to_rst fuel (XmlNode.tag n a k) true l2 c2).map Prod.fst = some sx := by simpa using hEq.symm
                    obtain ⟨p2, q2, hcv2⟩ := map_fst_eq_some hfssx
                    rw [hcv2]
                    simp [indent_congr hm]
                · simp only [if_neg h5]
                  by_cases h6 : n = "detaileddescription"
                  · simp only [if_pos h6]
                    have hEq := ihc (XmlNode.tag n a k) l1 l2 c1 c2 (by rw [h6]; simp [nodeName]) hm
                    cases hcv1 : convert_to_rst fuel (XmlNode.tag n a k) true l1 c1 with
                    | none =>
                      rw [hcv1] at hEq
                      have hnsx : (convert_to_rst fuel (XmlNode.tag n a k) true l2 c2).map Prod.fst = none := by simpa using hEq.symm
                      rw [Option.map_eq_none'.mp hnsx]
                    | some rsx =>
                      obtain ⟨sx, st1l, st1d⟩ := rsx
                      rw [hcv1] at hEq
                      have hfssx : (convert_to_rst fuel (XmlNode.tag n a k) true l2 c2).map Prod.fst = some sx := by simpa using hEq.symm
                      obtain ⟨p2, q2, hcv2⟩ := map_fst_eq_some hfssx
                      rw [hcv2]
                      simp [indent_congr hm]
                  · simp only [if_neg h6]
                    by_cases h7 : n = "templateparamlist"
                    · simp only [if_pos h7]
                      cases hd : templateparamlistBranch (XmlNode.tag n a k) <;> rfl
                    · simp only [if_neg h7]
                      by_cases h8 : n = "computeroutput"
                      · simp only [if_pos h8]
                        rfl
                      · simp only [if_neg h8]
                        exact ihpb (XmlNode.tag n a k) l1 l2 c1 c2 hm hh
    · -- processChildB
      intro x l1 l2 c1 c2 hm hh
      cases x with
      | text s => rfl
      | tag n a k =>
        simp only [processChildB, curStack_true]
        by_cases h1 : n = "formula"
        · simp only [if_pos h1]
          rfl
        · simp only [if_neg h1]
          by_cases h2 : n = "title"
          · simp only [if_pos h2]
            rw [indent_congr hm]
            rfl
          · simp only [if_neg h2]
            by_cases h3 : n = "para"
            · simp only [if_pos h3]
              have hEq := ihc (XmlNode.tag n a k) l1 l2 c1 c2 (by rw [h3]; simp [nodeName]) hm
              cases hcv1 : convert_to_rst fuel (XmlNode.tag n a k) true l1 c1 with
              | none =>
                rw [hcv1] at hEq
                have hnsx : (convert_to_rst fuel (XmlNode.tag n a k) true l2 c2).map Prod.fst = none := by simpa using hEq.symm
                rw [Option.map_eq_none'.mp hnsx]
              | some rsx =>
                obtain ⟨sx, st1l, st1d⟩ := rsx
                rw [hcv1] at hEq
                have hfssx : (convert_to_rst fuel (XmlNode.tag n a k) true l2 c2).map Prod.fst = some sx := by simpa using hEq.symm
                obtain ⟨p2, q2, hcv2⟩ := map_fst_eq_some hfssx
                rw [hcv2]
                obtain ⟨hb1l, hb1d⟩ := (balanceAll fuel).1 (XmlNode.tag n a k) true l1 c1 sx st1l st1d hcv1 (balancedTop_of_name (by rw [h3]; decide))
                obtain ⟨hb2l, hb2d⟩ := (balanceAll fuel).1 (XmlNode.tag n a k) true l2 c2 sx p2 q2 hcv2 (balancedTop_of_name (by rw [h3]; decide))
                subst st1l st1d p2 q2
                simp [hh, indent_congr hm]
            · simp only [if_neg h3]
              by_cases h4 : n = "simplesect"
              · simp only [if_pos h4]
                cases hks : attrsLookup a "kind" with
                | none => rfl
                | some kind =>
                  try simp only []
                  by_cases hr1 : kind = "return"
                  · simp only [if_pos hr1]
                    have hEq := ihc (XmlNode.tag n a k) l1 l2 c1 c2 (by rw [h4]; simp [nodeName]) hm
                    cases hcv1 : convert_to_rst fuel (XmlNode.tag n a k) true l1 c1 with
                    | none =>
                      rw [hcv1] at hEq
                      have hnsx : (convert_to_rst fuel (XmlNode.tag n a k) true l2 c2).map Prod.fst = none := by simpa using hEq.symm
                      rw [Option.map_eq_none'.mp hnsx]
                    | some rsx =>
                      obtain ⟨sx, st1l, st1d⟩ := rsx
                      rw [hcv1] at hEq
                      have hfssx : (convert_to_rst fuel (XmlNode.tag n a k) true l2 c2).map Prod.fst = some sx := by simpa using hEq.symm
                      obtain ⟨p2, q2, hcv2⟩ := map_fst_eq_some hfssx
                      rw [hcv2]
                      simp [indent_congr hm]
                  · simp only [if_neg hr1]
                    by_cases hr2 : kind = "par"
                    · simp only [if_pos hr2]
                      exact ihc (XmlNode.tag n a k) l1 l2 c1 c2 (by rw [h4]; simp [nodeName]) hm
                    · simp only [if_neg hr2]
                      by_cases hr3 : kind = "see"
                      · simp only [if_pos hr3]
                        have hEq := ihc (XmlNode.tag n a k) l1 l2 c1 c2 (by rw [h4]; simp [nodeName]) hm
                        cases hcv1 : convert_to_rst fuel (XmlNode.tag n a k) true l1 c1 with
                        | none =>
                          rw [hcv1] at hEq
                          have hnsx : (convert_to_rst fuel (XmlNode.tag n a k) true l2 c2).map Prod.fst = none := by simpa using hEq.symm
                          rw [Option.map_eq_none'.mp hnsx]
                        | some rsx =>
                          obtain ⟨sx, st1l, st1d⟩ := rsx
                          rw [hcv1] at hEq
                          have hfssx : (convert_to_rst fuel (XmlNode.tag n a k) true l2 c2).map Prod.fst = some sx := by simpa using hEq.symm
                          obtain ⟨p2, q2, hcv2⟩ := map_fst_eq_some hfssx
                          rw [hcv2]
                          simp [indent_congr hm]
                      · simp only [if_neg hr3]
                        rfl
              · simp only [if_neg h4]
                by_cases h5 : n = "parameterlist"
                · simp only [if_pos h5]
                  cases hks : attrsLookup a "kind" with
                  | none => rfl
                  | some kind =>
                    try simp only []
                    by_cases hr1 : kind = "templateparam"
                    · simp only [if_pos hr1]
                      exact ihi PlKind.tparam (XmlNode.tag n a k) (xmlFindAll (XmlNode.tag n a k) "parameteritem") l1 l2 c1 c2 hm
                    · simp only [if_neg hr1]
                      by_cases hr2 : kind = "param"
                      · simp only [if_pos hr2]
                        exact ihi PlKind.param (XmlNode.tag n a k) (xmlFindAll (XmlNode.tag n a k) "parameteritem") l1 l2 c1 c2 hm
                      · simp only [if_neg hr2]
                        by_cases hr3 : kind = "exception"
                        · simp only [if_pos hr3]
                          exact ihi PlKind.exc (XmlNode.tag n a k) (xmlFindAll (XmlNode.tag n a k) "parameteritem") l1 l2 c1 c2 hm
                        · simp only [if_neg hr3]
                          rfl
                · simp only [if_neg h5]
                  by_cases h6 : n = "ref"
                  · simp only [if_pos h6]
                    rfl
                  · simp only [if_neg h6]
                    by_cases h7 : n = "emphasis"
                    · simp only [if_pos h7]
                      rfl
                    · simp only [if_neg h7]
                      by_cases h8 : n = "bold"
                      · simp only [if_pos h8]
                        rw [indent_congr hm]
                        rfl
                      · simp only [if_neg h8]
                        exact ihpc (XmlNode.tag n a k) l1 l2 c1 c2 hm hh
    · -- processChildC
      intro x l1 l2 c1 c2 hm hh
      cases x with
      | text s => rfl
      | tag n a k =>
        simp only [processChildC, curStack_true]
        by_cases h1 : n = "compoundname"
        · simp only [if_pos h1]
          rfl
        · simp only [if_neg h1]
          by_cases h2 : n = "ulink"
          · simp only [if_pos h2]
            cases hu : attrsLookup a "url" <;> rfl
          · simp only [if_neg h2]
            by_cases h3 : n = "itemizedlist"
            · simp only [if_pos h3]
              have hEq := ihc (XmlNode.tag n a k) l1 l2 c1 c2 (by rw [h3]; simp [nodeName]) hm
              cases hcv1 : convert_to_rst fuel (XmlNode.tag n a k) true l1 c1 with
              | none =>
                rw [hcv1] at hEq
                have hnsx : (convert_to_rst fuel (XmlNode.tag n a k) true l2 c2).map Prod.fst = none := by simpa using hEq.symm
                rw [Option.map_eq_none'.mp hnsx]
              | some rsx =>
                obtain ⟨sx, st1l, st1d⟩ := rsx
                rw [hcv1] at hEq
                have hfssx : (convert_to_rst fuel (XmlNode.tag n a k) true l2 c2).map Prod.fst = some sx := by simpa using hEq.symm
                obtain ⟨p2, q2, hcv2⟩ := map_fst_eq_some hfssx
                rw [hcv2]
                rfl
            · simp only [if_neg h3]
              by_cases h4 : n = "listitem"
              · simp only [if_pos h4]
                have hEq := ihc (XmlNode.tag n a k) l1 l2 c1 c2 (by rw [h4]; simp [nodeName]) hm
                cases hcv1 : convert_to_rst fuel (XmlNode.tag n a k) true l1 c1 with
                | none =>
                  rw [hcv1] at hEq
                  have hnsx : (convert_to_rst fuel (XmlNode.tag n a k) true l2 c2).map Prod.fst = none := by simpa using hEq.symm
                  rw [Option.map_eq_none'.mp hnsx]
                | some rsx =>
                  obtain ⟨sx, st1l, st1d⟩ := rsx
                  rw [hcv1] at hEq
                  have hfssx : (convert_to_rst fuel (XmlNode.tag n a k) true l2 c2).map Prod.fst = some sx := by simpa using hEq.symm
                  obtain ⟨p2, q2, hcv2⟩ := map_fst_eq_some hfssx
                  rw [hcv2]
                  rw [indent_congr hm]
                  rfl
              · simp only [if_neg h4]
                by_cases h5 : n = "programlisting"
                · simp only [if_pos h5]
                  have hEq := ihc (XmlNode.tag n a k) l1 l2 c1 c2 (by rw [h5]; simp [nodeName]) hm
                  cases hcv1 : convert_to_rst fuel (XmlNode.tag n a k) true l1 c1 with
                  | none =>
                    rw [hcv1] at hEq
                    have hnsx : (convert_to_rst fuel (XmlNode.tag n a k) true l2 c2).map Prod.fst = none := by simpa using hEq.symm
                    rw [Option.map_eq_none'.mp hnsx]
                  | some rsx =>
                    obtain ⟨sx, st1l, st1d⟩ := rsx
                    rw [hcv1] at hEq
                    have hfssx : (convert_to_rst fuel (XmlNode.tag n a k) true l2 c2).map Prod.fst = some sx := by simpa using hEq.symm
                    obtain ⟨p2, q2, hcv2⟩ := map_fst_eq_some hfssx
                    rw [hcv2]
                    rw [indent_congr hm]
                    rfl
                · simp only [if_neg h5]
                  by_cases h6 : n = "codeline"
                  · simp only [if_pos h6]
                    have hEq := ihc (XmlNode.tag n a k) l1 l2 c1 c2 (by rw [h6]; simp [nodeName]) hm
                    cases hcv1 : convert_to_rst fuel (XmlNode.tag n a k) true l1 c1 with
                    | none =>
                      rw [hcv1] at hEq
                      have hnsx : (convert_to_rst fuel (XmlNode.tag n a k) true l2 c2).map Prod.fst = none := by simpa using hEq.symm
                      rw [Option.map_eq_none'.mp hnsx]
                    | some rsx =>
                      obtain ⟨sx, st1l, st1d⟩ := rsx
                      rw [hcv1] at hEq
                      have hfssx : (convert_to_rst fuel (XmlNode.tag n a k) true l2 c2).map Prod.fst = some sx := by simpa using hEq.symm
                      obtain ⟨p2, q2, hcv2⟩ := map_fst_eq_some hfssx
                      rw [hcv2]
                      rw [indent_congr hm]
                      rfl
                  · simp only [if_neg h6]
                    by_cases h7 : n = "highlight"
                    · simp only [if_pos h7]
                      exact ihc (XmlNode.tag n a k) l1 l2 c1 c2 (by rw [h7]; simp [nodeName]) hm
                    · simp only [if_neg h7]
                      by_cases h8 : n = "sp"
                      · simp only [if_pos h8]
                        rfl
                      · simp only [if_neg h8]
                        rfl
    · -- paramItems
      intro mode pl ys l1 l2 c1 c2 hm
      cases ys with
      | nil => rfl
      | cons y rest =>
        cases mode with
        | tparam =>
          simp only [paramItems, curStack_true]
          cases hfn : xmlFind y "parametername" with
          | none => rfl
          | some nn =>
            try simp only []
            cases hfd : xmlFind y "parameterdescription" with
            | none => rfl
            | some pd =>
              simp only []
              have hEqsa := ihc pd l1 l2 c1 c2 (by rw [xmlFind_name hfd]; decide) hm
              cases hcvsa : convert_to_rst fuel pd true l1 c1 with
              | none =>
                rw [hcvsa] at hEqsa
                have hnsa : (convert_to_rst fuel pd true l2 c2).map Prod.fst = none := by simpa using hEqsa.symm
                rw [Option.map_eq_none'.mp hnsa]
              | some rsa =>
                obtain ⟨sa, sta, sda⟩ := rsa
                rw [hcvsa] at hEqsa
                have hfssa : (convert_to_rst fuel pd true l2 c2).map Prod.fst = some sa := by simpa using hEqsa.symm
                obtain ⟨psa, qsa, hcvsa2⟩ := map_fst_eq_some hfssa
                rw [hcvsa2]
                obtain ⟨hblsa, hbdsa⟩ := (balanceAll fuel).1 pd true l1 c1 sa sta sda hcvsa (xmlFind_balancedTop hfd (by decide))
                obtain ⟨hblsa2, hbdsa2⟩ := (balanceAll fuel).1 pd true l2 c2 sa psa qsa hcvsa2 (xmlFind_balancedTop hfd (by decide))
                subst sta sda psa qsa
                try simp only []
                have hEqr := ihi PlKind.tparam pl rest l1 l2 c1 c2 hm
                cases hcr1 : paramItems fuel PlKind.tparam pl rest true l1 c1 with
                | none =>
                  rw [hcr1] at hEqr
                  have hnsr : (paramItems fuel PlKind.tparam pl rest true l2 c2).map Prod.fst = none := by simpa using hEqr.symm
                  rw [Option.map_eq_none'.mp hnsr]
                | some rsr =>
                  obtain ⟨sr, srl, srd⟩ := rsr
                  rw [hcr1] at hEqr
                  have hfssr : (paramItems fuel PlKind.tparam pl rest true l2 c2).map Prod.fst = some sr := by simpa using hEqr.symm
                  obtain ⟨pr, qr, hcr2⟩ := map_fst_eq_some hfssr
                  rw [hcr2]
                  simp [indent_congr hm]
        | param =>
          simp only [paramItems, curStack_true]
          cases hfn : xmlFind y "parametername" with
          | none => rfl
          | some nn =>
            try simp only []
            cases hfd : xmlFind pl "parameterdescription" with
            | none => rfl
            | some pd =>
              simp only []
              have hEqsa := ihc pd l1 l2 c1 c2 (by rw [xmlFind_name hfd]; decide) hm
              cases hcvsa : convert_to_rst fuel pd true l1 c1 with
              | none =>
                rw [hcvsa] at hEqsa
                have hnsa : (convert_to_rst fuel pd true l2 c2).map Prod.fst = none := by simpa using hEqsa.symm
                rw [Option.map_eq_none'.mp hnsa]
              | some rsa =>
                obtain ⟨sa, sta, sda⟩ := rsa
                rw [hcvsa] at hEqsa
                have hfssa : (convert_to_rst fuel pd true l2 c2).map Prod.fst = some sa := by simpa using hEqsa.symm
                obtain ⟨psa, qsa, hcvsa2⟩ := map_fst_eq_some hfssa
                rw [hcvsa2]
                obtain ⟨hblsa, hbdsa⟩ := (balanceAll fuel).1 pd true l1 c1 sa sta sda hcvsa (xmlFind_balancedTop hfd (by decide))
                obtain ⟨hblsa2, hbdsa2⟩ := (balanceAll fuel).1 pd true l2 c2 sa psa qsa hcvsa2 (xmlFind_balancedTop hfd (by decide))
                subst sta sda psa qsa
                try simp only []
                have hEqr := ihi PlKind.param pl rest l1 l2 c1 c2 hm
                cases hcr1 : paramItems fuel PlKind.param pl rest true l1 c1 with
                | none =>
                  rw [hcr1] at hEqr
                  have hnsr : (paramItems fuel PlKind.param pl rest true l2 c2).map Prod.fst = none := by simpa using hEqr.symm
                  rw [Option.map_eq_none'.mp hnsr]
                | some rsr =>
                  obtain ⟨sr, srl, srd⟩ := rsr
                  rw [hcr1] at hEqr
                  have hfssr : (paramItems fuel PlKind.param pl rest true l2 c2).map Prod.fst = some sr := by simpa using hEqr.symm
                  obtain ⟨pr, qr, hcr2⟩ := map_fst_eq_some hfssr
                  rw [hcr2]
                  simp [indent_congr hm]
        | exc =>
          simp only [paramItems, curStack_true]
          cases hfn : xmlFind y "parametername" with
          | none => rfl
          | some nn =>
            try simp only []
            cases hfd : xmlFind y "parameterdescription" with
            | none => rfl
            | some pd =>
              simp only []
              have hEqsa := ihc nn l1 l2 c1 c2 (by rw [xmlFind_name hfn]; decide) hm
              cases hcvsa : convert_to_rst fuel nn true l1 c1 with
              | none =>
                rw [hcvsa] at hEqsa
                have hnsa : (convert_to_rst fuel nn true l2 c2).map Prod.fst = none := by simpa using hEqsa.symm
                rw [Option.map_eq_none'.mp hnsa]
              | some rsa =>
                obtain ⟨sa, sta, sda⟩ := rsa
                rw [hcvsa] at hEqsa
                have hfssa : (convert_to_rst fuel nn true l2 c2).map Prod.fst = some sa := by simpa using hEqsa.symm
                obtain ⟨psa, qsa, hcvsa2⟩ := map_fst_eq_some hfssa
                rw [hcvsa2]
                obtain ⟨hblsa, hbdsa⟩ := (balanceAll fuel).1 nn true l1 c1 sa sta sda hcvsa (xmlFind_balancedTop hfn (by decide))
                obtain ⟨hblsa2, hbdsa2⟩ := (balanceAll fuel).1 nn true l2 c2 sa psa qsa hcvsa2 (xmlFind_balancedTop hfn (by decide))
                subst sta sda psa qsa
                try simp only []
                have hEqsb := ihc pd l1 l2 c1 c2 (by rw [xmlFind_name hfd]; decide) hm
                cases hcvsb : convert_to_rst fuel pd true l1 c1 with
                | none =>
                  rw [hcvsb] at hEqsb
                  have hnsb : (convert_to_rst fuel pd true l2 c2).map Prod.fst = none := by simpa using hEqsb.symm
                  rw [Option.map_eq_none'.mp hnsb]
                | some rsb =>
                  obtain ⟨sb, stb, sdb⟩ := rsb
                  rw [hcvsb] at hEqsb
                  have hfssb : (convert_to_rst fuel pd true l2 c2).map Prod.fst = some sb := by simpa using hEqsb.symm
                  obtain ⟨psb, qsb, hcvsb2⟩ := map_fst_eq_some hfssb
                  rw [hcvsb2]
                  obtain ⟨hblsb, hbdsb⟩ := (balanceAll fuel).1 pd true l1 c1 sb stb sdb hcvsb (xmlFind_balancedTop hfd (by decide))
                  obtain ⟨hblsb2, hbdsb2⟩ := (balanceAll fuel).1 pd true l2 c2 sb psb qsb hcvsb2 (xmlFind_balancedTop hfd (by decide))
                  subst stb sdb psb qsb
                  try simp only []
                  have hEqr := ihi PlKind.exc pl rest l1 l2 c1 c2 hm
                  cases hcr1 : paramItems fuel PlKind.exc pl rest true l1 c1 with
                  | none =>
                    rw [hcr1] at hEqr
                    have hnsr : (paramItems fuel PlKind.exc pl rest true l2 c2).map Prod.fst = none := by simpa using hEqr.symm
                    rw [Option.map_eq_none'.mp hnsr]
                  | some rsr =>
                    obtain ⟨sr, srl, srd⟩ := rsr
                    rw [hcr1] at hEqr
                    have hfssr : (paramItems fuel PlKind.exc pl rest true l2 c2).map Prod.fst = some sr := by simpa using hEqr.symm
                    obtain ⟨pr, qr, hcr2⟩ := map_fst_eq_some hfssr
                    rw [hcr2]
                    simp [indent_congr hm]

/-- C10: counterexample.  The text produced for a `programlisting` element
is not independent of the surrounding context: the recursive calls reuse
the mutable default list, which in real runs is the ancestor context
itself, and code-block indentation grows with every enclosing
`programlisting`/`memberdef`/`compounddef` entry. -/
theorem C10_programlisting_depends_on_context :
    (convert_to_rst 14 (XmlNode.tag "programlisting" []
        [XmlNode.tag "codeline" [] []]) true [] []).map Prod.fst
      ≠ (convert_to_rst 14 (XmlNode.tag "programlisting" []
        [XmlNode.tag "codeline" [] []]) true [] ["programlisting"]).map
        Prod.fst := by
  decide

/-- C10 (amended): the rendered text of any node not literally tagged
`enum` is determined by the ancestor context only through `ctxMeasure`
(the counts of "memberdef", "compounddef", "parameterdescription" and
"programlisting", and whether "enum" occurs); contexts with equal measure
(in particular, equal indentation) yield identical text, while contexts
with different measure can differ (`C10_programlisting_depends_on_context`). -/
theorem C10_rendered_text_determined_by_ctxMeasure (fuel : Nat) (x : XmlNode)
    (l1 l2 c1 c2 : List String) (hx : nodeName x ≠ some "enum")
    (hm : ctxMeasure c1 = ctxMeasure c2) :
    (convert_to_rst fuel x true l1 c1).map Prod.fst
      = (convert_to_rst fuel x true l2 c2).map Prod.fst :=
  (congrAll fuel).1 x l1 l2 c1 c2 hx hm

theorem C10_rendered_text_determined_by_ctxMeasure_witness :
    (convert_to_rst 14 (XmlNode.tag "programlisting" []
        [XmlNode.tag "codeline" [] []]) true [] ["para"]).map Prod.fst
      = (convert_to_rst 14 (XmlNode.tag "programlisting" []
        [XmlNode.tag "codeline" [] []]) true ["q"] ["title"]).map Prod.fst :=
  C10_rendered_text_determined_by_ctxMeasure 14 _ [] ["q"] ["para"] ["title"]
    (by decide) (by decide)

/-! ## `doxy_filename`, `doxy_warn` and `doxy_xml` (claims C7, C8)

The file system visible to `doxy_xml` is fixed for the whole process: a
map from paths to parsed documents (the result of feeding the opened file
to `BeautifulSoup`), plus the directory listing of `build/xml`.  Opening
and parsing a file is recorded in a log so that claims about re-parsing
can be stated. -/

structure Disk where
  files : List (String × XmlNode)
  xmlDir : List String

/-- `os.path.isfile`. -/
def isfile (d : Disk) (p : String) : Bool :=
  d.files.any (fun pr => pr.1 == p)

/-- `BeautifulSoup(open(p, "r"), "xml")`; `none` models the `OSError` when
the file does not exist. -/
def readFile (d : Disk) (p : String) : Option XmlNode :=
  (d.files.find? (fun pr => pr.1 == p)).map (fun pr => pr.2)

/-- `re.sub("_", "__", name)`. -/
def subUnderscore : List Char → List Char
  | [] => []
  | c :: r =>
    if c = '_' then '_' :: '_' :: subUnderscore r else c :: subUnderscore r

/-- `re.compile(r"::").sub("_1_1", name)`. -/
def subColons : List Char → List Char
  | ':' :: ':' :: r => '_' :: '1' :: '_' :: '1' :: subColons r
  | c :: r => c :: subColons r
  | [] => []

/-- `re.compile(r"([A-Z])").sub(r"_\1", name)`. -/
def subUpper : List Char → List Char
  | [] => []
  | c :: r =>
    if 65 ≤ c.toNat ∧ c.toNat ≤ 90 then '_' :: c :: subUpper r
    else c :: subUpper r

/-- `doxy_filename(name)`: mangle the C++ name and prefer the `class...`
file over the `struct...` one.  Pure in the (fixed) disk, so the
`lru_cache` on it is unobservable. -/
def doxy_filename (d : Disk) (name : String) : String :=
  let stem := String.mk ((subUpper (subColons (subUnderscore name.data))).map
    pyLowerChar)
  if isfile d ("build/xml/class" ++ stem ++ ".xml") then
    "build/xml/class" ++ stem ++ ".xml"
  else "build/xml/struct" ++ stem ++ ".xml"

/-- A value of `__DOXY_DICT`: a parsed element, `None` (when
`find("compounddef")` found nothing), or the params-keyed overload
dictionary of a function. -/
inductive DictVal where
  | node (x : XmlNode)
  | null
  | odict (m : List (String × XmlNode))

/-- What a successful `doxy_xml` call returns: a Tag, an overload
dictionary (when `params is None` and the entry is a dict), an XML
attribute value (when `params` is looked up on a Tag), or `None`. -/
inductive DoxyRes where
  | tag (x : XmlNode)
  | attrval (s : String)
  | overloads (m : List (String × XmlNode))
  | null

/-- The two observable failure classes of `doxy_xml`: a `KeyError` from a
missing dictionary key (the "not found" condition), and any exception
raised while parsing (`AttributeError` from `None.text`, the assertion,
`TypeError`, `OSError`). -/
inductive DoxyErr where
  | notFound
  | parseFail

def resNotFound : Except DoxyErr DoxyRes → Bool
  | .error .notFound => true
  | _ => false

/-- The process state touched by `doxy_xml`: the symbol dictionary
`__DOXY_DICT`, the `lru_cache` of successful `doxy_xml` results
(exceptions are never cached), and logs of every class/struct-file parse
(by resolved class name) and every namespace-file parse (by path). -/
structure DoxyState where
  dict : List (String × DictVal)
  cache : List ((String × Option String) × DoxyRes)
  clsLog : List String
  nsLog : List String

def initDoxy : DoxyState := ⟨[], [], [], []⟩

def dHas (m : List (String × DictVal)) (k : String) : Bool :=
  m.any (fun pr => pr.1 == k)

def dGet (m : List (String × DictVal)) (k : String) : Option DictVal :=
  (m.find? (fun pr => pr.1 == k)).map (fun pr => pr.2)

def dSet : List (String × DictVal) → String → DictVal →
    List (String × DictVal)
  | [], k, v => [(k, v)]
  | (k0, v0) :: t, k, v =>
    if k0 = k then (k, v) :: t else (k0, v0) :: dSet t k v

def odGet (od : List (String × XmlNode)) (k : String) : Option XmlNode :=
  (od.find? (fun pr => pr.1 == k)).map (fun pr => pr.2)

def odSet : List (String × XmlNode) → String → XmlNode →
    List (String × XmlNode)
  | [], k, v => [(k, v)]
  | (k0, v0) :: t, k, v =>
    if k0 = k then (k, v) :: t else (k0, v0) :: odSet t k v

def attrsOf : XmlNode → List (String × String)
  | .text _ => []
  | .tag _ a _ => a

/-- `x.find(nm).text`; `none` models the `AttributeError` raised by
`None.text` when there is no such descendant. -/
def findText (x : XmlNode) (nm : String) : Option String :=
  (xmlFind x nm).map xmlText

/-- The `while` loop of `doxy_xml` (source lines 331-332).  The tuple
assignment evaluates both right-hand sides on the yet-untruncated
`class_`, so the new `pos` is `rfind` of the old string; fuel-indexed,
`none` = fuel exhausted (the real loop always terminates). -/
def scopeWalk (d : Disk) : Nat → String → Option Nat → Option String
  | _, class_, none => some class_
  | 0, class_, some _ =>
    if isfile d (doxy_filename d class_) then some class_ else none
  | fuel + 1, class_, some p =>
    if isfile d (doxy_filename d class_) then some class_
    else scopeWalk d fuel (String.mk (class_.data.take p)) (pyRFind class_ "::")

/-- `[x.find("type").text.strip() for x in xs]`. -/
def typeTexts : List XmlNode → Except DoxyErr (List String)
  | [] => .ok []
  | x :: r =>
    match findText x "type" with
    | none => .error .parseFail
    | some t =>
      match typeTexts r with
      | .error e => .error e
      | .ok ts => .ok (pyStrip t :: ts)

/-- Lines 348-351: the template-parameter type list, when present. -/
def tparamTypes (x : XmlNode) : Except DoxyErr (Option (List String)) :=
  match xmlFind x "templateparamlist" with
  | none => .ok none
  | some tp =>
    match typeTexts (xmlFindAll tp "param") with
    | .error e => .error e
    | .ok ts => .ok (some ts)

/-- `tag[key] = value` on a bs4 `Tag` sets an XML attribute (this happens
when an overload insert hits a key whose entry is a plain Tag, e.g. an
enum member of the same name).  The assigned value is a whole Tag, which
the string-valued attribute model cannot carry; only the key is
observable to later lookups, so the value is recorded as `""`. -/
def setAttrNode : XmlNode → String → XmlNode
  | .tag n a k, key =>
    .tag n ((a.filter (fun pr => !(pr.1 == key))) ++ [(key, "")]) k
  | .text s, _ => .text s

/-- One iteration of the `memberdef` loop of the class branch (source
lines 336-377); returns the updated dictionary.  `x.argsstring.text` is
required on every path through the function branch (line 363 runs
unconditionally), so it is read once up front. -/
def processMem (class_ : String) (m : List (String × DictVal)) (x : XmlNode) :
    Except DoxyErr (List (String × DictVal)) :=
  if (attrsLookup (attrsOf x) "prot").isSome
      ∧ attrsLookup (attrsOf x) "prot" ≠ some "public" then
    .ok m
  else
    match findText x "name" with
    | none => .error .parseFail
    | some nm =>
      if (attrsLookup (attrsOf x) "kind").isSome
          ∧ attrsLookup (attrsOf x) "kind" ≠ some "function"
          ∧ attrsLookup (attrsOf x) "kind" ≠ some "friend" then
        if dHas m (class_ ++ "::" ++ nm) then .error .parseFail
        else .ok (dSet m (class_ ++ "::" ++ nm) (.node x))
      else
        match tparamTypes x with
        | .error e => .error e
        | .ok tps =>
          match typeTexts (xmlFindAll x "param") with
          | .error e => .error e
          | .ok ps0 =>
            match findText x "argsstring" with
            | none => .error .parseFail
            | some args =>
              let ps := match tps with
                | none => ps0
                | some ts => ps0.filter (fun s => decide (s ∉ ts))
              let param := "(" ++ pyJoin "," ps ++ ")"
                ++ (if attrsLookup (attrsOf x) "const" == some "yes" then
                      " const"
                    else if pyEndsWith args " const" then " const" else "")
                ++ (if attrsLookup (attrsOf x) "noexcept" == some "yes" then
                      " noexcept" else "")
                ++ (if pyEndsWith args "=default" then " = default" else "")
                ++ (if pyEndsWith args "=delete" then " = delete" else "")
                ++ (if pyEndsWith args " override" then " override" else "")
                ++ (if pyEndsWith args "=0" then " = 0" else "")
              let m1 := if dHas m (class_ ++ "::" ++ nm) then m
                else dSet m (class_ ++ "::" ++ nm) (.odict [])
              match dGet m1 (class_ ++ "::" ++ nm) with
              | some (.odict od) =>
                .ok (dSet m1 (class_ ++ "::" ++ nm)
                  (.odict (odSet od param x)))
              | some (.node t) =>
                .ok (dSet m1 (class_ ++ "::" ++ nm)
                  (.node (setAttrNode t param)))
              | some .null => .error .parseFail
              | none => .error .parseFail

/-- The `memberdef` loop; on an exception the entries added so far stay in
the dictionary (it is a mutated global). -/
def foldMems (class_ : String) : List (String × DictVal) → List XmlNode →
    List (String × DictVal) × Bool
  | m, [] => (m, true)
  | m, x :: r =>
    match processMem class_ m x with
    | .error _ => (m, false)
    | .ok m1 => foldMems class_ m1 r

/-- Parse one class/struct file (source lines 334-377).  The
`compounddef` entry is stored first (possibly `None`), so the class key
is in the dictionary even if a later member raises. -/
def classParse (d : Disk) (st : DoxyState) (class_ : String) :
    DoxyState × Bool :=
  match readFile d (doxy_filename d class_) with
  | none => (st, false)
  | some doc =>
    let v := match xmlFind doc "compounddef" with
      | some c => DictVal.node c
      | none => DictVal.null
    match foldMems class_ (dSet st.dict class_ v) (xmlFindAll doc "memberdef")
      with
    | (m, ok) =>
      ({ st with
          dict := m
          clsLog := st.clsLog ++ [class_] }, ok)

/-- The member loop of one namespace file (source lines 385-389). -/
def nsMems (ns : String) : List (String × DictVal) → List XmlNode →
    List (String × DictVal) × Bool
  | m, [] => (m, true)
  | m, x :: r =>
    match findText x "name" with
    | none => (m, false)
    | some y =>
      nsMems ns
        (if dHas m (ns ++ "::" ++ y) then m
         else dSet m (ns ++ "::" ++ y) (.node x)) r

/-- The namespace fallback (source lines 380-389): parse every
`namespace*` file in `build/xml`, every time the branch is reached. -/
def nsScanFiles (d : Disk) : DoxyState → List String → DoxyState × Bool
  | st, [] => (st, true)
  | st, f :: r =>
    if pyStartsWith f "namespace" then
      match readFile d ("build/xml/" ++ f) with
      | none => (st, false)
      | some doc =>
        match findText doc "compoundname" with
        | none => ({ st with nsLog := st.nsLog ++ ["build/xml/" ++ f] }, false)
        | some ns =>
          match nsMems ns st.dict (xmlFindAll doc "memberdef") with
          | (m, true) =>
            nsScanFiles d
              { st with
                  dict := m
                  nsLog := st.nsLog ++ ["build/xml/" ++ f] } r
          | (m, false) =>
            ({ st with
                dict := m
                nsLog := st.nsLog ++ ["build/xml/" ++ f] }, false)
    else nsScanFiles d st r

/-- Lines 328-389: populate `__DOXY_DICT` for `name` when absent.  The
`Bool` is false when an exception escaped; `none` = walk fuel exhausted. -/
def populate (d : Disk) (fuel : Nat) (st : DoxyState) (name : String) :
    Option (DoxyState × Bool) :=
  match scopeWalk d fuel name (pyRFind name "::") with
  | none => none
  | some class_ =>
    if isfile d (doxy_filename d class_) ∧ ¬ dHas st.dict class_ then
      some (classParse d st class_)
    else if ¬ dHas st.dict class_ then
      some (nsScanFiles d st d.xmlDir)
    else some (st, true)

/-- Lines 390-393: the final dictionary lookup.  `KeyError` (absent name,
absent overload key, absent attribute) is the "not found" condition;
`None[params]` is a `TypeError`. -/
def dictLookup (m : List (String × DictVal)) (name : String)
    (params : Option String) : Except DoxyErr DoxyRes :=
  match dGet m name with
  | none => .error .notFound
  | some v =>
    match params with
    | none =>
      .ok (match v with
        | .node x => DoxyRes.tag x
        | .null => DoxyRes.null
        | .odict od => DoxyRes.overloads od)
    | some p =>
      match v with
      | .node x =>
        match attrsLookup (attrsOf x) p with
        | some s => .ok (DoxyRes.attrval s)
        | none => .error .notFound
      | .null => .error .parseFail
      | .odict od =>
        match odGet od p with
        | some x => .ok (DoxyRes.tag x)
        | none => .error .notFound

/-- `doxy_xml(name, params)`.  The `lru_cache` stores only successful
returns: a raised exception is not cached, so the body re-runs on every
call with a failing key. -/
def doxy_xml (d : Disk) (fuel : Nat) (st : DoxyState) (name : String)
    (params : Option String) : Option (DoxyState × Except DoxyErr DoxyRes) :=
  match st.cache.find? (fun pr => pr.1 == (name, params)) with
  | some pr => some (st, .ok pr.2)
  | none =>
    match (if dHas st.dict name then some (st, true)
           else populate d fuel st name) with
    | none => none
    | some (st1, ok) =>
      if ok then
        match dictLookup st1.dict name params with
        | .ok r =>
          some ({ st1 with cache := ((name, params), r) :: st1.cache }, .ok r)
        | .error e => some (st1, .error e)
      else some (st1, .error .parseFail)

/-- A sequence of `doxy_xml` calls in one process. -/
def runDoxy (d : Disk) (fuel : Nat) : DoxyState →
    List (String × Option String) →
    Option (DoxyState × List (Except DoxyErr DoxyRes))
  | st, [] => some (st, [])
  | st, (n, p) :: rest =>
    match doxy_xml d fuel st n p with
    | none => none
    | some (st1, r) =>
      match runDoxy d fuel st1 rest with
      | none => none
      | some (st2, rs) => some (st2, r :: rs)

/-- `doxy_warn(fname, name, params)`: `lru_cache` on a `None`-returning
function deduplicates the `__warn` side effect per argument triple. -/
structure WarnState where
  cache : List (String × String × Option String)
  warnings : List (String × String)

def initWarn : WarnState := ⟨[], []⟩

def doxy_warn (ws : WarnState) (fname name : String)
    (params : Option String) : WarnState :=
  if (fname, name, params) ∈ ws.cache then ws
  else
    { cache := (fname, name, params) :: ws.cache
      warnings := ws.warnings ++
        [(fname, "no doxygen output found for " ++ name ++ params.getD "")] }

theorem dHas_dSet_self (m : List (String × DictVal)) (k : String) (v : DictVal) :
    dHas (dSet m k v) k = true := by
  induction m with
  | nil => simp [dHas, dSet]
  | cons p t ih =>
    obtain ⟨k0, v0⟩ := p
    by_cases h : k0 = k
    · simp [dSet, h, dHas]
    · simp only [dSet, if_neg h, dHas, List.any_cons]
      simp only [dHas] at ih
      rw [ih]
      simp

theorem dHas_dSet_mono {m : List (String × DictVal)} {k' : String}
    (k : String) (v : DictVal) (h : dHas m k' = true) :
    dHas (dSet m k v) k' = true := by
  induction m with
  | nil => simp [dHas] at h
  | cons p t ih =>
    obtain ⟨k0, v0⟩ := p
    by_cases hk : k0 = k
    · subst hk
      simp only [dHas, List.any_cons] at h ⊢
      simp only [dSet, if_pos rfl, List.any_cons]
      exact h
    · simp only [dHas, List.any_cons] at h ⊢
      simp only [dSet, if_neg hk, List.any_cons]
      cases hb : (k0 == k')
      · rw [hb] at h
        simp only [Bool.false_or] at h ⊢
        simp only [dHas] at ih
        exact ih h
      · simp

theorem find_map_of_any {α : Type} (l : List (String × α)) (p : String)
    (h : l.any (fun pr => pr.1 == p) = true) :
    ∃ v, (l.find? (fun pr => pr.1 == p)).map (fun pr => pr.2) = some v := by
  induction l with
  | nil => simp at h
  | cons pr t ih =>
    simp only [List.any_cons] at h
    cases hb : (pr.1 == p)
    · rw [hb] at h
      simp only [Bool.false_or] at h
      obtain ⟨v, hd⟩ := ih h
      refine ⟨v, ?_⟩
      simp only [List.find?]
      rw [hb]
      exact hd
    · refine ⟨pr.2, ?_⟩
      simp only [List.find?]
      rw [hb]
      rfl

theorem readFile_of_isfile {d : Disk} {p : String} (h : isfile d p = true) :
    ∃ doc, readFile d p = some doc :=
  find_map_of_any d.files p h

theorem processMem_mono {class_ : String} {m m1 : List (String × DictVal)}
    {x : XmlNode} (h : processMem class_ m x = .ok m1) {k : String}
    (hk : dHas m k = true) : dHas m1 k = true := by
  simp only [processMem] at h
  split at h
  · cases h
    exact hk
  · split at h
    · exact Except.noConfusion h
    · split at h
      · split at h
        · exact Except.noConfusion h
        · cases h
          exact dHas_dSet_mono _ _ hk
      · split at h
        · exact Except.noConfusion h
        · split at h
          · exact Except.noConfusion h
          · split at h
            · exact Except.noConfusion h
            · split at h
              · cases h
                refine dHas_dSet_mono _ _ ?_
                split
                · exact hk
                · exact dHas_dSet_mono _ _ hk
              · cases h
                refine dHas_dSet_mono _ _ ?_
                split
                · exact hk
                · exact dHas_dSet_mono _ _ hk
              · exact Except.noConfusion h
              · exact Except.noConfusion h

theorem foldMems_mono {class_ : String} :
    ∀ (xs : List XmlNode) (m m1 : List (String × DictVal)) (b : Bool),
    foldMems class_ m xs = (m1, b) → ∀ k, dHas m k = true → dHas m1 k = true := by
  intro xs
  induction xs with
  | nil =>
    intro m m1 b h k hk
    simp only [foldMems] at h
    cases h
    exact hk
  | cons x r ih =>
    intro m m1 b h k hk
    simp only [foldMems] at h
    split at h
    · cases h
      exact hk
    · rename_i m2 heq
      exact ih m2 m1 b h k (processMem_mono heq hk)

theorem nsMems_mono {ns : String} :
    ∀ (xs : List XmlNode) (m m1 : List (String × DictVal)) (b : Bool),
    nsMems ns m xs = (m1, b) → ∀ k, dHas m k = true → dHas m1 k = true := by
  intro xs
  induction xs with
  | nil =>
    intro m m1 b h k hk
    simp only [nsMems] at h
    cases h
    exact hk
  | cons x r ih =>
    intro m m1 b h k hk
    simp only [nsMems] at h
    split at h
    · cases h
      exact hk
    · rename_i y heq
      refine ih _ m1 b h k ?_
      split
      · exact hk
      · exact dHas_dSet_mono _ _ hk

theorem nsMems_sup {ns : String} :
    ∀ (xs : List XmlNode) (m m1 : List (String × DictVal)),
    nsMems ns m xs = (m1, true) →
    ∀ m', (∀ k, dHas m1 k = true → dHas m' k = true) →
    nsMems ns m' xs = (m', true) := by
  intro xs
  induction xs with
  | nil =>
    intro m m1 h m' hsup
    simp only [nsMems]
  | cons x r ih =>
    intro m m1 h m' hsup
    simp only [nsMems] at h ⊢
    split at h
    · cases h
    · rename_i y heq
      have hkey : dHas m' (ns ++ "::" ++ y) = true := by
        refine hsup _ ?_
        refine nsMems_mono r _ m1 true h _ ?_
        split
        · rename_i hin
          exact hin
        · exact dHas_dSet_self _ _ _
      rw [if_pos hkey]
      exact ih _ m1 h m' hsup

theorem nsScan_mono {d : Disk} :
    ∀ (fs : List String) (st st1 : DoxyState) (b : Bool),
    nsScanFiles d st fs = (st1, b) →
    ∀ k, dHas st.dict k = true → dHas st1.dict k = true := by
  intro fs
  induction fs with
  | nil =>
    intro st st1 b h k hk
    simp only [nsScanFiles] at h
    cases h
    exact hk
  | cons f r ih =>
    intro st st1 b h k hk
    simp only [nsScanFiles] at h
    split at h
    · split at h
      · cases h
        exact hk
      · rename_i doc hrf
        split at h
        · cases h
          exact hk
        · rename_i ns hct
          split at h
          · rename_i m hnm
            exact ih { st with
                dict := m
                nsLog := st.nsLog ++ ["build/xml/" ++ f] } st1 b h k
              (nsMems_mono _ _ _ _ hnm k hk)
          · rename_i m hnm
            cases h
            exact nsMems_mono _ _ _ _ hnm k hk
    · exact ih _ st1 b h k hk

theorem nsScan_frame {d : Disk} :
    ∀ (fs : List String) (st st1 : DoxyState) (b : Bool),
    nsScanFiles d st fs = (st1, b) →
    st1.cache = st.cache ∧ st1.clsLog = st.clsLog := by
  intro fs
  induction fs with
  | nil =>
    intro st st1 b h
    simp only [nsScanFiles] at h
    cases h
    exact ⟨rfl, rfl⟩
  | cons f r ih =>
    intro st st1 b h
    simp only [nsScanFiles] at h
    split at h
    · split at h
      · cases h
        exact ⟨rfl, rfl⟩
      · rename_i doc hrf
        split at h
        · cases h
          exact ⟨rfl, rfl⟩
        · rename_i ns hct
          split at h
          · rename_i m hnm
            exact ih { st with
                dict := m
                nsLog := st.nsLog ++ ["build/xml/" ++ f] } st1 b h
          · rename_i m hnm
            cases h
            exact ⟨rfl, rfl⟩
    · exact ih _ st1 b h

theorem nsScan_idem {d : Disk} :
    ∀ (fs : List String) (st st1 : DoxyState),
    nsScanFiles d st fs = (st1, true) →
    ∀ st2 : DoxyState, (∀ k, dHas st1.dict k = true → dHas st2.dict k = true) →
    ∃ st3, nsScanFiles d st2 fs = (st3, true) ∧ st3.dict = st2.dict
      ∧ st3.cache = st2.cache ∧ st3.clsLog = st2.clsLog := by
  intro fs
  induction fs with
  | nil =>
    intro st st1 h st2 hsup
    exact ⟨st2, by simp only [nsScanFiles], rfl, rfl, rfl⟩
  | cons f r ih =>
    intro st st1 h st2 hsup
    simp only [nsScanFiles] at h
    by_cases hsw : pyStartsWith f "namespace" = true
    · rw [if_pos hsw] at h
      cases hrf : readFile d ("build/xml/" ++ f) with
      | none =>
        rw [hrf] at h
        exact Bool.noConfusion (congrArg Prod.snd h)
      | some doc =>
        rw [hrf] at h
        simp only [] at h
        cases hct : findText doc "compoundname" with
        | none =>
          rw [hct] at h
          exact Bool.noConfusion (congrArg Prod.snd h)
        | some ns =>
          rw [hct] at h
          simp only [] at h
          cases hnm : nsMems ns st.dict (xmlFindAll doc "memberdef") with
          | mk m b2 =>
            rw [hnm] at h
            cases b2 with
            | false =>
              simp only [] at h
              exact Bool.noConfusion (congrArg Prod.snd h)
            | true =>
              simp only [] at h
              have hms : nsMems ns st2.dict (xmlFindAll doc "memberdef")
                  = (st2.dict, true) := by
                refine nsMems_sup _ _ _ hnm st2.dict ?_
                intro k hk
                exact hsup k (nsScan_mono r _ st1 true h k hk)
              obtain ⟨st3, h3, hd3, hc3, hl3⟩ := ih { st with
                  dict := m
                  nsLog := st.nsLog ++ ["build/xml/" ++ f] } st1 h
                { st2 with nsLog := st2.nsLog ++ ["build/xml/" ++ f] } hsup
              refine ⟨st3, ?_, hd3, hc3, hl3⟩
              simp only [nsScanFiles]
              rw [if_pos hsw, hrf]
              simp only []
              rw [hct]
              simp only []
              rw [hms]
              exact h3
    · rw [if_neg hsw] at h
      obtain ⟨st3, h3, hd3, hc3, hl3⟩ := ih st st1 h st2 hsup
      refine ⟨st3, ?_, hd3, hc3, hl3⟩
      simp only [nsScanFiles]
      rw [if_neg hsw]
      exact h3

theorem classParse_mono {d : Disk} {st : DoxyState} {c : String}
    {st1 : DoxyState} {b : Bool} (h : classParse d st c = (st1, b)) :
    ∀ k, dHas st.dict k = true → dHas st1.dict k = true := by
  simp only [classParse] at h
  split at h
  · cases h
    exact fun k hk => hk
  · rename_i doc hrf
    split at h
    all_goals
      cases h
      exact fun k hk =>
        foldMems_mono _ _ _ _ Prod.mk.eta.symm k (dHas_dSet_mono _ _ hk)

theorem classParse_self {d : Disk} {st : DoxyState} {c : String}
    {st1 : DoxyState} {b : Bool} (hf : isfile d (doxy_filename d c) = true)
    (h : classParse d st c = (st1, b)) : dHas st1.dict c = true := by
  obtain ⟨doc, hrf⟩ := readFile_of_isfile hf
  simp only [classParse, hrf] at h
  split at h
  all_goals
    cases h
    exact foldMems_mono _ _ _ _ Prod.mk.eta.symm c (dHas_dSet_self _ _ _)

theorem classParse_frame {d : Disk} {st : DoxyState} {c : String}
    {st1 : DoxyState} {b : Bool} (h : classParse d st c = (st1, b)) :
    st1.cache = st.cache ∧ st1.nsLog = st.nsLog ∧
      (st1.clsLog = st.clsLog ∨ st1.clsLog = st.clsLog ++ [c]) := by
  simp only [classParse] at h
  split at h
  · cases h
    exact ⟨rfl, rfl, Or.inl rfl⟩
  · rename_i doc hrf
    split at h
    all_goals
      cases h
      exact ⟨rfl, rfl, Or.inr rfl⟩

theorem populate_mono {d : Disk} {fuel : Nat} {st : DoxyState} {n : String}
    {st1 : DoxyState} {b : Bool} (h : populate d fuel st n = some (st1, b)) :
    ∀ k, dHas st.dict k = true → dHas st1.dict k = true := by
  simp only [populate] at h
  split at h
  · exact Option.noConfusion h
  · rename_i class_ hw
    split at h
    · injection h with h
      exact classParse_mono h
    · split at h
      · injection h with h
        exact fun k hk => nsScan_mono _ _ st1 b h k hk
      · injection h with h
        cases h
        exact fun k hk => hk

theorem populate_cache {d : Disk} {fuel : Nat} {st : DoxyState} {n : String}
    {st1 : DoxyState} {b : Bool} (h : populate d fuel st n = some (st1, b)) :
    st1.cache = st.cache := by
  simp only [populate] at h
  split at h
  · exact Option.noConfusion h
  · rename_i class_ hw
    split at h
    · injection h with h
      exact (classParse_frame h).1
    · split at h
      · injection h with h
        exact (nsScan_frame _ _ st1 b h).1
      · injection h with h
        cases h
        rfl

/-- The invariant behind the amended C8: every entry of the class-parse
log is a dictionary key, and the log has no duplicates. -/
def ClsInv (st : DoxyState) : Prop :=
  st.clsLog.Nodup ∧ ∀ c ∈ st.clsLog, dHas st.dict c = true

theorem populate_inv {d : Disk} {fuel : Nat} {st : DoxyState} {n : String}
    {st1 : DoxyState} {b : Bool} (h : populate d fuel st n = some (st1, b))
    (hi : ClsInv st) : ClsInv st1 := by
  simp only [populate] at h
  split at h
  · exact Option.noConfusion h
  · rename_i class_ hw
    split at h
    · rename_i hcond
      obtain ⟨hf, hnd⟩ := hcond
      injection h with h
      obtain ⟨hc, hn, hcl⟩ := classParse_frame h
      constructor
      · cases hcl with
        | inl he => rw [he]; exact hi.1
        | inr he =>
          rw [he]
          refine List.Nodup.append hi.1 (List.nodup_singleton _) ?_
          intro a ha hb
          rcases List.mem_singleton.mp hb with rfl
          exact absurd (hi.2 a ha) (by simpa using hnd)
      · intro c hc2
        cases hcl with
        | inl he =>
          rw [he] at hc2
          exact classParse_mono h c (hi.2 c hc2)
        | inr he =>
          rw [he] at hc2
          rcases List.mem_append.mp hc2 with h1 | h1
          · exact classParse_mono h c (hi.2 c h1)
          · rcases List.mem_singleton.mp h1 with rfl
            exact classParse_self hf h
    · split at h
      · injection h with h
        obtain ⟨hc, hcl⟩ := nsScan_frame _ _ st1 b h
        constructor
        · rw [hcl]; exact hi.1
        · intro c hc2
          rw [hcl] at hc2
          exact nsScan_mono _ _ st1 b h c (hi.2 c hc2)
      · injection h with h
        cases h
        exact hi

theorem doxy_xml_inv {d : Disk} {fuel : Nat} {st : DoxyState} {n : String}
    {p : Option String} {st1 : DoxyState} {r : Except DoxyErr DoxyRes}
    (h : doxy_xml d fuel st n p = some (st1, r)) (hi : ClsInv st) :
    ClsInv st1 := by
  simp only [doxy_xml] at h
  split at h
  · injection h with h
    cases h
    exact hi
  · split at h
    · exact Option.noConfusion h
    · rename_i st2 ok hstep
      have hi2 : ClsInv st2 := by
        split at hstep
        · injection hstep with hstep
          cases hstep
          exact hi
        · exact populate_inv hstep hi
      split at h
      · split at h
        · injection h with h
          cases h
          exact hi2
        · injection h with h
          cases h
          exact hi2
      · injection h with h
        cases h
        exact hi2

theorem runDoxy_inv {d : Disk} {fuel : Nat} :
    ∀ (calls : List (String × Option String)) (st st1 : DoxyState)
      (rs : List (Except DoxyErr DoxyRes)),
    runDoxy d fuel st calls = some (st1, rs) → ClsInv st → ClsInv st1 := by
  intro calls
  induction calls with
  | nil =>
    intro st st1 rs h hi
    simp only [runDoxy] at h
    injection h with h
    cases congrArg Prod.fst h
    exact hi
  | cons c rest ih =>
    intro st st1 rs h hi
    obtain ⟨n, p⟩ := c
    simp only [runDoxy] at h
    split at h
    · exact Option.noConfusion h
    · rename_i st2 r hx
      split at h
      · exact Option.noConfusion h
      · rename_i st3 rs2 hrun
        injection h with h
        cases congrArg Prod.fst h
        exact ih st2 st1 rs2 hrun (doxy_xml_inv hx hi)

theorem doxy_xml_eval_found {d : Disk} {fuel : Nat} {st : DoxyState}
    {n : String} {p : Option String} {e : DoxyErr}
    (h1 : st.cache.find? (fun pr => pr.1 == (n, p)) = none)
    (h2 : dHas st.dict n = true)
    (h3 : dictLookup st.dict n p = .error e) :
    doxy_xml d fuel st n p = some (st, .error e) := by
  simp [doxy_xml, h1, h2, h3]

theorem doxy_xml_eval_pop {d : Disk} {fuel : Nat} {st : DoxyState}
    {n : String} {p : Option String} {st2 : DoxyState} {e : DoxyErr}
    (h1 : st.cache.find? (fun pr => pr.1 == (n, p)) = none)
    (h2 : dHas st.dict n = false)
    (h3 : populate d fuel st n = some (st2, true))
    (h4 : dictLookup st2.dict n p = .error e) :
    doxy_xml d fuel st n p = some (st2, .error e) := by
  simp [doxy_xml, h1, h2, h3, h4]

/-- The "not found" condition is not cached and recurs: a `doxy_xml` call
that raises `KeyError` raises `KeyError` again when repeated with the same
arguments (possibly re-running the namespace scan on the way). -/
theorem doxy_xml_notFound_persists {d : Disk} {fuel : Nat} {st : DoxyState}
    {n : String} {p : Option String} {st1 : DoxyState}
    (h : doxy_xml d fuel st n p = some (st1, .error .notFound)) :
    ∃ st2, doxy_xml d fuel st1 n p = some (st2, .error .notFound) := by
  simp only [doxy_xml] at h
  split at h
  · rename_i pr hcache
    injection h with h
    exact Except.noConfusion (congrArg Prod.snd h)
  · rename_i hcache
    split at h
    · exact Option.noConfusion h
    · rename_i st2 ok hstep
      cases ok with
      | false =>
        rw [if_neg (fun hcc => Bool.noConfusion hcc)] at h
        injection h with h
        exact DoxyErr.noConfusion (Except.error.inj (congrArg Prod.snd h))
      | true =>
        rw [if_pos rfl] at h
        split at h
        · rename_i r hl
          injection h with h
          exact Except.noConfusion (congrArg Prod.snd h)
        · rename_i e hl
          injection h with h
          have hst : st2 = st1 := congrArg Prod.fst h
          have he : e = DoxyErr.notFound :=
            Except.error.inj (congrArg Prod.snd h)
          subst hst
          subst he
          -- hl : dictLookup st2.dict n p = .error .notFound, st1 := st2
          split at hstep
          · rename_i hd
            injection hstep with hstep
            have hst2 : st = st2 := congrArg Prod.fst hstep
            subst hst2
            exact ⟨st, doxy_xml_eval_found hcache hd hl⟩
          · rename_i hd
            rename_i hpop0
            have hpop : populate d fuel st n = some (st2, true) := hstep
            have hd0 : dHas st.dict n = false := by
              cases hq : dHas st.dict n
              · rfl
              · exact absurd hq hd
            have hcache1 : st2.cache.find? (fun pr => pr.1 == (n, p)) = none := by
              rw [populate_cache hpop]
              exact hcache
            by_cases hd1 : dHas st2.dict n = true
            · exact ⟨st2, doxy_xml_eval_found hcache1 hd1 hl⟩
            · have hd1f : dHas st2.dict n = false := by
                cases hq : dHas st2.dict n
                · rfl
                · exact absurd hq hd1
              simp only [populate] at hpop
              split at hpop
              · exact Option.noConfusion hpop
              · rename_i class_ hw
                split at hpop
                · rename_i hcnd
                  obtain ⟨hf, hnd⟩ := hcnd
                  injection hpop with hpop
                  have hself : dHas st2.dict class_ = true :=
                    classParse_self hf hpop
                  refine ⟨st2, doxy_xml_eval_pop hcache1 hd1f ?_ hl⟩
                  simp only [populate]
                  rw [hw]
                  simp only []
                  rw [if_neg (fun hcc => hcc.2 hself)]
                  rw [if_neg (fun hcc => hcc hself)]
                · rename_i hcnd1
                  split at hpop
                  · rename_i hcnd2b
                    injection hpop with hpop
                    have hdc0 : ¬ dHas st.dict class_ = true := hcnd2b
                    have hff : isfile d (doxy_filename d class_) = false := by
                      cases hx : isfile d (doxy_filename d class_)
                      · rfl
                      · exact absurd ⟨hx, hdc0⟩ hcnd1
                    by_cases hdc1 : dHas st2.dict class_ = true
                    · refine ⟨st2, doxy_xml_eval_pop hcache1 hd1f ?_ hl⟩
                      simp only [populate]
                      rw [hw]
                      simp only []
                      rw [if_neg (by
                        intro hcc
                        rw [hff] at hcc
                        exact Bool.noConfusion hcc.1)]
                      rw [if_neg (fun hcc => hcc hdc1)]
                    · obtain ⟨st3, h3, hd3, hc3, hl3⟩ :=
                        nsScan_idem _ _ _ hpop st2 (fun k hk => hk)
                      refine ⟨st3, doxy_xml_eval_pop hcache1 hd1f ?_ ?_⟩
                      · simp only [populate]
                        rw [hw]
                        simp only []
                        rw [if_neg (by
                          intro hcc
                          rw [hff] at hcc
                          exact Bool.noConfusion hcc.1)]
                        rw [if_pos hdc1]
                        rw [h3]
                      · rw [hd3]
                        exact hl
                  · rename_i hcnd2b
                    injection hpop with hpop
                    have hst2 : st = st2 := congrArg Prod.fst hpop
                    subst hst2
                    have hdc : dHas st.dict class_ = true := by
                      by_cases hq : dHas st.dict class_ = true
                      · exact hq
                      · exact absurd hq hcnd2b
                    refine ⟨st, doxy_xml_eval_pop hcache1 hd1f ?_ hl⟩
                    simp only [populate]
                    rw [hw]
                    simp only []
                    rw [if_neg (fun hcc => hcc.2 hdc)]
                    rw [if_neg (fun hcc => hcc hdc)]

/-- A disk with a single namespace descriptor file and no class/struct
files, as seen by a failing lookup. -/
def C8disk : Disk :=
  ⟨[("build/xml/namespacefoo.xml",
     XmlNode.tag "doxygen" []
       [XmlNode.tag "compoundname" [] [XmlNode.text "foo"]])],
   ["namespacefoo.xml"]⟩

/-- C8: counterexample.  Two lookups of the same absent key both take the
namespace fallback and open and parse the same namespace file again: its
path appears twice in the parse log.  Only class/struct files are guarded
by the symbol dictionary; namespace files are not. -/
theorem C8_namespace_file_reparsed :
    (runDoxy C8disk 4 initDoxy [("bar", none), ("bar", none)]).map
      (fun pr => pr.1.nsLog.count "build/xml/namespacefoo.xml") = some 2 := by
  decide

/-- C8 (amended): class/struct descriptor files are parsed at most once
per resolved class name over any sequence of `doxy_xml` calls: the parse
is guarded by dictionary membership of the class key, which the parse
itself establishes, so the class-parse log never repeats an entry. -/
theorem C8_class_files_parsed_once (d : Disk) (fuel : Nat)
    (calls : List (String × Option String)) (st : DoxyState)
    (rs : List (Except DoxyErr DoxyRes))
    (h : runDoxy d fuel initDoxy calls = some (st, rs)) :
    st.clsLog.Nodup :=
  (runDoxy_inv calls initDoxy st rs h
    ⟨List.nodup_nil, fun c hc => absurd hc (List.not_mem_nil c)⟩).1

theorem C8_class_files_parsed_once_witness : initDoxy.clsLog.Nodup :=
  C8_class_files_parsed_once ⟨[], []⟩ 1 [("q", none)] initDoxy
    [Except.error DoxyErr.notFound] rfl

/-- C7: counterexample.  A key with no descriptor file in the scope chain
and no namespace match raises the not-found condition on BOTH of two
successive `doxy_xml` calls (`lru_cache` never caches a raised
exception), and `doxy_warn` emits two warnings for that single
`(name, params)` key when it is reported from two different yml files
(deduplication is per `(fname, name, params)` triple). -/
theorem C7_notfound_recurs_warning_per_triple :
    ((runDoxy ⟨[], []⟩ 2 initDoxy [("foo::bar", none), ("foo::bar", none)]).map
       (fun pr => pr.2.map resNotFound) = some [true, true])
    ∧ (doxy_warn (doxy_warn initWarn "a.yml" "foo::bar" none) "b.yml"
        "foo::bar" none).warnings.length = 2 := by
  decide

/-- C7 (amended): a `doxy_xml` call that ends in the not-found `KeyError`
is not cached, and a repeat of the same call fails with `KeyError` again;
`doxy_warn` is memoised per `(fname, name, params)` triple: a repeated
identical call is a no-op, and a call with an unseen triple emits exactly
one new warning. -/
theorem C7_notfound_every_call_warn_once_per_triple :
    (∀ (d : Disk) (fuel : Nat) (st : DoxyState) (name : String)
       (params : Option String) (st1 : DoxyState),
      doxy_xml d fuel st name params = some (st1, .error .notFound) →
      ∃ st2, doxy_xml d fuel st1 name params = some (st2, .error .notFound))
    ∧ (∀ (ws : WarnState) (fname name : String) (params : Option String),
        doxy_warn (doxy_warn ws fname name params) fname name params
          = doxy_warn ws fname name params)
    ∧ (∀ (ws : WarnState) (fname name : String) (params : Option String),
        (fname, name, params) ∉ ws.cache →
        (doxy_warn ws fname name params).warnings.length
          = ws.warnings.length + 1) := by
  refine ⟨fun d fuel st n p st1 h => doxy_xml_notFound_persists h, ?_, ?_⟩
  · intro ws f n p
    have hmem : (f, n, p) ∈ (doxy_warn ws f n p).cache := by
      by_cases h : (f, n, p) ∈ ws.cache
      · simp only [doxy_warn, if_pos h]
        exact h
      · simp only [doxy_warn, if_neg h]
        exact List.mem_cons_self _ _
    rw [doxy_warn, if_pos hmem]
  · intro ws f n p h
    simp [doxy_warn, if_neg h]

theorem C7_notfound_every_call_warn_once_per_triple_witness :
    (∃ st2, doxy_xml ⟨[], []⟩ 2 initDoxy "foo::bar" none
        = some (st2, Except.error DoxyErr.notFound))
    ∧ (doxy_warn (doxy_warn initWarn "a.yml" "x" none) "a.yml" "x" none
        = doxy_warn initWarn "a.yml" "x" none)
    ∧ (doxy_warn initWarn "a.yml" "x" none).warnings.length
        = initWarn.warnings.length + 1 :=
  ⟨C7_notfound_every_call_warn_once_per_triple.1 ⟨[], []⟩ 2 initDoxy
      "foo::bar" none initDoxy rfl,
   C7_notfound_every_call_warn_once_per_triple.2.1 initWarn "a.yml" "x" none,
   C7_notfound_every_call_warn_once_per_triple.2.2 initWarn "a.yml" "x" none
     (by decide)⟩

/-! ## Idempotence of `doxy_normalize_yml_params` (claim C5)

The four space-insertion substitutions share one shape: insert a single
space between an adjacent pair matched by a predicate.  They are unified
as `ins`, fused into one pass, and the comma squash is then shown to
remove exactly the re-inserted comma-adjacent spaces. -/

/-- Generic pairwise space insertion: one `re.sub` with an empty match
between a lookbehind on `a` and a lookahead on `b`. -/
def ins (p : Char → Char → Bool) : List Char → List Char
  | a :: b :: rest =>
    if p a b then a :: ' ' :: ins p (b :: rest) else a :: ins p (b :: rest)
  | l => l

/-- `ins` after its head has been emitted: `ins p (a :: l) = a :: insA p a l`. -/
def insA (p : Char → Char → Bool) (a : Char) : List Char → List Char
  | [] => []
  | b :: r => if p a b then ' ' :: b :: insA p b r else b :: insA p b r

theorem ins_eq (p : Char → Char → Bool) (a : Char) :
    ∀ l, ins p (a :: l) = a :: insA p a l := by
  intro l
  induction l generalizing a with
  | nil => rfl
  | cons b r ih =>
    simp only [ins, insA]
    by_cases h : p a b = true
    · rw [if_pos h, if_pos h, ih]
    · rw [if_neg h, if_neg h, ih]

def pLt (a b : Char) : Bool := (a == '<') && !pyWs b

def pGt (a b : Char) : Bool := !pyWs a && (b == '>')

def pAmpB (a b : Char) : Bool := (!pyWs a && !(a == '&')) && (b == '&')

def pAmpA (a b : Char) : Bool := (a == '&') && (!pyWs b && !(b == '&'))

/-- All four insertion points of the normalizer, fused. -/
def pAll (a b : Char) : Bool := pLt a b || pGt a b || pAmpB a b || pAmpA a b

theorem spaceAfterLt_eq_ins : ∀ l, spaceAfterLt l = ins pLt l := by
  intro l
  induction l with
  | nil => rfl
  | cons a t ih =>
    cases t with
    | nil => rfl
    | cons b r =>
      simp only [spaceAfterLt, ins]
      by_cases h : a = '<' ∧ ¬ pyWs b
      · rw [if_pos h, if_pos (by simp [pLt, h.1, Bool.eq_false_iff.mpr h.2]), ih]
      · rw [if_neg h, if_neg ?_, ih]
        simp only [pLt, Bool.and_eq_true, beq_iff_eq, Bool.not_eq_true']
        intro hc
        exact h ⟨hc.1, by simp [hc.2]⟩

theorem spaceBeforeGt_eq_ins : ∀ l, spaceBeforeGt l = ins pGt l := by
  intro l
  induction l with
  | nil => rfl
  | cons a t ih =>
    cases t with
    | nil => rfl
    | cons b r =>
      simp only [spaceBeforeGt, ins]
      by_cases h : ¬ pyWs a ∧ b = '>'
      · rw [if_pos h, if_pos (by simp [pGt, Bool.eq_false_iff.mpr h.1, h.2]), ih]
      · rw [if_neg h, if_neg ?_, ih]
        simp only [pGt, Bool.and_eq_true, beq_iff_eq, Bool.not_eq_true']
        intro hc
        exact h ⟨by simp [hc.1], hc.2⟩

theorem spaceBeforeAmp_eq_ins : ∀ l, spaceBeforeAmp l = ins pAmpB l := by
  intro l
  induction l with
  | nil => rfl
  | cons a t ih =>
    cases t with
    | nil => rfl
    | cons b r =>
      simp only [spaceBeforeAmp, ins]
      by_cases h : (¬ pyWs a ∧ a ≠ '&') ∧ b = '&'
      · rw [if_pos h,
          if_pos (by simp [pAmpB, Bool.eq_false_iff.mpr h.1.1, h.1.2, h.2]), ih]
      · rw [if_neg h, if_neg ?_, ih]
        simp only [pAmpB, Bool.and_eq_true, beq_iff_eq, Bool.not_eq_true',
          Bool.not_eq_true]
        intro hc
        exact h ⟨⟨by simp [hc.1.1], by simpa using hc.1.2⟩, hc.2⟩

theorem spaceAfterAmp_eq_ins : ∀ l, spaceAfterAmp l = ins pAmpA l := by
  intro l
  induction l with
  | nil => rfl
  | cons a t ih =>
    cases t with
    | nil => rfl
    | cons b r =>
      simp only [spaceAfterAmp, ins]
      by_cases h : a = '&' ∧ (¬ pyWs b ∧ b ≠ '&')
      · rw [if_pos h,
          if_pos (by simp [pAmpA, h.1, Bool.eq_false_iff.mpr h.2.1, h.2.2]), ih]
      · rw [if_neg h, if_neg ?_, ih]
        simp only [pAmpA, Bool.and_eq_true, beq_iff_eq, Bool.not_eq_true',
          Bool.not_eq_true]
        intro hc
        exact h ⟨hc.1, ⟨by simp [hc.2.1], by simpa using hc.2.2⟩⟩

theorem pyWs_spec {c : Char} (h : pyWs c = true) :
    c = ' ' ∨ c = '\t' ∨ c = '\n' ∨ c = '\r' ∨ c = '\x0b' ∨ c = '\x0c' := by
  simp only [pyWs, Bool.or_eq_true, decide_eq_true_eq] at h
  tauto

theorem ws_notSym {c : Char} (h : pyWs c = true) :
    (c == '<') = false ∧ (c == '>') = false ∧ (c == '&') = false
      ∧ (c == ',') = false := by
  rcases pyWs_spec h with rfl | rfl | rfl | rfl | rfl | rfl <;> decide

theorem pAll_wsBlind {a b : Char} (h : pyWs a = true ∨ pyWs b = true) :
    pAll a b = false := by
  rcases h with h | h
  · obtain ⟨h1, h2, h3, h4⟩ := ws_notSym h
    simp [pAll, pLt, pGt, pAmpB, pAmpA, h, h1, h3]
  · obtain ⟨h1, h2, h3, h4⟩ := ws_notSym h
    simp [pAll, pLt, pGt, pAmpB, pAmpA, h, h2, h3]

/-- Fusing two insertion passes when the later predicate never fires on a
pair involving a space. -/
theorem insA_fuse {p q : Char → Char → Bool}
    (hp : ∀ a b, pyWs a = true ∨ pyWs b = true → p a b = false) :
    ∀ (l : List Char) (a : Char),
    insA p a (insA q a l) = insA (fun x y => q x y || p x y) a l := by
  intro l
  induction l with
  | nil => intro a; rfl
  | cons b r ih =>
    intro a
    simp only [insA]
    by_cases hq : q a b = true
    · rw [if_pos hq, if_pos (by rw [hq]; rfl)]
      simp only [insA]
      rw [if_neg (by rw [hp a ' ' (Or.inr (by decide))]; exact Bool.noConfusion)]
      rw [if_neg (by rw [hp ' ' b (Or.inl (by decide))]; exact Bool.noConfusion)]
      rw [ih b]
    · rw [if_neg hq]
      simp only [insA]
      by_cases hpb : p a b = true
      · rw [if_pos hpb, if_pos (by rw [hpb]; simp)]
        rw [ih b]
      · rw [if_neg hpb, if_neg (by rw [Bool.not_eq_true] at hq hpb; rw [hq, hpb]; exact Bool.noConfusion)]
        rw [ih b]

theorem ins_fuse {p q : Char → Char → Bool}
    (hp : ∀ a b, pyWs a = true ∨ pyWs b = true → p a b = false) :
    ∀ l, ins p (ins q l) = ins (fun x y => q x y || p x y) l := by
  intro l
  cases l with
  | nil => rfl
  | cons a t =>
    rw [ins_eq, ins_eq, ins_eq, insA_fuse hp]

/-- Adjacent-pair invariant checker. -/
def chainB (p : Char → Char → Bool) : List Char → Bool
  | a :: b :: rest => p a b && chainB p (b :: rest)
  | _ => true

def noDblPair (a b : Char) : Bool := !(pyWs a && pyWs b)

/-- Pairwise invariant of the normalizer's output: no two adjacent
whitespace characters, no whitespace adjacent to a comma, and an
insertion-point pair only next to a comma. -/
def uPairB (a b : Char) : Bool :=
  !(pyWs a && pyWs b) && !(pyWs a && (b == ',')) && !((a == ',') && pyWs b)
    && (!(pAll a b) || ((a == ',') || (b == ',')))

theorem chainB_cons {p : Char → Char → Bool} {a b : Char} {r : List Char} :
    chainB p (a :: b :: r) = true ↔ p a b = true ∧ chainB p (b :: r) = true := by
  simp [chainB]

theorem chain_insA_none {p : Char → Char → Bool}
    (hp : ∀ a b, pyWs a = true ∨ pyWs b = true → p a b = false) :
    ∀ (l : List Char) (a : Char),
    chainB (fun x y => !(p x y)) (a :: insA p a l) = true := by
  intro l
  induction l with
  | nil => intro a; rfl
  | cons b r ih =>
    intro a
    simp only [insA]
    by_cases hb : p a b = true
    · rw [if_pos hb]
      rw [show a :: ' ' :: b :: insA p b r = a :: ' ' :: (b :: insA p b r) from rfl]
      rw [chainB_cons.2 ⟨by rw [hp a ' ' (Or.inr (by decide))]; rfl, ?_⟩]
      rw [chainB_cons.2 ⟨by rw [hp ' ' b (Or.inl (by decide))]; rfl, ih b⟩]
    · rw [if_neg hb]
      exact chainB_cons.2 ⟨by rw [Bool.eq_false_iff.mpr hb]; rfl, ih b⟩

theorem pAll_true_ws {a b : Char} (h : pAll a b = true) :
    pyWs a = false ∧ pyWs b = false := by
  constructor
  · cases hq : pyWs a
    · rfl
    · rw [pAll_wsBlind (Or.inl hq)] at h
      exact Bool.noConfusion h
  · cases hq : pyWs b
    · rfl
    · rw [pAll_wsBlind (Or.inr hq)] at h
      exact Bool.noConfusion h

theorem chain_insA_pres {p P : Char → Char → Bool}
    (hP : ∀ x y, p x y = true → P x ' ' = true ∧ P ' ' y = true) :
    ∀ (l : List Char) (a : Char), chainB P (a :: l) = true →
    chainB P (a :: insA p a l) = true := by
  intro l
  induction l with
  | nil => intro a h; exact h
  | cons b r ih =>
    intro a h
    obtain ⟨h1, h2⟩ := chainB_cons.1 h
    simp only [insA]
    by_cases hb : p a b = true
    · rw [if_pos hb]
      exact chainB_cons.2 ⟨(hP a b hb).1,
        chainB_cons.2 ⟨(hP a b hb).2, ih b h2⟩⟩
    · rw [if_neg hb]
      exact chainB_cons.2 ⟨h1, ih b h2⟩

theorem chain_insA_noDbl :
    ∀ (l : List Char) (a : Char), chainB noDblPair (a :: l) = true →
    chainB noDblPair (a :: insA pAll a l) = true := by
  refine chain_insA_pres ?_
  intro x y hxy
  obtain ⟨hx, hy⟩ := pAll_true_ws hxy
  constructor
  · simp [noDblPair, hx]
  · simp [noDblPair, hy]

theorem chain_cons_of {x : Char} {Z : List Char} (hx : pyWs x = false)
    (hZ : chainB noDblPair Z = true) : chainB noDblPair (x :: Z) = true := by
  cases Z with
  | nil => rfl
  | cons b t => exact chainB_cons.2 ⟨by simp [noDblPair, hx], hZ⟩

theorem chain_cons_ws {x : Char} {Z : List Char}
    (hh : ∀ a t2, Z = a :: t2 → pyWs a = false)
    (hZ : chainB noDblPair Z = true) : chainB noDblPair (x :: Z) = true := by
  cases Z with
  | nil => rfl
  | cons b t =>
    exact chainB_cons.2 ⟨by simp [noDblPair, hh b t rfl], hZ⟩

theorem collapse_claims : ∀ l : List Char,
    (chainB noDblPair (collapseWsGo false l) = true)
    ∧ (chainB noDblPair (collapseWsGo true l) = true)
    ∧ (∀ a t, collapseWsGo true l = a :: t → pyWs a = false)
    ∧ (∀ a l0, l = a :: l0 →
        ∃ b t, collapseWsGo false l = b :: t ∧ pyWs b = pyWs a) := by
  intro l
  induction l with
  | nil =>
    refine ⟨rfl, rfl, ?_, ?_⟩
    · intro a t h
      exact absurd h (by simp [collapseWsGo])
    · intro a l0 h
      exact absurd h (by simp)
  | cons x t ih =>
    obtain ⟨ih1, ih2, ih3, ih4⟩ := ih
    refine ⟨?_, ?_, ?_, ?_⟩
    · simp only [collapseWsGo]
      split
      · exact chain_cons_ws (fun a t2 h => ih3 a t2 h) ih2
      · rename_i hcond
        cases hx : pyWs x
        · exact chain_cons_of hx ih1
        · cases t with
          | nil => rfl
          | cons y r =>
            have hy : pyWs y = false := by
              cases hyy : pyWs y
              · rfl
              · exact absurd (by simp [hx, hyy]) hcond
            obtain ⟨b, t2, hb, hbw⟩ := ih4 y r rfl
            rw [hb]
            exact chainB_cons.2 ⟨by simp [noDblPair, hbw, hy], hb ▸ ih1⟩
    · simp only [collapseWsGo]
      split
      · exact ih2
      · cases hgo : collapseWsGo false t with
        | nil => rfl
        | cons b t2 =>
          cases t with
          | nil => simp [collapseWsGo] at hgo
          | cons y r =>
            obtain ⟨b2, t3, hb2, hbw2⟩ := ih4 y r rfl
            rename_i hx
            have hxf : pyWs x = false := by
              cases hq : pyWs x
              · rfl
              · exact absurd hq hx
            exact chain_cons_of hxf (hgo ▸ ih1)
    · simp only [collapseWsGo]
      split
      · exact ih3
      · rename_i hx
        intro a t2 h
        have hxf : pyWs x = false := by
          cases hq : pyWs x
          · rfl
          · exact absurd hq hx
        cases h
        exact hxf
    · intro a l0 h
      cases h
      simp only [collapseWsGo]
      split
      · rename_i hcond
        refine ⟨' ', collapseWsGo true t, rfl, ?_⟩
        simp only [Bool.and_eq_true] at hcond
        rw [hcond.1]
        decide
      · exact ⟨x, collapseWsGo false t, rfl, rfl⟩

theorem chainB_tail {p : Char → Char → Bool} {a : Char} {l : List Char}
    (h : chainB p (a :: l) = true) : chainB p l = true := by
  cases l with
  | nil => rfl
  | cons b t => exact (chainB_cons.1 h).2

/-- `commaSquashGo` on inputs with no adjacent whitespace pair: the
pending buffer holds at most one character, giving this two-lookahead
recursion (`true` = directly behind an emitted comma). -/
def sq : Bool → List Char → List Char
  | true, [] => []
  | true, c :: rest =>
    if pyWs c then sq true rest
    else if c = ',' then ',' :: sq true rest
    else c :: sq false rest
  | false, [] => []
  | false, [c] => [c]
  | false, c :: d :: r2 =>
    if pyWs c then
      (if d = ',' then ',' :: sq true r2 else c :: sq false (d :: r2))
    else if c = ',' then ',' :: sq true (d :: r2)
    else c :: sq false (d :: r2)

theorem sq_false_emit {x : Char} (r : List Char) (hx : pyWs x = false)
    (hxc : ¬ x = ',') : sq false (x :: r) = x :: sq false r := by
  cases r with
  | nil => rfl
  | cons d r2 =>
    simp only [sq]
    rw [if_neg (by simp [hx]), if_neg hxc]

theorem squash_eq_sq : ∀ v : List Char,
    (chainB noDblPair v = true →
      commaSquashGo false [] v = sq false v
      ∧ commaSquashGo true [] v = sq true v)
    ∧ (∀ c, pyWs c = true → chainB noDblPair (c :: v) = true →
        commaSquashGo false [c] v
          = (match v with
             | ',' :: r2 => ',' :: sq true r2
             | _ => c :: sq false v)) := by
  intro v
  induction v with
  | nil =>
    refine ⟨fun h => ⟨rfl, rfl⟩, ?_⟩
    intro c hc hch
    rfl
  | cons x r ih =>
    obtain ⟨ihm, ihp⟩ := ih
    constructor
    · intro h
      have ht : chainB noDblPair r = true := chainB_tail h
      constructor
      · simp only [commaSquashGo]
        by_cases hx : pyWs x = true
        · rw [if_pos hx]
          rw [ihp x hx (by exact h)]
          cases r with
          | nil => rfl
          | cons d r2 =>
            by_cases hd : d = ','
            · subst hd
              simp [sq, hx]
            · have hstep : sq false (x :: d :: r2)
                  = if d = ',' then ',' :: sq true r2
                    else x :: sq false (d :: r2) := by
                simp only [sq]
                rw [if_pos hx]
              rw [hstep, if_neg hd]
              have : (match d :: r2 with
                  | ',' :: r3 => ',' :: sq true r3
                  | _ => x :: sq false (d :: r2)) = x :: sq false (d :: r2) := by
                cases hdd : d :: r2 with
                | nil => simp at hdd
                | cons e r4 =>
                  cases hdd
                  split
                  · rename_i heq
                    cases heq
                    exact absurd rfl hd
                  · rfl
              rw [this]
        · have hxf : pyWs x = false := Bool.eq_false_iff.mpr hx
          rw [if_neg hx]
          by_cases hxc : x = ','
          · subst hxc
            rw [if_pos rfl]
            rw [(ihm ht).2]
            cases r with
            | nil => rfl
            | cons d r2 =>
              have hcw : pyWs ',' = false := by decide
              simp [sq, hcw]
          · rw [if_neg hxc]
            rw [List.reverse_nil, List.nil_append, (ihm ht).1]
            rw [sq_false_emit r hxf hxc]
      · simp only [commaSquashGo, sq]
        by_cases hx : pyWs x = true
        · rw [if_pos hx, if_pos hx]
          exact (ihm ht).2
        · rw [if_neg hx, if_neg hx]
          by_cases hxc : x = ','
          · rw [if_pos hxc, if_pos hxc, (ihm ht).2]
          · rw [if_neg hxc, if_neg hxc, (ihm ht).1]
    · intro c hc hch
      have hx : pyWs x = false := by
        have h1 := (chainB_cons.1 hch).1
        simp only [noDblPair, hc, Bool.true_and, Bool.not_eq_true',
          Bool.not_eq_eq_eq_not] at h1
        simpa using h1
      have ht : chainB noDblPair r = true := chainB_tail (chainB_tail hch)
      simp only [commaSquashGo]
      rw [if_neg (by simp [hx])]
      by_cases hxc : x = ','
      · subst hxc
        rw [if_pos rfl, (ihm ht).2]
        rfl
      · rw [if_neg hxc]
        have : (match x :: r with
            | ',' :: r2 => ',' :: sq true r2
            | _ => c :: sq false (x :: r)) = c :: sq false (x :: r) := by
          split
          · rename_i heq
            cases heq
            exact absurd rfl hxc
          · rfl
        rw [this, sq_false_emit r hx hxc, (ihm ht).1]
        rfl

theorem commaSquash_eq_sq {w : List Char} (h : chainB noDblPair w = true) :
    commaSquash w = sq false w :=
  ((squash_eq_sq w).1 h).1

theorem dropWhile_cons_head {p : Char → Bool} :
    ∀ (l : List Char) (a : Char) (t : List Char),
    l.dropWhile p = a :: t → p a = false := by
  intro l
  induction l with
  | nil => intro a t h; exact absurd h (by simp)
  | cons c r ih =>
    intro a t h
    rw [List.dropWhile_cons] at h
    split at h
    · exact ih a t h
    · rename_i hc
      cases h
      exact Bool.eq_false_iff.mpr hc

theorem dropWhile_id_of_head {p : Char → Bool} {l : List Char}
    (hh : ∀ a t, l = a :: t → p a = false) : l.dropWhile p = l := by
  cases l with
  | nil => rfl
  | cons a t =>
    rw [List.dropWhile_cons, if_neg (by simp [hh a t rfl])]

theorem pyStripL_id {u : List Char}
    (hh : ∀ a t, u = a :: t → pyWs a = false)
    (hl : ∀ a t, u.reverse = a :: t → pyWs a = false) : pyStripL u = u := by
  unfold pyStripL
  rw [dropWhile_id_of_head hh, dropWhile_id_of_head hl, List.reverse_reverse]

theorem collapseGo_id : ∀ u : List Char, chainB noDblPair u = true →
    collapseWsGo false u = u := by
  intro u
  induction u with
  | nil => intro h; rfl
  | cons x t ih =>
    intro h
    simp only [collapseWsGo]
    cases t with
    | nil =>
      rw [if_neg (by simp)]
      rfl
    | cons y r =>
      have h1 := (chainB_cons.1 h).1
      have h2 : (pyWs x && pyWs y) = false :=
        Bool.eq_false_iff.mpr (fun hc => by simp [noDblPair, hc] at h1)
      rw [if_neg (by simp [h2])]
      rw [ih (chainB_tail h)]

theorem collapseWs_id {u : List Char} (h : chainB noDblPair u = true) :
    collapseWs u = u :=
  collapseGo_id u h

theorem sq_true_ws {c : Char} (X : List Char) (h : pyWs c = true) :
    sq true (c :: X) = sq true X := by
  simp [sq, h]

theorem sq_true_comma (X : List Char) : sq true (',' :: X) = ',' :: sq true X := by
  have hcw : pyWs ',' = false := by decide
  simp [sq, hcw]

theorem sq_true_emit {c : Char} (X : List Char) (h : pyWs c = false)
    (hc : ¬ c = ',') : sq true (c :: X) = c :: sq false X := by
  simp [sq, h, hc]

theorem sq_false_comma : ∀ X : List Char, sq false (',' :: X) = ',' :: sq true X := by
  intro X
  have hcw : pyWs ',' = false := by decide
  cases X with
  | nil => rfl
  | cons d r => simp [sq, hcw]

theorem sq_false_ws_comma {c : Char} (X : List Char) (h : pyWs c = true) :
    sq false (c :: ',' :: X) = ',' :: sq true X := by
  simp [sq, h]

theorem sq_false_ws_other {c d : Char} (X : List Char) (h : pyWs c = true)
    (hd : ¬ d = ',') : sq false (c :: d :: X) = c :: sq false (d :: X) := by
  simp [sq, h, hd]

theorem uPairB_split {a b : Char} (h : uPairB a b = true) :
    (pyWs a && pyWs b) = false ∧ (pyWs a && (b == ',')) = false
    ∧ ((a == ',') && pyWs b) = false
    ∧ (pAll a b = false ∨ a = ',' ∨ b = ',') := by
  simp only [uPairB, Bool.and_eq_true] at h
  obtain ⟨⟨⟨h1, h2⟩, h3⟩, h4⟩ := h
  rw [Bool.not_eq_true'] at h1 h2 h3
  refine ⟨h1, h2, h3, ?_⟩
  simp only [Bool.or_eq_true, Bool.not_eq_true', beq_iff_eq] at h4
  exact h4

theorem uPair_ws_left {a b : Char} (h : uPairB a b = true)
    (ha : pyWs a = true) : pyWs b = false ∧ ¬ b = ',' := by
  obtain ⟨h1, h2, h3, h4⟩ := uPairB_split h
  rw [ha, Bool.true_and] at h1 h2
  exact ⟨h1, by intro he; rw [he] at h2; simp at h2⟩

theorem uPair_comma_left {a b : Char} (h : uPairB a b = true)
    (ha : a = ',') : pyWs b = false := by
  obtain ⟨h1, h2, h3, h4⟩ := uPairB_split h
  rw [ha] at h3
  simpa using h3

theorem uPair_pAll {a b : Char} (h : uPairB a b = true)
    (hp : pAll a b = true) (hna : ¬ a = ',') : b = ',' := by
  obtain ⟨h1, h2, h3, h4⟩ := uPairB_split h
  rcases h4 with h5 | h5 | h5
  · rw [hp] at h5
    exact Bool.noConfusion h5
  · exact absurd h5 hna
  · exact h5

theorem uPair_noDbl {a b : Char} (h : uPairB a b = true) : noDblPair a b = true := by
  obtain ⟨h1, h2, h3, h4⟩ := uPairB_split h
  simp [noDblPair, h1]

theorem uPair_nPAll {a b : Char} (h : uPairB a b = true)
    (ha : ¬ a = ',') (hb : ¬ b = ',') : pAll a b = false := by
  obtain ⟨h1, h2, h3, h4⟩ := uPairB_split h
  rcases h4 with h5 | h5 | h5
  · exact h5
  · exact absurd h5 ha
  · exact absurd h5 hb

theorem chainB_mono {p q : Char → Char → Bool}
    (hpq : ∀ a b, p a b = true → q a b = true) :
    ∀ l, chainB p l = true → chainB q l = true := by
  intro l
  induction l with
  | nil => intro h; rfl
  | cons a t ih =>
    intro h
    cases t with
    | nil => rfl
    | cons b r =>
      obtain ⟨h1, h2⟩ := chainB_cons.1 h
      exact chainB_cons.2 ⟨hpq _ _ h1, ih h2⟩

theorem chainB_cons_of {p : Char → Char → Bool} {c : Char} {X : List Char}
    (hh : ∀ h t, X = h :: t → p c h = true) (hX : chainB p X = true) :
    chainB p (c :: X) = true := by
  cases X with
  | nil => rfl
  | cons h t => exact chainB_cons.2 ⟨hh h t rfl, hX⟩

theorem chainB_append_take1 {p : Char → Char → Bool} :
    ∀ (v : List Char) (c : Char) (rest : List Char),
    chainB p (v ++ c :: rest) = true → chainB p (v ++ [c]) = true := by
  intro v
  induction v with
  | nil =>
    intro c rest h
    rfl
  | cons a v2 ih =>
    intro c rest h
    cases v2 with
    | nil =>
      obtain ⟨h1, h2⟩ := chainB_cons.1 h
      exact chainB_cons.2 ⟨h1, rfl⟩
    | cons b v3 =>
      obtain ⟨h1, h2⟩ := chainB_cons.1 h
      exact chainB_cons.2 ⟨h1, ih c rest h2⟩

theorem chainB_append_ext {p : Char → Char → Bool} :
    ∀ (v : List Char) (c : Char) (rest : List Char),
    chainB p (v ++ [c]) = true → chainB p (c :: rest) = true →
    chainB p (v ++ c :: rest) = true := by
  intro v
  induction v with
  | nil =>
    intro c rest h1 h2
    exact h2
  | cons a v2 ih =>
    intro c rest h1 h2
    cases v2 with
    | nil =>
      obtain ⟨h3, h4⟩ := chainB_cons.1 h1
      exact chainB_cons.2 ⟨h3, h2⟩
    | cons b v3 =>
      obtain ⟨h3, h4⟩ := chainB_cons.1 h1
      exact chainB_cons.2 ⟨h3, ih c rest h4 h2⟩

theorem sq_true_head : ∀ (r : List Char) (h : Char),
    (sq true r).head? = some h → pyWs h = false := by
  intro r
  induction r with
  | nil => intro h hh; exact absurd hh (by simp [sq])
  | cons c rest ih =>
    intro h hh
    by_cases hw : pyWs c = true
    · rw [sq_true_ws rest hw] at hh
      exact ih h hh
    · have hwf : pyWs c = false := Bool.eq_false_iff.mpr hw
      by_cases hc : c = ','
      · subst hc
        rw [sq_true_comma rest] at hh
        cases hh
        decide
      · rw [sq_true_emit rest hwf hc] at hh
        cases hh
        exact hwf

theorem sq_false_head : ∀ (d : Char) (r2 : List Char),
    (sq false (d :: r2)).head? = some d ∨ (sq false (d :: r2)).head? = some ',' := by
  intro d r2
  by_cases hw : pyWs d = true
  · cases r2 with
    | nil => exact Or.inl rfl
    | cons e r3 =>
      by_cases he : e = ','
      · subst he
        rw [sq_false_ws_comma r3 hw]
        exact Or.inr rfl
      · rw [sq_false_ws_other r3 hw he]
        exact Or.inl rfl
  · have hwf : pyWs d = false := Bool.eq_false_iff.mpr hw
    by_cases hc : d = ','
    · subst hc
      rw [sq_false_comma r2]
      exact Or.inl rfl
    · rw [sq_false_emit r2 hwf hc]
      exact Or.inl rfl

theorem uPairB_intro {a b : Char} (h1 : (pyWs a && pyWs b) = false)
    (h2 : (pyWs a && (b == ',')) = false)
    (h3 : ((a == ',') && pyWs b) = false)
    (h4 : pAll a b = false ∨ a = ',' ∨ b = ',') : uPairB a b = true := by
  simp only [uPairB, h1, h2, h3, Bool.not_false, Bool.true_and]
  rcases h4 with h5 | h5 | h5
  · simp [h5]
  · simp [h5]
  · simp [h5]

theorem uPair_comma_first {h : Char} (hh : pyWs h = false) :
    uPairB ',' h = true := by
  have hcw : pyWs ',' = false := by decide
  simp [uPairB, hh, hcw]

theorem uPair_comma_second {a : Char} (ha : pyWs a = false) :
    uPairB a ',' = true := by
  have hcw : pyWs ',' = false := by decide
  simp [uPairB, ha, hcw]

theorem sq_false_head_nonws {d : Char} (r2 : List Char) (hd : pyWs d = false) :
    (sq false (d :: r2)).head? = some d := by
  by_cases hc : d = ','
  · subst hc
    rw [sq_false_comma r2]
    rfl
  · rw [sq_false_emit r2 hd hc]
    rfl

theorem chain_emit_head {c d : Char} {r2 : List Char}
    (hc : pyWs c = false) (hcc : ¬ c = ',')
    (h1 : (pyWs c && pyWs d) = false) (h2 : pAll c d = false)
    (hX : chainB uPairB (sq false (d :: r2)) = true) :
    chainB uPairB (c :: sq false (d :: r2)) = true := by
  refine chainB_cons_of ?_ hX
  intro h t hht
  rcases sq_false_head d r2 with hh | hh
  · rw [hht] at hh
    cases Option.some.inj hh
    exact uPairB_intro h1 (by simp [hc]) (by simp [hcc]) (Or.inl h2)
  · rw [hht] at hh
    cases Option.some.inj hh
    exact uPair_comma_second hc

theorem sq_uPair : ∀ (n : Nat) (w : List Char), w.length ≤ n →
    chainB noDblPair w = true →
    chainB (fun a b => !(pAll a b)) w = true →
    chainB uPairB (sq false w) = true ∧ chainB uPairB (sq true w) = true := by
  intro n
  induction n with
  | zero =>
    intro w hw h1 h2
    have hnil : w = [] := List.eq_nil_of_length_eq_zero (Nat.le_zero.mp hw)
    subst hnil
    exact ⟨rfl, rfl⟩
  | succ n ih =>
    intro w hw h1 h2
    cases w with
    | nil => exact ⟨rfl, rfl⟩
    | cons c rest =>
      have hlen : rest.length ≤ n := by
        simp only [List.length_cons] at hw
        omega
      have h1t : chainB noDblPair rest = true := chainB_tail h1
      have h2t : chainB (fun a b => !(pAll a b)) rest = true := chainB_tail h2
      constructor
      · by_cases hwc : pyWs c = true
        · cases rest with
          | nil => rfl
          | cons d r2 =>
            have hnd : noDblPair c d = true := (chainB_cons.1 h1).1
            have hdws : pyWs d = false := by
              simp only [noDblPair, hwc, Bool.true_and, Bool.not_eq_true'] at hnd
              exact hnd
            by_cases hd : d = ','
            · subst hd
              rw [sq_false_ws_comma r2 hwc]
              refine chainB_cons_of ?_ (ih r2 (by simp only [List.length_cons] at hlen; omega) (chainB_tail h1t) (chainB_tail h2t)).2
              intro h t hht
              exact uPair_comma_first (sq_true_head r2 h (by rw [hht]; rfl))
            · rw [sq_false_ws_other r2 hwc hd]
              refine chainB_cons_of ?_ (ih (d :: r2) hlen h1t h2t).1
              intro h t hht
              have hh := sq_false_head_nonws r2 hdws
              rw [hht] at hh
              cases Option.some.inj hh
              refine uPairB_intro (by simp [hdws]) (by simp [hd]) ?_ ?_
              · have : ¬ c = ',' := by
                  intro he
                  rw [he] at hwc
                  exact absurd hwc (by decide)
                simp [this]
              · exact Or.inl (pAll_wsBlind (Or.inl hwc))
        · have hcf : pyWs c = false := Bool.eq_false_iff.mpr hwc
          by_cases hc : c = ','
          · subst hc
            rw [sq_false_comma rest]
            refine chainB_cons_of ?_ (ih rest hlen h1t h2t).2
            intro h t hht
            exact uPair_comma_first (sq_true_head rest h (by rw [hht]; rfl))
          · rw [sq_false_emit rest hcf hc]
            cases rest with
            | nil => rfl
            | cons d r2 =>
              have hnd : noDblPair c d = true := (chainB_cons.1 h1).1
              have hnp : (fun a b => !(pAll a b)) c d = true := (chainB_cons.1 h2).1
              refine chain_emit_head hcf hc ?_ ?_ (ih (d :: r2) hlen h1t h2t).1
              · simp only [noDblPair, Bool.not_eq_true'] at hnd
                exact hnd
              · simp only [Bool.not_eq_true'] at hnp
                exact hnp
      · by_cases hwc : pyWs c = true
        · rw [sq_true_ws rest hwc]
          exact (ih rest hlen h1t h2t).2
        · have hcf : pyWs c = false := Bool.eq_false_iff.mpr hwc
          by_cases hc : c = ','
          · subst hc
            rw [sq_true_comma rest]
            refine chainB_cons_of ?_ (ih rest hlen h1t h2t).2
            intro h t hht
            exact uPair_comma_first (sq_true_head rest h (by rw [hht]; rfl))
          · rw [sq_true_emit rest hcf hc]
            cases rest with
            | nil => rfl
            | cons d r2 =>
              have hnd : noDblPair c d = true := (chainB_cons.1 h1).1
              have hnp : (fun a b => !(pAll a b)) c d = true := (chainB_cons.1 h2).1
              refine chain_emit_head hcf hc ?_ ?_ (ih (d :: r2) hlen h1t h2t).1
              · simp only [noDblPair, Bool.not_eq_true'] at hnd
                exact hnd
              · simp only [Bool.not_eq_true'] at hnp
                exact hnp

theorem getLast?_cons_of_some {a c : Char} {X : List Char}
    (h : X.getLast? = some c) : (a :: X).getLast? = some c := by
  cases X with
  | nil => exact absurd h (by simp)
  | cons b t =>
    rw [List.getLast?_cons_cons]
    exact h

theorem insA_getLast {p : Char → Char → Bool} :
    ∀ (r : List Char) (a : Char),
    (a :: insA p a r).getLast? = (a :: r).getLast? := by
  intro r
  induction r with
  | nil => intro a; rfl
  | cons b r2 ih =>
    intro a
    simp only [insA]
    by_cases hp : p a b = true
    · rw [if_pos hp]
      have h1 : (a :: ' ' :: b :: insA p b r2).getLast? = (b :: insA p b r2).getLast? := by
        rw [List.getLast?_cons_cons, List.getLast?_cons_cons]
      have h2 : (a :: b :: r2).getLast? = (b :: r2).getLast? := List.getLast?_cons_cons
      rw [h1, h2]
      exact ih b
    · rw [if_neg hp]
      rw [List.getLast?_cons_cons]
      rw [show (a :: b :: r2).getLast? = (b :: r2).getLast? from List.getLast?_cons_cons]
      exact ih b

theorem collapse_last : ∀ (l : List Char) (s : Bool) (c : Char),
    l.getLast? = some c → pyWs c = false →
    (collapseWsGo s l).getLast? = some c := by
  intro l
  induction l with
  | nil => intro s c h hc; exact absurd h (by simp)
  | cons a t ih =>
    intro s c h hc
    cases t with
    | nil =>
      obtain rfl : a = c := by simpa using h
      cases s with
      | true =>
        simp only [collapseWsGo]
        rw [if_neg (by simp [hc])]
        simp [collapseWsGo]
      | false =>
        simp only [collapseWsGo]
        rw [if_neg (by simp)]
        simp [collapseWsGo]
    | cons b t2 =>
      have hlast : (b :: t2).getLast? = some c := List.getLast?_cons_cons.symm.trans h
      cases s with
      | true =>
        simp only [collapseWsGo]
        by_cases hw : pyWs a = true
        · rw [if_pos hw]
          exact ih true c hlast hc
        · rw [if_neg hw]
          exact getLast?_cons_of_some (ih false c hlast hc)
      | false =>
        simp only [collapseWsGo]
        try simp only []
        by_cases hw : (pyWs a && pyWs b) = true
        · rw [if_pos hw]
          exact getLast?_cons_of_some (ih true c hlast hc)
        · rw [if_neg hw]
          exact getLast?_cons_of_some (ih false c hlast hc)

theorem sq_last_eq : ∀ (n : Nat) (w : List Char) (c : Char), w.length ≤ n →
    w.getLast? = some c → pyWs c = false →
    (sq false w).getLast? = some c ∧ (sq true w).getLast? = some c := by
  intro n
  induction n with
  | zero =>
    intro w c hw h hc
    have hnil := List.eq_nil_of_length_eq_zero (Nat.le_zero.mp hw)
    subst hnil
    exact absurd h (by simp)
  | succ n ih =>
    intro w c hw h hc
    cases w with
    | nil => exact absurd h (by simp)
    | cons d rest =>
      have hlen : rest.length ≤ n := by
        simp only [List.length_cons] at hw
        omega
      cases rest with
      | nil =>
        obtain rfl : d = c := by simpa using h
        constructor
        · simp [sq]
        · by_cases hcc : d = ','
          · subst hcc
            rw [sq_true_comma []]
            simp [sq]
          · rw [sq_true_emit [] hc hcc]
            simp [sq]
      | cons e r2 =>
        have hlast : (e :: r2).getLast? = some c := List.getLast?_cons_cons.symm.trans h
        have ihm := ih (e :: r2) c hlen hlast hc
        constructor
        · by_cases hw1 : pyWs d = true
          · by_cases he : e = ','
            · subst he
              rw [sq_false_ws_comma r2 hw1]
              cases r2 with
              | nil => simpa [sq] using hlast
              | cons f r3 =>
                have h3 : (f :: r3).getLast? = some c := List.getLast?_cons_cons.symm.trans hlast
                have ih2 := ih (f :: r3) c (by simp only [List.length_cons] at hlen ⊢; omega) h3 hc
                exact getLast?_cons_of_some ih2.2
            · rw [sq_false_ws_other r2 hw1 he]
              exact getLast?_cons_of_some ihm.1
          · have hdf : pyWs d = false := Bool.eq_false_iff.mpr hw1
            by_cases hdc : d = ','
            · subst hdc
              rw [sq_false_comma (e :: r2)]
              exact getLast?_cons_of_some ihm.2
            · rw [sq_false_emit (e :: r2) hdf hdc]
              exact getLast?_cons_of_some ihm.1
        · by_cases hw1 : pyWs d = true
          · rw [sq_true_ws (e :: r2) hw1]
            exact ihm.2
          · have hdf : pyWs d = false := Bool.eq_false_iff.mpr hw1
            by_cases hdc : d = ','
            · subst hdc
              rw [sq_true_comma (e :: r2)]
              exact getLast?_cons_of_some ihm.2
            · rw [sq_true_emit (e :: r2) hdf hdc]
              exact getLast?_cons_of_some ihm.1

theorem getLast?_dropWhile {p : Char → Bool} :
    ∀ (l : List Char) (a : Char) (t : List Char),
    l.dropWhile p = a :: t → (a :: t).getLast? = l.getLast? := by
  intro l
  induction l with
  | nil => intro a t h; exact absurd h (by simp)
  | cons c r ih =>
    intro a t h
    rw [List.dropWhile_cons] at h
    split at h
    · have h1 := ih a t h
      rw [h1]
      cases r with
      | nil => exact absurd h (by simp)
      | cons b t2 => exact List.getLast?_cons_cons.symm
    · cases h
      rfl

theorem pyStripL_head : ∀ (l : List Char) (a : Char) (t : List Char),
    pyStripL l = a :: t → pyWs a = false := by
  intro l a t h
  unfold pyStripL at h
  cases hZ : (l.dropWhile pyWs).reverse.dropWhile pyWs with
  | nil => rw [hZ] at h; exact absurd h (by simp)
  | cons z zt =>
    rw [hZ] at h
    have h1 : (z :: zt).getLast? = some a := by
      rw [← List.head?_reverse, h]
      rfl
    have h2 := getLast?_dropWhile (l.dropWhile pyWs).reverse z zt hZ
    rw [h2, List.getLast?_reverse] at h1
    cases hY : l.dropWhile pyWs with
    | nil => rw [hY] at h1; exact absurd h1 (by simp)
    | cons y yt =>
      rw [hY] at h1
      have hya : y = a := Option.some.inj h1
      have h3 := dropWhile_cons_head l y yt hY
      rw [hya] at h3
      exact h3

theorem pyStripL_last : ∀ (l : List Char) (a : Char),
    (pyStripL l).getLast? = some a → pyWs a = false := by
  intro l a h
  unfold pyStripL at h
  rw [List.getLast?_reverse] at h
  cases hZ : (l.dropWhile pyWs).reverse.dropWhile pyWs with
  | nil => rw [hZ] at h; exact absurd h (by simp)
  | cons z zt =>
    rw [hZ] at h
    have hza : z = a := Option.some.inj h
    have h3 := dropWhile_cons_head (l.dropWhile pyWs).reverse z zt hZ
    rw [hza] at h3
    exact h3

theorem undo_base_suffix_f {b : Char} (hbc : ¬ b = ',')
    (hch : chainB uPairB (b :: ['&']) = true) :
    sq false (insA pAll b ['&', ')', '>']) = ['&', ' ', ')', ' ', '>'] := by
  have hp : uPairB b '&' = true := (chainB_cons.1 hch).1
  have hpf : pAll b '&' = false := uPair_nPAll hp hbc (by decide)
  simp only [insA]
  rw [hpf]
  decide

theorem undo_base_suffix_t :
    sq true (insA pAll ',' ['&', ')', '>']) = ['&', ' ', ')', ' ', '>'] := by
  decide

theorem undo_all : ∀ (n : Nat) (r : List Char), r.length ≤ n →
    ((∀ b, pyWs b = false → ¬ b = ',' → chainB uPairB (b :: r) = true →
        sq false (insA pAll b r) = r)
     ∧ (chainB uPairB (',' :: r) = true → sq true (insA pAll ',' r) = r))
    ∧ ((∀ b, pyWs b = false → ¬ b = ',' →
          chainB uPairB (b :: r ++ ['&']) = true →
          sq false (insA pAll b (r ++ ['&', ')', '>']))
            = r ++ ['&', ' ', ')', ' ', '>'])
       ∧ (chainB uPairB (',' :: r ++ ['&']) = true →
          sq true (insA pAll ',' (r ++ ['&', ')', '>']))
            = r ++ ['&', ' ', ')', ' ', '>'])) := by
  intro n
  induction n with
  | zero =>
    intro r hr
    have hnil := List.eq_nil_of_length_eq_zero (Nat.le_zero.mp hr)
    subst hnil
    refine ⟨⟨fun b hb hbc hch => rfl, fun hch => rfl⟩, ?_, ?_⟩
    · intro b hb hbc hch
      simp only [List.nil_append] at hch ⊢
      exact undo_base_suffix_f hbc hch
    · intro hch
      simp only [List.nil_append]
      exact undo_base_suffix_t
  | succ n ih =>
    intro r hr
    cases r with
    | nil =>
      refine ⟨⟨fun b hb hbc hch => rfl, fun hch => rfl⟩, ?_, ?_⟩
      · intro b hb hbc hch
        simp only [List.nil_append] at hch ⊢
        exact undo_base_suffix_f hbc hch
      · intro hch
        simp only [List.nil_append]
        exact undo_base_suffix_t
    | cons c r2 =>
      have hlen2 : r2.length ≤ n := by
        simp only [List.length_cons] at hr
        omega
      refine ⟨⟨?_, ?_⟩, ?_, ?_⟩
      · intro b hb hbc hch
        have hp : uPairB b c = true := (chainB_cons.1 hch).1
        have hcht : chainB uPairB (c :: r2) = true := chainB_tail hch
        by_cases hpc : pAll b c = true
        · have hc : c = ',' := uPair_pAll hp hpc hbc
          subst hc
          simp only [insA]
          rw [if_pos hpc]
          rw [sq_false_ws_comma (insA pAll ',' r2) (by decide)]
          rw [((ih r2 hlen2).1).2 hcht]
        · simp only [insA]
          rw [if_neg hpc]
          by_cases hwc : pyWs c = true
          · cases r2 with
            | nil => rfl
            | cons y r3 =>
              have hlen3 : r3.length ≤ n := by
                simp only [List.length_cons] at hr
                omega
              have hpy : uPairB c y = true := (chainB_cons.1 hcht).1
              obtain ⟨hyws, hyc⟩ := uPair_ws_left hpy hwc
              have hpcy : pAll c y = false := pAll_wsBlind (Or.inl hwc)
              simp only [insA]
              rw [if_neg (by simp [hpcy])]
              rw [sq_false_ws_other (insA pAll y r3) hwc hyc]
              rw [sq_false_emit (insA pAll y r3) hyws hyc]
              rw [((ih r3 hlen3).1).1 y hyws hyc (chainB_tail hcht)]
          · by_cases hcc : c = ','
            · subst hcc
              rw [sq_false_comma (insA pAll ',' r2)]
              rw [((ih r2 hlen2).1).2 hcht]
            · have hcf : pyWs c = false := Bool.eq_false_iff.mpr hwc
              rw [sq_false_emit (insA pAll c r2) hcf hcc]
              rw [((ih r2 hlen2).1).1 c hcf hcc hcht]
      · intro hch
        have hp : uPairB ',' c = true := (chainB_cons.1 hch).1
        have hcws : pyWs c = false := uPair_comma_left hp rfl
        have hcht : chainB uPairB (c :: r2) = true := chainB_tail hch
        simp only [insA]
        by_cases hpc : pAll ',' c = true
        · rw [if_pos hpc]
          have hcc : ¬ c = ',' := by
            intro he
            rw [he] at hpc
            exact absurd hpc (by decide)
          rw [sq_true_ws (c :: insA pAll c r2) (by decide)]
          rw [sq_true_emit (insA pAll c r2) hcws hcc]
          rw [((ih r2 hlen2).1).1 c hcws hcc hcht]
        · rw [if_neg hpc]
          by_cases hcc : c = ','
          · subst hcc
            rw [sq_true_comma (insA pAll ',' r2)]
            rw [((ih r2 hlen2).1).2 hcht]
          · rw [sq_true_emit (insA pAll c r2) hcws hcc]
            rw [((ih r2 hlen2).1).1 c hcws hcc hcht]
      · intro b hb hbc hch
        simp only [List.cons_append] at hch ⊢
        have hp : uPairB b c = true := (chainB_cons.1 hch).1
        have hcht : chainB uPairB (c :: (r2 ++ ['&'])) = true := chainB_tail hch
        by_cases hpc : pAll b c = true
        · have hc : c = ',' := uPair_pAll hp hpc hbc
          subst hc
          simp only [insA]
          rw [if_pos hpc]
          rw [sq_false_ws_comma (insA pAll ',' (r2 ++ ['&', ')', '>'])) (by decide)]
          rw [((ih r2 hlen2).2).2 hcht]
        · simp only [insA]
          rw [if_neg hpc]
          by_cases hwc : pyWs c = true
          · cases r2 with
            | nil =>
              have hT : insA pAll c ['&', ')', '>'] = ['&', ' ', ')', ' ', '>'] := by
                simp only [insA]
                rw [pAll_wsBlind (Or.inl hwc)]
                decide
              simp only [List.nil_append]
              rw [hT]
              rw [sq_false_ws_other [' ', ')', ' ', '>'] hwc (by decide)]
              rw [show sq false (['&', ' ', ')', ' ', '>'] : List Char)
                    = ['&', ' ', ')', ' ', '>'] from by decide]
            | cons y r3 =>
              have hlen3 : r3.length ≤ n := by
                simp only [List.length_cons] at hr
                omega
              simp only [List.cons_append] at hcht ⊢
              have hpy : uPairB c y = true := (chainB_cons.1 hcht).1
              obtain ⟨hyws, hyc⟩ := uPair_ws_left hpy hwc
              have hpcy : pAll c y = false := pAll_wsBlind (Or.inl hwc)
              simp only [insA]
              rw [if_neg (by simp [hpcy])]
              rw [sq_false_ws_other (insA pAll y (r3 ++ ['&', ')', '>'])) hwc hyc]
              rw [sq_false_emit (insA pAll y (r3 ++ ['&', ')', '>'])) hyws hyc]
              rw [((ih r3 hlen3).2).1 y hyws hyc (chainB_tail hcht)]
          · by_cases hcc : c = ','
            · subst hcc
              rw [sq_false_comma (insA pAll ',' (r2 ++ ['&', ')', '>']))]
              rw [((ih r2 hlen2).2).2 hcht]
            · have hcf : pyWs c = false := Bool.eq_false_iff.mpr hwc
              rw [sq_false_emit (insA pAll c (r2 ++ ['&', ')', '>'])) hcf hcc]
              rw [((ih r2 hlen2).2).1 c hcf hcc hcht]
      · intro hch
        simp only [List.cons_append] at hch ⊢
        have hp : uPairB ',' c = true := (chainB_cons.1 hch).1
        have hcws : pyWs c = false := uPair_comma_left hp rfl
        have hcht : chainB uPairB (c :: (r2 ++ ['&'])) = true := chainB_tail hch
        simp only [insA]
        by_cases hpc : pAll ',' c = true
        · rw [if_pos hpc]
          have hcc : ¬ c = ',' := by
            intro he
            rw [he] at hpc
            exact absurd hpc (by decide)
          rw [sq_true_ws (c :: insA pAll c (r2 ++ ['&', ')', '>'])) (by decide)]
          rw [sq_true_emit (insA pAll c (r2 ++ ['&', ')', '>'])) hcws hcc]
          rw [((ih r2 hlen2).2).1 c hcws hcc hcht]
        · rw [if_neg hpc]
          by_cases hcc : c = ','
          · subst hcc
            rw [sq_true_comma (insA pAll ',' (r2 ++ ['&', ')', '>']))]
            rw [((ih r2 hlen2).2).2 hcht]
          · rw [sq_true_emit (insA pAll c (r2 ++ ['&', ')', '>'])) hcws hcc]
            rw [((ih r2 hlen2).2).1 c hcws hcc hcht]

theorem pGt_wsBlind : ∀ a b, pyWs a = true ∨ pyWs b = true → pGt a b = false := by
  intro a b h
  rcases h with h | h
  · simp [pGt, h]
  · obtain ⟨h1, h2, h3, h4⟩ := ws_notSym h
    simp [pGt, h2]

theorem pAmpB_wsBlind : ∀ a b, pyWs a = true ∨ pyWs b = true → pAmpB a b = false := by
  intro a b h
  rcases h with h | h
  · simp [pAmpB, h]
  · obtain ⟨h1, h2, h3, h4⟩ := ws_notSym h
    simp [pAmpB, h3]

theorem pAmpA_wsBlind : ∀ a b, pyWs a = true ∨ pyWs b = true → pAmpA a b = false := by
  intro a b h
  rcases h with h | h
  · obtain ⟨h1, h2, h3, h4⟩ := ws_notSym h
    simp [pAmpA, h3]
  · simp [pAmpA, h]

theorem insA_congr {p q : Char → Char → Bool} (h : ∀ a b, p a b = q a b) :
    ∀ (l : List Char) (a : Char), insA p a l = insA q a l := by
  intro l
  induction l with
  | nil => intro a; rfl
  | cons b r ih =>
    intro a
    simp only [insA]
    rw [h a b, ih b]

theorem ins_congr {p q : Char → Char → Bool} (h : ∀ a b, p a b = q a b) :
    ∀ l, ins p l = ins q l := by
  intro l
  cases l with
  | nil => rfl
  | cons a t => rw [ins_eq, ins_eq, insA_congr h]

theorem pipeline_ins (l : List Char) :
    spaceAfterAmp (spaceBeforeAmp (spaceBeforeGt (spaceAfterLt l))) = ins pAll l := by
  rw [spaceAfterLt_eq_ins, spaceBeforeGt_eq_ins, spaceBeforeAmp_eq_ins,
    spaceAfterAmp_eq_ins]
  rw [ins_fuse pGt_wsBlind, ins_fuse pAmpB_wsBlind, ins_fuse pAmpA_wsBlind]
  refine ins_congr ?_ l
  intro a b
  simp [pAll, Bool.or_assoc]

theorem ins_noDbl {v : List Char} (h : chainB noDblPair v = true) :
    chainB noDblPair (ins pAll v) = true := by
  cases v with
  | nil => rfl
  | cons a t =>
    rw [ins_eq]
    exact chain_insA_noDbl t a h

theorem ins_nPAll (v : List Char) :
    chainB (fun a b => !(pAll a b)) (ins pAll v) = true := by
  cases v with
  | nil => rfl
  | cons a t =>
    rw [ins_eq]
    exact chain_insA_none (fun a b h => pAll_wsBlind h) t a

theorem getLast?_none_nil : ∀ l : List Char, l.getLast? = none → l = [] := by
  intro l h
  cases l with
  | nil => rfl
  | cons a t => exact absurd h (by simp)

theorem tighten_no_suffix {l : List Char}
    (h : ¬ ("& ) >".data.reverse).isPrefixOf l.reverse = true) :
    tightenAmpSuffix l = l := by
  unfold tightenAmpSuffix
  rw [if_neg h]

theorem tighten_split {l : List Char}
    (h : ("& ) >".data.reverse).isPrefixOf l.reverse = true) :
    ∃ v, l = v ++ "& ) >".data ∧ tightenAmpSuffix l = v ++ "&)>".data := by
  obtain ⟨t, ht⟩ := List.isPrefixOf_iff_prefix.mp h
  have hv : l = t.reverse ++ "& ) >".data := by
    rw [← List.reverse_reverse l, ← ht, List.reverse_append, List.reverse_reverse]
  refine ⟨t.reverse, hv, ?_⟩
  unfold tightenAmpSuffix
  rw [if_pos h, hv]
  have hlen : (t.reverse ++ "& ) >".data).length - 5 = t.reverse.length := by
    simp
  rw [hlen, List.take_left]

theorem tighten_apply (v : List Char) :
    tightenAmpSuffix (v ++ "& ) >".data) = v ++ "&)>".data := by
  have hpre : ("& ) >".data.reverse).isPrefixOf (v ++ "& ) >".data).reverse = true := by
    apply List.isPrefixOf_iff_prefix.mpr
    rw [List.reverse_append]
    exact ⟨v.reverse, rfl⟩
  unfold tightenAmpSuffix
  rw [if_pos hpre]
  have hlen : (v ++ "& ) >".data).length - 5 = v.length := by
    simp
  rw [hlen, List.take_left]

/-- The whole list-level pipeline of `doxy_normalize_yml_params`. -/
def normL (l : List Char) : List Char :=
  tightenAmpSuffix (commaSquash (spaceAfterAmp (spaceBeforeAmp (spaceBeforeGt
    (spaceAfterLt (collapseWs (pyStripL l)))))))

theorem normL_unfold (l : List Char) :
    normL l = tightenAmpSuffix (commaSquash (ins pAll (collapseWs (pyStripL l)))) := by
  unfold normL
  rw [pipeline_ins]

theorem strip_collapse_id {u : List Char}
    (hch : chainB noDblPair u = true)
    (hh : ∀ a t, u = a :: t → pyWs a = false)
    (hl : ∀ a, u.getLast? = some a → pyWs a = false) :
    collapseWs (pyStripL u) = u := by
  have h1 : pyStripL u = u := by
    refine pyStripL_id hh ?_
    intro a t hr
    apply hl
    rw [← List.head?_reverse, hr]
    rfl
  rw [h1]
  exact collapseWs_id hch

theorem undo_entry {u : List Char}
    (hch : chainB uPairB u = true)
    (hh : ∀ a t, u = a :: t → pyWs a = false) :
    sq false (ins pAll u) = u := by
  cases u with
  | nil => rfl
  | cons a t =>
    have ha : pyWs a = false := hh a t rfl
    rw [ins_eq]
    by_cases hac : a = ','
    · subst hac
      rw [sq_false_comma (insA pAll ',' t)]
      rw [((undo_all t.length t le_rfl).1).2 hch]
    · rw [sq_false_emit (insA pAll a t) ha hac]
      rw [((undo_all t.length t le_rfl).1).1 a ha hac hch]

theorem undo_entry_suffix {v' : List Char}
    (hch : chainB uPairB (v' ++ ['&']) = true)
    (hh : ∀ a t, v' = a :: t → pyWs a = false) :
    sq false (ins pAll (v' ++ ['&', ')', '>'])) = v' ++ ['&', ' ', ')', ' ', '>'] := by
  cases v' with
  | nil =>
    simp only [List.nil_append]
    decide
  | cons cv vt =>
    have hcv : pyWs cv = false := hh cv vt rfl
    simp only [List.cons_append] at hch ⊢
    rw [ins_eq]
    by_cases hac : cv = ','
    · subst hac
      rw [sq_false_comma (insA pAll ',' (vt ++ ['&', ')', '>']))]
      rw [((undo_all vt.length vt le_rfl).2).2 hch]
    · rw [sq_false_emit (insA pAll cv (vt ++ ['&', ')', '>'])) hcv hac]
      rw [((undo_all vt.length vt le_rfl).2).1 cv hcv hac hch]

theorem normL_idem (l : List Char) : normL (normL l) = normL l := by
  have hv1 : chainB noDblPair (collapseWs (pyStripL l)) = true :=
    (collapse_claims (pyStripL l)).1
  have hw_noDbl : chainB noDblPair (ins pAll (collapseWs (pyStripL l))) = true :=
    ins_noDbl hv1
  have hw_nPAll := ins_nPAll (collapseWs (pyStripL l))
  have hx_eq : commaSquash (ins pAll (collapseWs (pyStripL l)))
      = sq false (ins pAll (collapseWs (pyStripL l))) := commaSquash_eq_sq hw_noDbl
  have hx_chain : chainB uPairB (sq false (ins pAll (collapseWs (pyStripL l)))) = true :=
    (sq_uPair (ins pAll (collapseWs (pyStripL l))).length _ le_rfl hw_noDbl hw_nPAll).1
  have hv_head : ∀ a t, collapseWs (pyStripL l) = a :: t → pyWs a = false := by
    intro a t h
    cases hl0 : pyStripL l with
    | nil =>
      rw [hl0] at h
      simp [collapseWs, collapseWsGo] at h
    | cons c l0t =>
      have hc : pyWs c = false := pyStripL_head l c l0t hl0
      obtain ⟨b, t2, hbt, hws⟩ := (collapse_claims (c :: l0t)).2.2.2 c l0t rfl
      have hbt2 : collapseWs (pyStripL l) = b :: t2 := by
        rw [hl0]
        exact hbt
      rw [h] at hbt2
      have hab : a = b := (List.cons.inj hbt2).1
      rw [hab, hws]
      exact hc
  have hx_head : ∀ a t, sq false (ins pAll (collapseWs (pyStripL l))) = a :: t →
      pyWs a = false := by
    intro a t h
    cases hvc : collapseWs (pyStripL l) with
    | nil =>
      rw [hvc] at h
      simp [ins, sq] at h
    | cons cv vt =>
      have hcv : pyWs cv = false := hv_head cv vt hvc
      rw [hvc, ins_eq] at h
      have h6 := sq_false_head_nonws (insA pAll cv vt) hcv
      rw [h] at h6
      have hac : a = cv := Option.some.inj h6
      rw [hac]
      exact hcv
  have hv_last : ∀ a, (collapseWs (pyStripL l)).getLast? = some a → pyWs a = false := by
    intro a h
    cases hg : (pyStripL l).getLast? with
    | none =>
      have hnil := getLast?_none_nil (pyStripL l) hg
      rw [hnil] at h
      simp [collapseWs, collapseWsGo] at h
    | some c =>
      have hc : pyWs c = false := pyStripL_last l c hg
      have h2 : (collapseWs (pyStripL l)).getLast? = some c :=
        collapse_last (pyStripL l) false c hg hc
      rw [h2] at h
      rw [← Option.some.inj h]
      exact hc
  have hw_last : ∀ a, (ins pAll (collapseWs (pyStripL l))).getLast? = some a →
      pyWs a = false := by
    intro a h
    cases hvc : collapseWs (pyStripL l) with
    | nil =>
      rw [hvc] at h
      simp [ins] at h
    | cons cv vt =>
      rw [hvc, ins_eq, insA_getLast vt cv] at h
      apply hv_last
      rw [hvc]
      exact h
  have hx_last : ∀ a, (sq false (ins pAll (collapseWs (pyStripL l)))).getLast? = some a →
      pyWs a = false := by
    intro a h
    cases hg : (ins pAll (collapseWs (pyStripL l))).getLast? with
    | none =>
      have hnil := getLast?_none_nil _ hg
      rw [hnil] at h
      simp [sq] at h
    | some c =>
      have hc := hw_last c hg
      have h2 := (sq_last_eq (ins pAll (collapseWs (pyStripL l))).length _ c le_rfl hg hc).1
      rw [h2] at h
      rw [← Option.some.inj h]
      exact hc
  have hnorm : normL l
      = tightenAmpSuffix (sq false (ins pAll (collapseWs (pyStripL l)))) := by
    rw [normL_unfold, hx_eq]
  by_cases hsuf : ("& ) >".data.reverse).isPrefixOf
      (sq false (ins pAll (collapseWs (pyStripL l)))).reverse = true
  · obtain ⟨v', hxv, htx⟩ := tighten_split hsuf
    have hS : ("& ) >".data : List Char) = ['&', ' ', ')', ' ', '>'] := by decide
    have hT : ("&)>".data : List Char) = ['&', ')', '>'] := by decide
    have hu : normL l = v' ++ ['&', ')', '>'] := by
      rw [hnorm, htx, hT]
    have hchx := hx_chain
    rw [hxv, hS] at hchx
    have hamp : chainB uPairB (v' ++ ['&']) = true :=
      chainB_append_take1 v' '&' [' ', ')', ' ', '>'] hchx
    have hnd_amp : chainB noDblPair (v' ++ ['&']) = true :=
      chainB_mono (fun a b h => uPair_noDbl h) _ hamp
    have hnd_u : chainB noDblPair (v' ++ ['&', ')', '>']) = true :=
      chainB_append_ext v' '&' [')', '>'] hnd_amp (by decide)
    have hh_u : ∀ a t, v' ++ ['&', ')', '>'] = a :: t → pyWs a = false := by
      intro a t h
      cases v' with
      | nil =>
        simp only [List.nil_append] at h
        cases h
        decide
      | cons cv vt =>
        simp only [List.cons_append] at h
        have hcv : cv = a := (List.cons.inj h).1
        have h7 := hx_head cv (vt ++ ['&', ' ', ')', ' ', '>'])
          (by rw [hxv, hS, List.cons_append])
        rw [hcv] at h7
        exact h7
    have hl_u : ∀ a, (v' ++ ['&', ')', '>'] : List Char).getLast? = some a →
        pyWs a = false := by
      intro a h
      have h2 : (v' ++ ['&', ')', '>'] : List Char).getLast? = some '>' := by
        rw [← List.head?_reverse, List.reverse_append]
        rfl
      rw [h2] at h
      rw [← Option.some.inj h]
      decide
    have hstrip : collapseWs (pyStripL (v' ++ ['&', ')', '>'])) = v' ++ ['&', ')', '>'] :=
      strip_collapse_id hnd_u hh_u hl_u
    have hmid : commaSquash (ins pAll (v' ++ ['&', ')', '>']))
        = v' ++ ['&', ' ', ')', ' ', '>'] := by
      rw [commaSquash_eq_sq (ins_noDbl hnd_u)]
      exact undo_entry_suffix hamp
        (fun a t h => hh_u a (t ++ ['&', ')', '>']) (by rw [h, List.cons_append]))
    have hpass2 : normL (v' ++ ['&', ')', '>']) = v' ++ ['&', ')', '>'] := by
      rw [normL_unfold, hstrip, hmid]
      have hta := tighten_apply v'
      rw [hS, hT] at hta
      exact hta
    rw [hu, hpass2]
  · have hx1 : normL l = sq false (ins pAll (collapseWs (pyStripL l))) := by
      rw [hnorm, tighten_no_suffix hsuf]
    have hstrip : collapseWs (pyStripL (sq false (ins pAll (collapseWs (pyStripL l)))))
        = sq false (ins pAll (collapseWs (pyStripL l))) :=
      strip_collapse_id (chainB_mono (fun a b h => uPair_noDbl h) _ hx_chain)
        hx_head hx_last
    have hmid : commaSquash (ins pAll (sq false (ins pAll (collapseWs (pyStripL l)))))
        = sq false (ins pAll (collapseWs (pyStripL l))) := by
      rw [commaSquash_eq_sq (ins_noDbl (chainB_mono (fun a b h => uPair_noDbl h) _ hx_chain))]
      exact undo_entry hx_chain hx_head
    have hpass2 : normL (sq false (ins pAll (collapseWs (pyStripL l))))
        = sq false (ins pAll (collapseWs (pyStripL l))) := by
      rw [normL_unfold, hstrip, hmid, tighten_no_suffix hsuf]
    rw [hx1, hpass2]

/-- C5: `doxy_normalize_yml_params` is idempotent on every input string,
including the `'& ) >'`-suffix special case. -/
theorem C5_doxy_normalize_yml_params_idempotent (s : String) :
    doxy_normalize_yml_params (doxy_normalize_yml_params s)
      = doxy_normalize_yml_params s := by
  show String.mk (normL (String.mk (normL s.data)).data) = String.mk (normL s.data)
  show String.mk (normL (normL s.data)) = String.mk (normL s.data)
  rw [normL_idem]

end GenFromYml
